import Mathlib

set_option linter.unusedSectionVars false
set_option linter.unusedVariables false

/-!
# Verification of the ridesharing graph/optimization engine

Shallow embedding of the repository's core algorithms:
* `hungarian` (src/algorithms/hungarian.ts) — Kuhn–Munkres assignment solver,
  a step-numbered state machine over a square matrix padded with `Infinity`;
* `kruskal` and `UnionFind` (src/algorithms/kruskal.ts);
* `dijkstra` (src/algorithms/dijkstra.ts);
* distance / cost-matrix helpers (src/utils/graphUtils).

JavaScript numbers that may be `Infinity` are modelled by `Val α`
(`fin x` for a finite number, `inf` for `Infinity`); matrices are total
functions `ℕ → ℕ → Val α` and in-place array writes become pointwise
functional updates.  Loops are modelled by fuel-indexed recursion, with the
fuel proved sufficient.
-/

/-- A JavaScript number that is either finite or `Infinity`. -/
inductive Val (α : Type) where
  | fin (x : α)
  | inf
  deriving DecidableEq, Repr

namespace Val

variable {α : Type} [LinearOrderedCommRing α]

/-- `isFinite` from JS. -/
def isFin : Val α → Bool
  | fin _ => true
  | inf => false

/-- `Math.min` on possibly-infinite values. -/
def vmin : Val α → Val α → Val α
  | fin a, fin b => fin (min a b)
  | fin a, inf => fin a
  | inf, v => v

/-- Adding a finite number to a possibly-infinite value (`x += m` in JS). -/
def addF : Val α → α → Val α
  | fin a, m => fin (a + m)
  | inf, _ => inf

/-- Subtracting a finite number from a possibly-infinite value (`x -= m` in JS). -/
def subF : Val α → α → Val α
  | fin a, m => fin (a - m)
  | inf, _ => inf

/-- `Math.min(...list)`: fold of `vmin` with identity `Infinity`
(`Math.min()` of an empty argument list is `Infinity`). -/
def listMin (l : List (Val α)) : Val α :=
  l.foldl vmin inf

@[simp] theorem isFin_fin (x : α) : (fin x).isFin = true := rfl

@[simp] theorem isFin_inf : (inf : Val α).isFin = false := rfl

@[simp] theorem addF_fin (a m : α) : (fin a).addF m = fin (a + m) := rfl

@[simp] theorem addF_inf (m : α) : (inf : Val α).addF m = inf := rfl

@[simp] theorem subF_fin (a m : α) : (fin a).subF m = fin (a - m) := rfl

@[simp] theorem subF_inf (m : α) : (inf : Val α).subF m = inf := rfl

@[simp] theorem vmin_inf_right (v : Val α) : vmin v inf = v := by
  cases v <;> rfl

@[simp] theorem vmin_inf_left (v : Val α) : vmin inf v = v := rfl

end Val

namespace Hungarian

variable {α : Type} [LinearOrderedCommRing α]

/-- Matrices are total functions; only indices `< n` are ever consulted. -/
abbrev Mat (α : Type) := ℕ → ℕ → Val α

/-- Pointwise functional update, modelling `a[i][j] = v`. -/
def upd2 {β : Type} (f : ℕ → ℕ → β) (i j : ℕ) (v : β) : ℕ → ℕ → β :=
  fun i' j' => if i' = i ∧ j' = j then v else f i' j'

/-- Functional update, modelling `a[i] = v`. -/
def upd1 {ι β : Type} [DecidableEq ι] (f : ι → β) (i : ι) (v : β) : ι → β :=
  fun i' => if i' = i then v else f i'

/-- Number of rows of the input matrix (`costMatrix.length`). -/
def rowsOf (cm : List (List α)) : ℕ := cm.length

/-- Number of columns (`costMatrix[0]?.length || 0`). -/
def colsOf (cm : List (List α)) : ℕ :=
  match cm with
  | [] => 0
  | r :: _ => r.length

/-- Side of the padded square matrix (`Math.max(m, cols)`). -/
def padSize (cm : List (List α)) : ℕ := max (rowsOf cm) (colsOf cm)

/-- Entry of the original rectangular matrix (indices in range for
rectangular inputs; out-of-range reads default to `0` and never occur on
the claims' inputs). -/
def entry (cm : List (List α)) (i j : ℕ) : α :=
  ((cm.getD i []).getD j 0)

/-- The padded square matrix: original entries inside the `m × cols`
rectangle, `Infinity` in the padding. -/
def padded (cm : List (List α)) : Mat α := fun i j =>
  if i < rowsOf cm ∧ j < colsOf cm then Val.fin (entry cm i j) else Val.inf

/-- Minimum of the finite entries of row `i`
(`Math.min(...matrix[i].filter(isFinite))`; `vmin` ignores `Infinity`,
matching the filter). -/
def rowMin (n : ℕ) (M : Mat α) (i : ℕ) : Val α :=
  Val.listMin ((List.range n).map fun j => M i j)

/-- Step 1 of the reduction: subtract each row's finite minimum from the
finite entries of that row. -/
def rowReduce (n : ℕ) (M : Mat α) : Mat α := fun i j =>
  match rowMin n M i with
  | Val.fin m => if (M i j).isFin then (M i j).subF m else M i j
  | Val.inf => M i j

/-- Minimum of the finite entries of column `j`. -/
def colMin (n : ℕ) (M : Mat α) (j : ℕ) : Val α :=
  Val.listMin ((List.range n).map fun i => M i j)

/-- Step 2 of the reduction: subtract each column's finite minimum from the
finite entries of that column. -/
def colReduce (n : ℕ) (M : Mat α) : Mat α := fun i j =>
  match colMin n M j with
  | Val.fin m => if (M i j).isFin then (M i j).subF m else M i j
  | Val.inf => M i j

/-- Mask values: `0` unmarked, `1` starred, `2` primed. -/
abbrev Masks := ℕ → ℕ → ℕ

/-- State of the step machine (`matrix`, `masks`, `rowCover`, `colCover`,
`pathStart`, and the `step` variable of the `while` loop). -/
structure HState (α : Type) where
  mat : Mat α
  masks : Masks
  rowCover : ℕ → Bool
  colCover : ℕ → Bool
  pathStart : Option (ℕ × ℕ)
  step : ℕ

/-- The greedy initial starring: scan cells in row-major order, starring a
zero whose row and column hold no star yet (covers are used as scratch
flags and cleared afterwards, as in the source). -/
def initStar (n : ℕ) (M : Mat α) : Masks × (ℕ → Bool) × (ℕ → Bool) :=
  (List.range n).foldl
    (fun st i =>
      (List.range n).foldl
        (fun st j =>
          let (mk, rc, cc) := st
          if M i j = Val.fin 0 ∧ rc i = false ∧ cc j = false then
            (upd2 mk i j 1, upd1 rc i true, upd1 cc j true)
          else st)
        st)
    ((fun _ _ => 0), (fun _ => false), (fun _ => false))

/-- `findUncoveredZero`: first zero (row-major) in an uncovered row and
uncovered column. -/
def findUncoveredZero (n : ℕ) (M : Mat α) (rowC colC : ℕ → Bool) :
    Option (ℕ × ℕ) :=
  (List.range n).findSome? fun i =>
    if rowC i then none
    else ((List.range n).find? fun j =>
        decide (M i j = Val.fin 0) && !colC j).map fun j => (i, j)

/-- `findStarInRow`: `masks[row].indexOf(1)`, as an `Option`. -/
def findStarInRow (n : ℕ) (mk : Masks) (i : ℕ) : Option ℕ :=
  (List.range n).find? fun j => mk i j == 1

/-- `findStarInCol`. -/
def findStarInCol (n : ℕ) (mk : Masks) (j : ℕ) : Option ℕ :=
  (List.range n).find? fun i => mk i j == 1

/-- `findPrimeInRow`: `masks[row].indexOf(2)`, as an `Option`. -/
def findPrimeInRow (n : ℕ) (mk : Masks) (i : ℕ) : Option ℕ :=
  (List.range n).find? fun j => mk i j == 2

/-- `findMinUncoveredValue`: minimum over cells in uncovered rows and
uncovered columns. -/
def findMinUncovered (n : ℕ) (M : Mat α) (rowC colC : ℕ → Bool) : Val α :=
  (List.range n).foldl
    (fun acc i =>
      if rowC i then acc
      else (List.range n).foldl
        (fun acc j => if colC j then acc else acc.vmin (M i j)) acc)
    Val.inf

/-- The alternating-path loop of `findAugmentingPath` after the initial
cell: repeatedly find the star in the current column and the prime in that
star's row.  The fuel is exhausted, and the `findPrimeInRow = none` arm
taken, only on states unreachable from a valid start (proved below). -/
def augPath (n : ℕ) (mk : Masks) : ℕ → ℕ → List (ℕ × ℕ)
  | 0, _ => []
  | fuel + 1, c =>
    match findStarInCol n mk c with
    | none => []
    | some r =>
      match findPrimeInRow n mk r with
      | none => [(r, c)]
      | some c' => (r, c) :: (r, c') :: augPath n mk fuel c'

/-- `findAugmentingPath`: the start cell followed by the alternating
star/prime cells. -/
def findAugmentingPath (n : ℕ) (mk : Masks) (start : ℕ × ℕ) :
    List (ℕ × ℕ) :=
  start :: augPath n mk (n + 1) start.2

/-- `case 1`: recompute `colCover` from the starred zeros; finish when all
`n` columns are covered. -/
def step1 (n : ℕ) (s : HState α) : HState α :=
  let cc : ℕ → Bool := fun j => (List.range n).any fun i => s.masks i j == 1
  let covered := ((List.range n).filter fun j => cc j).length
  { s with colCover := cc, step := if covered = n then 0 else 2 }

/-- `case 2`: prime an uncovered zero; if its row holds a star, cover the
row and uncover the star's column, otherwise record the path start. -/
def step2 (n : ℕ) (s : HState α) : HState α :=
  match findUncoveredZero n s.mat s.rowCover s.colCover with
  | none => { s with step := 6 }
  | some (i, j) =>
    let mk := upd2 s.masks i j 2
    match findStarInRow n mk i with
    | some sc =>
      { s with masks := mk, rowCover := upd1 s.rowCover i true,
               colCover := upd1 s.colCover sc false, step := 2 }
    | none =>
      { s with masks := mk, pathStart := some (i, j), step := 3 }

/-- Flip a star/prime along the augmenting path
(`masks[r][c] = masks[r][c] === 1 ? 0 : 1`, applied sequentially). -/
def flipPath (mk : Masks) (path : List (ℕ × ℕ)) : Masks :=
  path.foldl (fun mk p => upd2 mk p.1 p.2 (if mk p.1 p.2 = 1 then 0 else 1)) mk

/-- Erase all primes (`masks[i][j] === 2 → 0`). -/
def clearPrimes (mk : Masks) : Masks := fun i j =>
  if mk i j = 2 then 0 else mk i j

/-- `case 3`: flip along the augmenting path, clear covers and primes,
return to `case 1`.  The `pathStart = none` arm is unreachable (`case 3`
is only entered right after `pathStart` is set). -/
def step3 (n : ℕ) (s : HState α) : HState α :=
  match s.pathStart with
  | none => { s with step := 0 }
  | some start =>
    let path := findAugmentingPath n s.masks start
    let mk := clearPrimes (flipPath s.masks path)
    { s with masks := mk, rowCover := fun _ => false,
             colCover := fun _ => false, step := 1 }

/-- `case 6`: if no finite uncovered value remains, stop; otherwise add
the minimum uncovered value to covered rows and subtract it from uncovered
columns. -/
def step6 (n : ℕ) (s : HState α) : HState α :=
  match findMinUncovered n s.mat s.rowCover s.colCover with
  | Val.inf => { s with step := 0 }
  | Val.fin mv =>
    let M : Mat α := fun i j =>
      let a := if s.rowCover i then (s.mat i j).addF mv else s.mat i j
      if s.colCover j then a else a.subF mv
    { s with mat := M, step := 2 }

/-- One dispatch of the `switch` inside `while (step !== 0)`. -/
def stepFn (n : ℕ) (s : HState α) : HState α :=
  if s.step = 1 then step1 n s
  else if s.step = 2 then step2 n s
  else if s.step = 3 then step3 n s
  else if s.step = 6 then step6 n s
  else s

/-- Run the machine for at most `fuel` dispatches, stopping at `step = 0`. -/
def run (n : ℕ) : ℕ → HState α → HState α
  | 0, s => s
  | fuel + 1, s => if s.step = 0 then s else run n fuel (stepFn n s)

/-- The state at the top of the `while` loop: reduced padded matrix,
greedily starred masks, cleared covers, `step = 1`. -/
def reducedMat (cm : List (List α)) : Mat α :=
  colReduce (padSize cm) (rowReduce (padSize cm) (padded cm))

def initState (cm : List (List α)) : HState α :=
  { mat := reducedMat cm,
    masks := (initStar (padSize cm) (reducedMat cm)).1,
    rowCover := fun _ => false,
    colCover := fun _ => false, pathStart := none, step := 1 }

/-- Fuel sufficient for termination (proved below via a lexicographic
measure on the machine state). -/
def hungarianFuel (n : ℕ) : ℕ := 8 * (n + 2) * (n + 2) + 8

/-- The final machine state reached by `hungarian`. -/
def finalState (cm : List (List α)) : HState α :=
  run (padSize cm) (hungarianFuel (padSize cm)) (initState cm)

/-- Extracted assignments: starred cells inside the original
`m × cols` rectangle, in row-major order. -/
def assignmentsOf (cm : List (List α)) (mk : Masks) : List (ℕ × ℕ) :=
  (List.range (rowsOf cm)).flatMap fun i =>
    ((List.range (colsOf cm)).filter fun j => mk i j == 1).map fun j => (i, j)

/-- `hungarian`: assignments plus the total of the *original* matrix
entries at the starred cells. -/
def hungarian (cm : List (List α)) : List (ℕ × ℕ) × α :=
  let mk := (finalState cm).masks
  let asg := assignmentsOf cm mk
  (asg, (asg.map fun p => entry cm p.1 p.2).sum)

end Hungarian

namespace GraphUtils

/-- The metric selector `'euclidean' | 'haversine'`. -/
inductive Metric where
  | euclidean
  | haversine
  deriving DecidableEq, Repr

/-- A geolocated node `{ id, lat, lng }`. -/
structure Node where
  id : String
  lat : ℝ
  lng : ℝ

/-- `Math.atan2`, modelled piecewise from `Real.arctan` (the engine only
ever calls it with non-negative arguments). -/
noncomputable def atan2 (y x : ℝ) : ℝ :=
  if 0 < x then Real.arctan (y / x)
  else if x < 0 then
    (if 0 ≤ y then Real.arctan (y / x) + Real.pi
     else Real.arctan (y / x) - Real.pi)
  else
    (if 0 < y then Real.pi / 2
     else if y < 0 then -(Real.pi / 2)
     else 0)

/-- `euclideanDistance`: plain planar distance on the coordinates. -/
noncomputable def euclideanDistance (lat1 lng1 lat2 lng2 : ℝ) : ℝ :=
  Real.sqrt ((lat2 - lat1) * (lat2 - lat1) + (lng2 - lng1) * (lng2 - lng1))

/-- `haversineDistance`: great-circle distance, Earth radius 6371 km. -/
noncomputable def haversineDistance (lat1 lng1 lat2 lng2 : ℝ) : ℝ :=
  let dLat := (lat2 - lat1) * (Real.pi / 180)
  let dLng := (lng2 - lng1) * (Real.pi / 180)
  let a := Real.sin (dLat / 2) * Real.sin (dLat / 2) +
    Real.cos (lat1 * (Real.pi / 180)) * Real.cos (lat2 * (Real.pi / 180)) *
    Real.sin (dLng / 2) * Real.sin (dLng / 2)
  let c := 2 * atan2 (Real.sqrt a) (Real.sqrt (1 - a))
  6371 * c

/-- The selected distance function. -/
noncomputable def distanceFunc (method : Metric) : ℝ → ℝ → ℝ → ℝ → ℝ :=
  match method with
  | Metric.haversine => haversineDistance
  | Metric.euclidean => euclideanDistance

/-- One `{driverId, passengerId, cost}` pair. -/
structure CMPair where
  driverId : String
  passengerId : String
  cost : ℝ

/-- `buildCostMatrix`: the dense cost matrix plus the row-major flat pair
list; `cost = distance * timePerKm`. -/
noncomputable def buildCostMatrix (drivers passengers : List Node)
    (method : Metric) (timePerKm : ℝ) :
    List (List ℝ) × List CMPair :=
  let dist := distanceFunc method
  (drivers.map fun d => passengers.map fun p =>
      dist d.lat d.lng p.lat p.lng * timePerKm,
   drivers.flatMap fun d => passengers.map fun p =>
      ⟨d.id, p.id, dist d.lat d.lng p.lat p.lng * timePerKm⟩)

/-- `sumNaiveAssignments`: cost of pairing `driver[i]` with `passenger[i]`
for `i` up to the shorter length, at the fixed factor `timePerKm = 2`. -/
noncomputable def sumNaiveAssignments (drivers passengers : List Node)
    (method : Metric) : ℝ :=
  let dist := distanceFunc method
  ((drivers.zip passengers).map fun dp =>
      dist dp.1.lat dp.1.lng dp.2.lat dp.2.lng * 2).sum

end GraphUtils

namespace Kruskal

variable {α : Type} [LinearOrderedCommRing α]

/-- An undirected weighted edge `{ u, v, weight }`. -/
structure Edge (α : Type) where
  u : String
  v : String
  weight : α
  deriving DecidableEq, Repr

/-- Lookup in an association-list model of a JS object. -/
def aget {β : Type} (l : List (String × β)) (k : String) : Option β :=
  List.lookup k l

/-- Assignment in an association-list model of a JS object: overwrite the
existing entry in place, or append a new one. -/
def aset {β : Type} (l : List (String × β)) (k : String) (v : β) :
    List (String × β) :=
  if (List.lookup k l).isSome then
    l.map fun p => if p.1 = k then (k, v) else p
  else l ++ [(k, v)]

/-- The `UnionFind` state: `parent` and `rank` maps. -/
structure UF where
  parent : List (String × String)
  rank : List (String × ℕ)

/-- The `UnionFind` constructor: every listed node is its own parent with
rank `0`. -/
def UF.init (nodes : List String) : UF :=
  nodes.foldl
    (fun uf nd => ⟨aset uf.parent nd nd, aset uf.rank nd 0⟩)
    ⟨[], []⟩

/-- `find` with explicit fuel: lazily register unseen ids, return roots,
recurse and compress otherwise.  Fuel exhaustion (returning the current id)
is unreachable from well-formed states, as proved below. -/
def findAux : ℕ → UF → String → UF × String
  | 0, uf, x => (uf, x)
  | fuel + 1, uf, x =>
    match aget uf.parent x with
    | none => (⟨aset uf.parent x x, aset uf.rank x 0⟩, x)
    | some p =>
      if p = x then (uf, x)
      else
        let r := findAux fuel uf p
        (⟨aset r.1.parent x r.2, r.1.rank⟩, r.2)

/-- `find(nodeId)`: enough fuel for any acyclic parent chain. -/
def UF.find (uf : UF) (x : String) : UF × String :=
  findAux (uf.parent.length + 1) uf x

/-- `union(nodeA, nodeB)`: union by rank; returns whether a merge
happened. -/
def UF.union (uf : UF) (a b : String) : UF × Bool :=
  let fa := uf.find a
  let fb := fa.1.find b
  let uf2 := fb.1
  let rootA := fa.2
  let rootB := fb.2
  if rootA ≠ rootB then
    let rkA := (aget uf2.rank rootA).getD 0
    let rkB := (aget uf2.rank rootB).getD 0
    if rkB < rkA then
      (⟨aset uf2.parent rootB rootA, uf2.rank⟩, true)
    else if rkA < rkB then
      (⟨aset uf2.parent rootA rootB, uf2.rank⟩, true)
    else
      (⟨aset uf2.parent rootB rootA, aset uf2.rank rootA (rkA + 1)⟩, true)
  else (uf2, false)

/-- `kruskal`: sort a copy of the edges by weight, then greedily accept
edges joining distinct components.  JS `sort` with this comparator is a
stable sort, whose result is the unique stably-by-weight-sorted
rearrangement; `insertionSort` computes exactly that. -/
def kruskal (nodes : List String) (edges : List (Edge α)) :
    List (Edge α) × α :=
  let sortedEdges := edges.insertionSort fun a b => a.weight ≤ b.weight
  let result :=
    sortedEdges.foldl
      (fun st e =>
        let (uf, mst, tw) := st
        let r := uf.union e.u e.v
        if r.2 then (r.1, mst ++ [e], tw + e.weight) else (r.1, mst, tw))
      (UF.init nodes, [], 0)
  (result.2.1, result.2.2)

end Kruskal

namespace Val

variable {α : Type} [LinearOrderedCommRing α]

/-- The JS `<` on possibly-infinite numbers (`x < Infinity` for finite
`x`; nothing is below a finite number coming from `Infinity`). -/
def lt : Val α → Val α → Bool
  | fin a, fin b => decide (a < b)
  | fin _, inf => true
  | inf, _ => false

end Val

namespace Dijkstra

variable {α : Type} [LinearOrderedCommRing α]

/-- An adjacency-list graph: object keys in insertion order, each with its
`{ neighborId, weight }` list. -/
abbrev Graph (α : Type) := List (String × List (String × α))

open Kruskal in
/-- The loop state: `distances`, `predecessors`, `visited`, and the
priority-queue array. -/
structure DState (α : Type) where
  distances : List (String × Val α)
  predecessors : List (String × Option String)
  visited : String → Bool
  queue : List (String × α)

open Kruskal in
/-- Relax every edge out of `cur` (`for ... of graph[currentNodeId]`).
When `distances[cur]` is not finite no comparison can succeed (in JS the
sum is `Infinity` or `NaN`), so nothing is updated, as here. -/
def relaxAll (cur : String) (adj : List (String × α)) (s : DState α) :
    DState α :=
  adj.foldl
    (fun st nw =>
      match List.lookup cur st.distances with
      | some (Val.fin dc) =>
        let nd := dc + nw.2
        match List.lookup nw.1 st.distances with
        | some dv =>
          if Val.lt (Val.fin nd) dv then
            { st with
              distances := aset st.distances nw.1 (Val.fin nd),
              predecessors := aset st.predecessors nw.1 (some cur),
              queue := st.queue ++ [(nw.1, nd)] }
          else st
        | none => st
      | _ => st)
    s

/-- One spin of `while (priorityQueue.length > 0)`: stably sort the queue
by tentative distance (as the JS comparator does), shift the head, skip
visited nodes, mark and relax otherwise. -/
def dstep (g : Graph α) (s : DState α) : DState α :=
  match s.queue.insertionSort (fun a b => a.2 ≤ b.2) with
  | [] => s
  | (cur, _) :: rest =>
    if s.visited cur then { s with queue := rest }
    else
      let s1 : DState α :=
        { s with visited := Hungarian.upd1 s.visited cur true, queue := rest }
      match List.lookup cur g with
      | none => s1
      | some adj => relaxAll cur adj s1

/-- Run the queue loop for at most `fuel` spins (the queue is empty from
some point on; the fuel below is proved sufficient). -/
def drun (g : Graph α) : ℕ → DState α → DState α
  | 0, s => s
  | fuel + 1, s => if s.queue = [] then s else drun g fuel (dstep g s)

open Kruskal in
/-- The initial state: every graph key at distance `Infinity` with no
predecessor, then `distances[startNode] = 0`, queue `[{startNode, 0}]`. -/
def dinit (g : Graph α) (startNode : String) : DState α :=
  { distances := aset (g.map fun kv => (kv.1, (Val.inf : Val α))) startNode
      (Val.fin 0),
    predecessors := g.map fun kv => (kv.1, (none : Option String)),
    visited := fun _ => false,
    queue := [(startNode, 0)] }

/-- Fuel sufficient to drain the queue (proved below). -/
def dijkstraFuel (g : Graph α) : ℕ :=
  (g.length + 2) * ((g.map fun kv => kv.2.length).sum + 2)

/-- `dijkstra(graph, startNode)`: final distances and predecessors. -/
def dijkstra (g : Graph α) (startNode : String) :
    List (String × Val α) × List (String × Option String) :=
  let s := drun g (dijkstraFuel g) (dinit g startNode)
  (s.distances, s.predecessors)

end Dijkstra

namespace Hungarian

variable {α : Type} [LinearOrderedCommRing α]

/-- A complete bipartite matching on the original `m × cols` rectangle:
index bounds plus no repeated row and no repeated column. -/
def IsMatching (m cols : ℕ) (pr : List (ℕ × ℕ)) : Prop :=
  (∀ p ∈ pr, p.1 < m ∧ p.2 < cols) ∧
    (pr.map Prod.fst).Nodup ∧ (pr.map Prod.snd).Nodup

instance (m cols : ℕ) (pr : List (ℕ × ℕ)) : Decidable (IsMatching m cols pr) := by
  unfold IsMatching; infer_instance

/-- Total cost of a matching on the original matrix. -/
def matchingCost (cm : List (List α)) (pr : List (ℕ × ℕ)) : α :=
  (pr.map fun p => entry cm p.1 p.2).sum

/-- The input is a rectangle: every row has the length of the first. -/
def Rectangular (cm : List (List α)) : Prop :=
  ∀ r ∈ cm, r.length = colsOf cm

/-- All entries are non-negative. -/
def NonnegMatrix (cm : List (List α)) : Prop :=
  ∀ r ∈ cm, ∀ x ∈ r, 0 ≤ x

/-- A fold whose step function never changes the accumulator computes the
initial accumulator. -/
theorem foldl_fixed {β γ : Type} {f : β → γ → β} {l : List γ} {b : β}
    (h : ∀ b' x, x ∈ l → f b' x = b') : l.foldl f b = b := by
  induction l generalizing b with
  | nil => rfl
  | cons x xs ih =>
    simp only [List.foldl_cons]
    rw [h b x (by simp)]
    exact ih fun b' y hy => h b' y (List.mem_cons_of_mem _ hy)

theorem run_of_step0 {n fuel : ℕ} {s : HState α} (h : s.step = 0) :
    run n fuel s = s := by
  cases fuel with
  | zero => rfl
  | succ f => simp [run, h]

theorem listMin_eq_inf {l : List (Val α)} (h : ∀ v ∈ l, v = Val.inf) :
    Val.listMin l = Val.inf := by
  unfold Val.listMin
  exact foldl_fixed fun b' x hx => by rw [h x hx]; exact Val.vmin_inf_right b'

/-- With no columns, the padded matrix is identically `Infinity`. -/
theorem padded_of_colsZero {cm : List (List α)} (h : colsOf cm = 0) :
    ∀ i j, padded cm i j = Val.inf := by
  intro i j
  unfold padded
  rw [h]
  simp

theorem rowReduce_of_inf {n : ℕ} {M : Mat α} (h : ∀ i j, M i j = Val.inf) :
    ∀ i j, rowReduce n M i j = Val.inf := by
  intro i j
  have hm : rowMin n M i = Val.inf := by
    apply listMin_eq_inf
    intro v hv
    simp only [List.mem_map] at hv
    obtain ⟨a, _, rfl⟩ := hv
    exact h i a
  unfold rowReduce
  rw [hm, h]

theorem colReduce_of_inf {n : ℕ} {M : Mat α} (h : ∀ i j, M i j = Val.inf) :
    ∀ i j, colReduce n M i j = Val.inf := by
  intro i j
  have hm : colMin n M j = Val.inf := by
    apply listMin_eq_inf
    intro v hv
    simp only [List.mem_map] at hv
    obtain ⟨a, _, rfl⟩ := hv
    exact h a j
  unfold colReduce
  rw [hm, h]

theorem initStar_of_inf {n : ℕ} {M : Mat α} (h : ∀ i j, M i j = Val.inf) :
    initStar n M = ((fun _ _ => 0), (fun _ => false), (fun _ => false)) := by
  unfold initStar
  apply foldl_fixed
  intro st i _
  apply foldl_fixed
  intro st' j _
  obtain ⟨mk, rc, cc⟩ := st'
  simp [h i j]

theorem findUncoveredZero_of_inf {n : ℕ} {M : Mat α} {rc cc : ℕ → Bool}
    (h : ∀ i j, M i j = Val.inf) :
    findUncoveredZero n M rc cc = none := by
  unfold findUncoveredZero
  rw [List.findSome?_eq_none_iff]
  intro i _
  have hf : (List.range n).find? (fun j => decide (M i j = Val.fin 0) && !cc j) = none := by
    rw [List.find?_eq_none]
    intro j _
    simp [h i j]
  by_cases hr : rc i <;> simp [hr, hf]

theorem findMinUncovered_of_inf {n : ℕ} {M : Mat α} {rc cc : ℕ → Bool}
    (h : ∀ i j, M i j = Val.inf) :
    findMinUncovered n M rc cc = Val.inf := by
  unfold findMinUncovered
  apply foldl_fixed
  intro acc i _
  by_cases hr : rc i
  · simp [hr]
  · simp only [hr, if_false]
    apply foldl_fixed
    intro acc' j _
    by_cases hc : cc j
    · simp [hc]
    · simp [hc, h i j]

theorem run_succ (n fuel : ℕ) (s : HState α) :
    run n (fuel + 1) s = if s.step = 0 then s else run n fuel (stepFn n s) := rfl

/-- With no columns the machine starts on an all-`Infinity` matrix and
stops after at most three dispatches. -/
theorem finalState_of_colsZero {cm : List (List α)} (h : colsOf cm = 0) :
    (finalState cm).step = 0 := by
  have hM : ∀ i j, reducedMat cm i j = Val.inf :=
    colReduce_of_inf (rowReduce_of_inf (padded_of_colsZero h))
  have hinit : initState cm
      = ⟨reducedMat cm, fun _ _ => 0, fun _ => false, fun _ => false, none, 1⟩ := by
    unfold initState
    rw [initStar_of_inf hM]
  have hs1 : stepFn (padSize cm)
      (⟨reducedMat cm, fun _ _ => 0, fun _ => false, fun _ => false, none, 1⟩ : HState α)
      = ⟨reducedMat cm, fun _ _ => 0, fun _ => false, fun _ => false, none,
          if padSize cm = 0 then 0 else 2⟩ := by
    unfold stepFn step1
    norm_num
    refine ⟨?_, ?_⟩
    · funext j
      simp
    · have hcnt : (List.filter
          (fun j => (List.range (padSize cm)).any fun i => (0 : ℕ) == 1)
          (List.range (padSize cm))).length = 0 := by
        simp
      simp only [hcnt]
      rcases Nat.eq_zero_or_pos (padSize cm) with h0 | hpos
      · simp [h0]
      · have hne : padSize cm ≠ 0 := Nat.pos_iff_ne_zero.mp hpos
        simp [hne, Ne.symm hne]
  have hs2 : stepFn (padSize cm)
      (⟨reducedMat cm, fun _ _ => 0, fun _ => false, fun _ => false, none, 2⟩ : HState α)
      = ⟨reducedMat cm, fun _ _ => 0, fun _ => false, fun _ => false, none, 6⟩ := by
    unfold stepFn step2
    norm_num
    rw [findUncoveredZero_of_inf hM]
  have hs6 : stepFn (padSize cm)
      (⟨reducedMat cm, fun _ _ => 0, fun _ => false, fun _ => false, none, 6⟩ : HState α)
      = ⟨reducedMat cm, fun _ _ => 0, fun _ => false, fun _ => false, none, 0⟩ := by
    unfold stepFn step6
    norm_num
    rw [findMinUncovered_of_inf hM]
  unfold finalState
  rw [hinit]
  have hfuel : hungarianFuel (padSize cm)
      = (8 * (padSize cm + 2) * (padSize cm + 2) + 5) + 1 + 1 + 1 := by
    unfold hungarianFuel
    ring
  rw [hfuel, run_succ]
  norm_num
  rw [hs1]
  rcases Nat.eq_zero_or_pos (padSize cm) with h0 | hpos
  · simp only [h0, if_pos rfl]
    exact congrArg HState.step (run_of_step0 rfl)
  · have hne : padSize cm ≠ 0 := Nat.pos_iff_ne_zero.mp hpos
    simp only [if_neg hne]
    rw [run_succ]
    norm_num
    rw [hs2, run_succ]
    norm_num
    rw [hs6]
    exact congrArg HState.step (run_of_step0 rfl)

/-- With no columns there are no starred cells inside the original
rectangle, so the extraction is empty. -/
theorem hungarian_of_colsZero {cm : List (List α)} (h : colsOf cm = 0) :
    hungarian cm = ([], 0) := by
  unfold hungarian assignmentsOf
  rw [h]
  have hfl : ((List.range (rowsOf cm)).flatMap fun i => ([] : List (ℕ × ℕ))) = [] :=
    List.flatMap_eq_nil_iff.mpr fun _ _ => rfl
  simp only [List.range_zero, List.filter_nil, List.map_nil, hfl, List.map_nil,
    List.sum_nil]

end Hungarian

namespace Hungarian

variable {α : Type} [LinearOrderedCommRing α]

theorem rowsZero_colsZero {cm : List (List α)} (h : rowsOf cm = 0) :
    colsOf cm = 0 := by
  cases cm with
  | nil => rfl
  | cons r t => simp [rowsOf] at h

theorem allEmpty_colsZero {cm : List (List α)} (h : ∀ r ∈ cm, r = []) :
    colsOf cm = 0 := by
  cases cm with
  | nil => rfl
  | cons r t =>
    have : r = [] := h r (by simp)
    simp [colsOf, this]

end Hungarian

/-- **C8.** An input matrix with zero rows, or whose rows are all empty,
makes `hungarian` return no assignments and total cost `0` (with the step
machine reaching the terminal step `0` rather than looping); and
`buildCostMatrix` on an empty driver or passenger list returns an empty
(zero-cell) matrix and an empty pair list. -/
theorem claim_C8 :
    (∀ (α : Type) [LinearOrderedCommRing α] (cm : List (List α)),
      Hungarian.rowsOf cm = 0 →
        Hungarian.hungarian cm = ([], 0) ∧ (Hungarian.finalState cm).step = 0) ∧
    (∀ (α : Type) [LinearOrderedCommRing α] (cm : List (List α)),
      (∀ r ∈ cm, r = []) →
        Hungarian.hungarian cm = ([], 0) ∧ (Hungarian.finalState cm).step = 0) ∧
    (∀ (passengers : List GraphUtils.Node) (method : GraphUtils.Metric)
        (t : ℝ), GraphUtils.buildCostMatrix [] passengers method t = ([], [])) ∧
    (∀ (drivers : List GraphUtils.Node) (method : GraphUtils.Metric) (t : ℝ),
      GraphUtils.buildCostMatrix drivers [] method t
        = (drivers.map fun _ => [], [])) := by
  refine ⟨?_, ?_, ?_, ?_⟩
  · intro α _ cm h
    exact ⟨Hungarian.hungarian_of_colsZero (Hungarian.rowsZero_colsZero h),
      Hungarian.finalState_of_colsZero (Hungarian.rowsZero_colsZero h)⟩
  · intro α _ cm h
    exact ⟨Hungarian.hungarian_of_colsZero (Hungarian.allEmpty_colsZero h),
      Hungarian.finalState_of_colsZero (Hungarian.allEmpty_colsZero h)⟩
  · intro passengers method t
    rfl
  · intro drivers method t
    unfold GraphUtils.buildCostMatrix
    refine congrArg₂ Prod.mk rfl ?_
    exact List.flatMap_eq_nil_iff.mpr fun _ _ => rfl

/-- Witness for C8 at concrete inputs. -/
theorem claim_C8_witness :
    Hungarian.hungarian ([[], []] : List (List ℤ)) = ([], 0) ∧
    Hungarian.hungarian ([] : List (List ℤ)) = ([], 0) ∧
    GraphUtils.buildCostMatrix [] [⟨"P1", 0, 0⟩] GraphUtils.Metric.euclidean 2
      = ([], []) ∧
    GraphUtils.buildCostMatrix [⟨"D1", 0, 0⟩] [] GraphUtils.Metric.euclidean 2
      = ([[]], []) :=
  ⟨(claim_C8.2.1 ℤ [[], []] (by decide)).1,
   (claim_C8.1 ℤ [] rfl).1,
   claim_C8.2.2.1 [⟨"P1", 0, 0⟩] GraphUtils.Metric.euclidean 2,
   claim_C8.2.2.2 [⟨"D1", 0, 0⟩] GraphUtils.Metric.euclidean 2⟩

/-- **C1, counterexample.**  On the rectangular 1 × 2 matrix `[[5, 3]]`
the solver keeps the greedy star on the padded matrix and returns the
assignment `{(0,0)}` of total cost `5`, yet the complete matching
`{(0,1)}` of cardinality `min 1 2` costs only `3`: the returned total is
not the global minimum over complete matchings of cardinality
`min(m, n)`. -/
theorem claim_C1_counterexample :
    Hungarian.hungarian ([[5, 3]] : List (List ℤ)) = ([(0, 0)], 5) ∧
    Hungarian.IsMatching (Hungarian.rowsOf ([[5, 3]] : List (List ℤ)))
      (Hungarian.colsOf ([[5, 3]] : List (List ℤ))) [(0, 1)] ∧
    [(0, 1)].length
      = min (Hungarian.rowsOf ([[5, 3]] : List (List ℤ)))
          (Hungarian.colsOf ([[5, 3]] : List (List ℤ))) ∧
    Hungarian.matchingCost ([[5, 3]] : List (List ℤ)) [(0, 1)]
      < (Hungarian.hungarian ([[5, 3]] : List (List ℤ))).2 := by
  refine ⟨by decide, by decide, by decide, by decide⟩

namespace Kruskal

variable {α : Type} [LinearOrderedCommRing α]

theorem kruskalFold_sublist (l : List (Edge α)) :
    ∀ (uf : UF) (mst : List (Edge α)) (tw : α),
      ∃ s, (l.foldl
        (fun st e =>
          let (uf, mst, tw) := st
          let r := st.1.union e.u e.v
          if r.2 then (r.1, mst ++ [e], tw + e.weight) else (r.1, mst, tw))
        (uf, mst, tw)).2.1 = mst ++ s ∧ s.Sublist l := by
  induction l with
  | nil => exact fun uf mst tw => ⟨[], by simp⟩
  | cons e t ih =>
    intro uf mst tw
    simp only [List.foldl_cons]
    by_cases h : (uf.union e.u e.v).2
    · simp only [h, if_true]
      obtain ⟨s, hs, hsub⟩ := ih (uf.union e.u e.v).1 (mst ++ [e]) (tw + e.weight)
      exact ⟨e :: s, by simpa using hs, List.Sublist.cons₂ e hsub⟩
    · simp only [h, if_false]
      obtain ⟨s, hs, hsub⟩ := ih (uf.union e.u e.v).1 mst tw
      exact ⟨s, hs, List.Sublist.cons e hsub⟩

end Kruskal

/-- **C10.**  `kruskal` sorts a copy of the edge list (the caller's list is
left untouched — the embedding consumes immutable lists exactly because
the source sorts `[...edges]`), and the returned `mstEdges` is a
subsequence of that stably-by-weight-sorted rearrangement of the input
edges: a sublist of a sorted permutation of `edges`. -/
theorem claim_C10 {α : Type} [LinearOrderedCommRing α]
    (nodes : List String) (edges : List (Kruskal.Edge α)) :
    ((Kruskal.kruskal nodes edges).1.Sublist
      (edges.insertionSort fun a b => a.weight ≤ b.weight)) ∧
    ((edges.insertionSort fun a b => a.weight ≤ b.weight).Perm edges) ∧
    ((edges.insertionSort fun a b => a.weight ≤ b.weight).Sorted
      fun a b => a.weight ≤ b.weight) := by
  refine ⟨?_, List.perm_insertionSort _ edges, ?_⟩
  · unfold Kruskal.kruskal
    obtain ⟨s, hs, hsub⟩ :=
      Kruskal.kruskalFold_sublist
        (edges.insertionSort fun a b => a.weight ≤ b.weight)
        (Kruskal.UF.init nodes) [] 0
    simpa [hs] using hsub
  · haveI : IsTotal (Kruskal.Edge α) fun a b => a.weight ≤ b.weight :=
      ⟨fun a b => le_total a.weight b.weight⟩
    haveI : IsTrans (Kruskal.Edge α) fun a b => a.weight ≤ b.weight :=
      ⟨fun a b c hab hbc => le_trans hab hbc⟩
    exact List.sorted_insertionSort _ edges

namespace Dijkstra

variable {α : Type} [LinearOrderedCommRing α]

open Kruskal

theorem lookup_isSome_iff {β : Type} (l : List (String × β)) (k : String) :
    (List.lookup k l).isSome = true ↔ k ∈ l.map Prod.fst := by
  induction l with
  | nil => simp [List.lookup]
  | cons p t ih =>
    by_cases h : k = p.1
    · subst h
      simp [List.lookup]
    · have hb : (k == p.1) = false := beq_false_of_ne h
      simp [List.lookup, hb, ih, h]

theorem lookup_eq_none_iff {β : Type} (l : List (String × β)) (k : String) :
    List.lookup k l = none ↔ k ∉ l.map Prod.fst := by
  rw [← lookup_isSome_iff]
  cases h : List.lookup k l <;> simp [h]

theorem map_fst_aset_mem {β : Type} {l : List (String × β)} {k : String}
    (v : β) (h : (List.lookup k l).isSome = true) :
    (aset l k v).map Prod.fst = l.map Prod.fst := by
  unfold aset
  rw [if_pos h, List.map_map]
  apply List.map_congr_left
  intro p _
  by_cases hp : p.1 = k
  · simp [hp]
  · simp [hp]

theorem map_fst_aset_none {β : Type} {l : List (String × β)} {k : String}
    (v : β) (h : List.lookup k l = none) :
    (aset l k v).map Prod.fst = l.map Prod.fst ++ [k] := by
  unfold aset
  rw [if_neg (by simp [h])]
  simp

/-- The key-set invariant when the source is itself a graph key: both maps
keep exactly the graph keys. -/
def KeysInv (g : Graph α) (s : DState α) : Prop :=
  s.distances.map Prod.fst = g.map Prod.fst ∧
    s.predecessors.map Prod.fst = g.map Prod.fst

theorem relaxAll_keys {g : Graph α} {cur : String} {adj : List (String × α)}
    {s : DState α} (h : KeysInv g s) : KeysInv g (relaxAll cur adj s) := by
  unfold relaxAll
  induction adj generalizing s with
  | nil => exact h
  | cons nw t ih =>
    simp only [List.foldl_cons]
    apply ih
    cases hcur : List.lookup cur s.distances with
    | none => simpa [hcur] using h
    | some dv =>
      cases dv with
      | inf => simpa [hcur] using h
      | fin dc =>
        cases hnb : List.lookup nw.1 s.distances with
        | none => simpa [hcur, hnb] using h
        | some dnb =>
          by_cases hlt : Val.lt (Val.fin (dc + nw.2)) dnb
          · simp only [hcur, hnb, hlt, if_true]
            have hnbmem : nw.1 ∈ s.distances.map Prod.fst :=
              (lookup_isSome_iff _ _).mp (by simp [hnb])
            constructor
            · rw [map_fst_aset_mem _ (by simp [hnb])]
              exact h.1
            · have : (List.lookup nw.1 s.predecessors).isSome = true := by
                rw [lookup_isSome_iff, h.2, ← h.1]
                exact hnbmem
              rw [map_fst_aset_mem _ this]
              exact h.2
          · simpa [hcur, hnb, hlt] using h

theorem dstep_keys {g : Graph α} {s : DState α} (h : KeysInv g s) :
    KeysInv g (dstep g s) := by
  unfold dstep
  cases hq : s.queue.insertionSort (fun a b => a.2 ≤ b.2) with
  | nil => exact h
  | cons hd rest =>
    by_cases hv : s.visited hd.1
    · simpa [hv] using h
    · simp only [hv, if_false]
      cases hg : List.lookup hd.1 g with
      | none => exact h
      | some adj => exact relaxAll_keys h

theorem drun_succ (g : Graph α) (fuel : ℕ) (s : DState α) :
    drun g (fuel + 1) s = if s.queue = [] then s else drun g fuel (dstep g s) :=
  rfl

theorem drun_keys {g : Graph α} {s : DState α} (fuel : ℕ) (h : KeysInv g s) :
    KeysInv g (drun g fuel s) := by
  induction fuel generalizing s with
  | zero => exact h
  | succ f ih =>
    unfold drun
    by_cases hq : s.queue = []
    · simpa [hq] using h
    · simpa [hq] using ih (dstep_keys h)

end Dijkstra

/-- **C9.**  The key set of `dijkstra`'s distances map is exactly the
graph's key set plus the source id (appended when the source is not
already a key), and the predecessors map holds exactly the graph's keys:
an id occurring only as a `neighborId` — never as a key — is never
assigned a distance or predecessor. -/
theorem claim_C9 {α : Type} [LinearOrderedCommRing α]
    (g : Dijkstra.Graph α) (startNode : String) :
    ((Dijkstra.dijkstra g startNode).1.map Prod.fst
      = g.map Prod.fst
        ++ (if startNode ∈ g.map Prod.fst then [] else [startNode])) ∧
    ((Dijkstra.dijkstra g startNode).2.map Prod.fst = g.map Prod.fst) ∧
    (∀ x, x ∉ g.map Prod.fst → x ≠ startNode →
      List.lookup x (Dijkstra.dijkstra g startNode).1 = none ∧
      List.lookup x (Dijkstra.dijkstra g startNode).2 = none) := by
  have hinitkeys : (Dijkstra.dinit g startNode).distances.map Prod.fst
      = g.map Prod.fst
        ++ (if startNode ∈ g.map Prod.fst then [] else [startNode]) := by
    unfold Dijkstra.dinit
    by_cases hmem : startNode ∈ g.map Prod.fst
    · have : (List.lookup startNode
          (g.map fun kv => (kv.1, (Val.inf : Val α)))).isSome = true := by
        rw [Dijkstra.lookup_isSome_iff]
        simpa [List.map_map, Function.comp] using hmem
      rw [Dijkstra.map_fst_aset_mem _ this]
      simp [hmem, List.map_map, Function.comp]
    · have : List.lookup startNode
          (g.map fun kv => (kv.1, (Val.inf : Val α))) = none := by
        rw [Dijkstra.lookup_eq_none_iff]
        simpa [List.map_map, Function.comp] using hmem
      rw [Dijkstra.map_fst_aset_none _ this]
      simp [hmem, List.map_map, Function.comp]
  have hinitpreds : (Dijkstra.dinit g startNode).predecessors.map Prod.fst
      = g.map Prod.fst := by
    unfold Dijkstra.dinit
    simp [List.map_map, Function.comp]
  have main :
      (Dijkstra.dijkstra g startNode).1.map Prod.fst
        = g.map Prod.fst
          ++ (if startNode ∈ g.map Prod.fst then [] else [startNode]) ∧
      (Dijkstra.dijkstra g startNode).2.map Prod.fst = g.map Prod.fst := by
    by_cases hmem : startNode ∈ g.map Prod.fst
    · have hinv : Dijkstra.KeysInv g (Dijkstra.dinit g startNode) := by
        constructor
        · rw [hinitkeys]
          simp [hmem]
        · exact hinitpreds
      have := Dijkstra.drun_keys (g := g) (Dijkstra.dijkstraFuel g) hinv
      exact ⟨by simpa [hmem] using this.1, this.2⟩
    · -- the source is not a key: the single dispatch empties the queue
      have hlget : List.lookup startNode g = none :=
        (Dijkstra.lookup_eq_none_iff _ _).mpr hmem
      have hstep : Dijkstra.dstep g (Dijkstra.dinit g startNode)
          = { Dijkstra.dinit g startNode with
              visited := Hungarian.upd1
                (Dijkstra.dinit g startNode).visited startNode true,
              queue := [] } := by
        unfold Dijkstra.dstep
        have hq : (Dijkstra.dinit g startNode).queue.insertionSort
            (fun a b => a.2 ≤ b.2) = [(startNode, 0)] := rfl
        rw [hq]
        simp only [Dijkstra.dinit, if_neg (Bool.false_ne_true), hlget]
      have hrun : ∀ fuel, Dijkstra.drun g fuel (Dijkstra.dinit g startNode)
          = Dijkstra.drun g (fuel - 1)
              (Dijkstra.dstep g (Dijkstra.dinit g startNode)) ∨
          Dijkstra.drun g fuel (Dijkstra.dinit g startNode)
            = Dijkstra.dinit g startNode := by
        intro fuel
        cases fuel with
        | zero => exact Or.inr rfl
        | succ f =>
          left
          rw [Dijkstra.drun_succ]
          rw [if_neg (by simp [Dijkstra.dinit])]
          simp
      have hfinal : Dijkstra.dijkstra g startNode
          = ((Dijkstra.dstep g (Dijkstra.dinit g startNode)).distances,
             (Dijkstra.dstep g (Dijkstra.dinit g startNode)).predecessors)
          ∨ Dijkstra.dijkstra g startNode
          = ((Dijkstra.dinit g startNode).distances,
             (Dijkstra.dinit g startNode).predecessors) := by
        unfold Dijkstra.dijkstra
        rcases hrun (Dijkstra.dijkstraFuel g) with h | h
        · left
          rw [h, hstep]
          have : ∀ fuel, Dijkstra.drun g fuel
              ({ Dijkstra.dinit g startNode with
                visited := Hungarian.upd1
                  (Dijkstra.dinit g startNode).visited startNode true,
                queue := [] } : Dijkstra.DState α)
              = { Dijkstra.dinit g startNode with
                visited := Hungarian.upd1
                  (Dijkstra.dinit g startNode).visited startNode true,
                queue := [] } := by
            intro fuel
            cases fuel with
            | zero => rfl
            | succ f =>
              rw [Dijkstra.drun_succ]
              rw [if_pos rfl]
          rw [this]
        · right
          rw [h]
      rcases hfinal with h | h <;>
        · rw [h]
          simp only [hstep]
          exact ⟨hinitkeys, hinitpreds⟩
  refine ⟨main.1, main.2, ?_⟩
  intro x hx hxs
  constructor
  · rw [Dijkstra.lookup_eq_none_iff, main.1]
    simp only [List.mem_append]
    rintro (h | h)
    · exact hx h
    · by_cases hmem : startNode ∈ g.map Prod.fst <;> simp [hmem] at h
      exact hxs h
  · rw [Dijkstra.lookup_eq_none_iff, main.2]
    exact hx

namespace Val

variable {α : Type} [LinearOrderedCommRing α]

/-- Order on possibly-infinite values (`Infinity` on top). -/
def vle : Val α → Val α → Prop
  | fin a, fin b => a ≤ b
  | fin _, inf => True
  | inf, fin _ => False
  | inf, inf => True

theorem vle_refl (v : Val α) : vle v v := by cases v <;> simp [vle]

theorem vle_trans {u v w : Val α} (h₁ : vle u v) (h₂ : vle v w) : vle u w := by
  cases u <;> cases v <;> cases w <;> simp_all [vle]
  exact le_trans h₁ h₂

theorem vmin_le_left (u v : Val α) : vle (vmin u v) u := by
  cases u <;> cases v <;> simp [vle, vmin, min_le_left]

theorem vmin_le_right (u v : Val α) : vle (vmin u v) v := by
  cases u <;> cases v <;> simp [vle, vmin, min_le_right]

theorem vmin_cases (u v : Val α) : vmin u v = u ∨ vmin u v = v := by
  cases u with
  | inf => exact Or.inr rfl
  | fin a =>
    cases v with
    | inf => exact Or.inl rfl
    | fin b =>
      by_cases h : a ≤ b
      · exact Or.inl (by simp [vmin, min_eq_left h])
      · exact Or.inr (by simp [vmin, min_eq_right (le_of_not_le h)])

theorem foldl_vmin_le_init (l : List (Val α)) (acc : Val α) :
    vle (l.foldl vmin acc) acc := by
  induction l generalizing acc with
  | nil => exact vle_refl acc
  | cons x t ih =>
    exact vle_trans (ih (vmin acc x)) (vmin_le_left acc x)

theorem foldl_vmin_le_mem (l : List (Val α)) (acc : Val α) {v : Val α}
    (hv : v ∈ l) : vle (l.foldl vmin acc) v := by
  induction l generalizing acc with
  | nil => cases hv
  | cons x t ih =>
    rcases List.mem_cons.mp hv with rfl | hmem
    · exact vle_trans (foldl_vmin_le_init t (vmin acc v)) (vmin_le_right acc v)
    · exact ih (vmin acc x) hmem

theorem foldl_vmin_mem (l : List (Val α)) (acc : Val α) :
    l.foldl vmin acc = acc ∨ l.foldl vmin acc ∈ l := by
  induction l generalizing acc with
  | nil => exact Or.inl rfl
  | cons x t ih =>
    rcases ih (vmin acc x) with h | h
    · rcases vmin_cases acc x with h' | h'
      · exact Or.inl (by rw [List.foldl_cons, h, h'])
      · exact Or.inr (by rw [List.foldl_cons, h, h']; simp)
    · exact Or.inr (List.mem_cons_of_mem _ h)

theorem listMin_le {l : List (Val α)} {v : Val α} (hv : v ∈ l) :
    vle (listMin l) v :=
  foldl_vmin_le_mem l inf hv

theorem listMin_mem_or_inf (l : List (Val α)) :
    listMin l = Val.inf ∨ listMin l ∈ l :=
  foldl_vmin_mem l inf

theorem vle_fin_fin {a b : α} (h : vle (fin a) (fin b)) : a ≤ b := h

theorem not_vle_inf_fin {a : α} (h : vle (inf : Val α) (fin a)) : False := h

/-- Generic shrink lemma: a fold whose step never increases the
accumulator (in `vle`) ends below the start. -/
theorem foldl_vle_start {β : Type} {f : Val α → β → Val α} {l : List β}
    (hf : ∀ a x, x ∈ l → vle (f a x) a) :
    ∀ acc, vle (l.foldl f acc) acc := by
  induction l with
  | nil => exact fun acc => vle_refl acc
  | cons x t ih =>
    intro acc
    refine vle_trans (ih (fun a y hy => hf a y (List.mem_cons_of_mem _ hy)) _)
      (hf acc x (by simp))

/-- Generic bound lemma: if some scanned element forces the accumulator
below `T`, and the step never increases it, the fold ends below `T`. -/
theorem foldl_vle_of_mem {β : Type} {f : Val α → β → Val α} {l : List β}
    {x₀ : β} {T : Val α}
    (hmono : ∀ a x, x ∈ l → vle (f a x) a)
    (hx : x₀ ∈ l) (hbound : ∀ a, vle (f a x₀) T) :
    ∀ acc, vle (l.foldl f acc) T := by
  induction l with
  | nil => cases hx
  | cons y t ih =>
    intro acc
    rcases List.mem_cons.mp hx with rfl | hmem
    · exact vle_trans
        (foldl_vle_start (fun a z hz => hmono a z (List.mem_cons_of_mem _ hz)) _)
        (hbound acc)
    · exact ih (fun a z hz => hmono a z (List.mem_cons_of_mem _ hz)) hmem _

/-- Generic attainment lemma: if every step leaves the accumulator alone
or sets it to a value satisfying `P`, the fold returns the start or a
value satisfying `P`. -/
theorem foldl_attain {β : Type} {f : Val α → β → Val α}
    {P : Val α → Prop} {l : List β}
    (hf : ∀ a x, x ∈ l → f a x = a ∨ P (f a x)) :
    ∀ acc, l.foldl f acc = acc ∨ P (l.foldl f acc) := by
  induction l with
  | nil => exact fun acc => Or.inl rfl
  | cons x t ih =>
    intro acc
    rcases ih (fun a y hy => hf a y (List.mem_cons_of_mem _ hy)) (f acc x)
      with h | h
    · rcases hf acc x (by simp) with h' | h'
      · exact Or.inl (by rw [List.foldl_cons, h, h'])
      · exact Or.inr (by rw [List.foldl_cons, h]; exact h')
    · exact Or.inr h

end Val

namespace Hungarian

variable {α : Type} [LinearOrderedCommRing α]

theorem rowMin_le {n : ℕ} {M : Mat α} {i j : ℕ} (hj : j < n) :
    Val.vle (rowMin n M i) (M i j) :=
  Val.listMin_le (by simp only [List.mem_map]; exact ⟨j, List.mem_range.mpr hj, rfl⟩)

theorem rowMin_cases (n : ℕ) (M : Mat α) (i : ℕ) :
    rowMin n M i = Val.inf ∨ ∃ j, j < n ∧ rowMin n M i = M i j := by
  rcases Val.listMin_mem_or_inf ((List.range n).map fun j => M i j) with h | h
  · exact Or.inl h
  · simp only [List.mem_map, List.mem_range] at h
    obtain ⟨j, hj, hval⟩ := h
    exact Or.inr ⟨j, hj, hval.symm⟩

theorem colMin_le {n : ℕ} {M : Mat α} {i j : ℕ} (hi : i < n) :
    Val.vle (colMin n M j) (M i j) :=
  Val.listMin_le (by simp only [List.mem_map]; exact ⟨i, List.mem_range.mpr hi, rfl⟩)

theorem colMin_cases (n : ℕ) (M : Mat α) (j : ℕ) :
    colMin n M j = Val.inf ∨ ∃ i, i < n ∧ colMin n M j = M i j := by
  rcases Val.listMin_mem_or_inf ((List.range n).map fun i => M i j) with h | h
  · exact Or.inl h
  · simp only [List.mem_map, List.mem_range] at h
    obtain ⟨i, hi, hval⟩ := h
    exact Or.inr ⟨i, hi, hval.symm⟩

/-- The inner (column) scan of `findMinUncovered` never increases the
accumulator. -/
theorem fmuInner_vle_start (n : ℕ) (M : Mat α) (cc : ℕ → Bool) (i : ℕ)
    (acc : Val α) :
    Val.vle ((List.range n).foldl
      (fun acc j => if cc j then acc else acc.vmin (M i j)) acc) acc := by
  apply Val.foldl_vle_start
  intro a j _
  by_cases hcj : cc j
  · simp [hcj, Val.vle_refl]
  · simp [hcj, Val.vmin_le_left]

/-- `findMinUncovered` is a lower bound on every uncovered cell. -/
theorem findMinUncovered_le {n : ℕ} {M : Mat α} {rc cc : ℕ → Bool}
    {i j : ℕ} (hi : i < n) (hj : j < n) (hri : rc i = false)
    (hcj : cc j = false) :
    Val.vle (findMinUncovered n M rc cc) (M i j) := by
  unfold findMinUncovered
  have houter : ∀ a x, x ∈ List.range n → Val.vle
      ((fun acc i => if rc i then acc
        else (List.range n).foldl
          (fun acc j => if cc j then acc else acc.vmin (M i j)) acc) a x) a := by
    intro a x _
    by_cases hrx : rc x
    · simp [hrx, Val.vle_refl]
    · simp only [hrx, if_false]
      exact fmuInner_vle_start n M cc x a
  apply Val.foldl_vle_of_mem houter (List.mem_range.mpr hi)
  intro a
  simp only [hri, if_false]
  have hinnerMono : ∀ b y, y ∈ List.range n → Val.vle
      ((fun acc j => if cc j then acc else acc.vmin (M i j)) b y) b := by
    intro b y _
    by_cases hcy : cc y
    · simp [hcy, Val.vle_refl]
    · simp [hcy, Val.vmin_le_left]
  apply Val.foldl_vle_of_mem hinnerMono (List.mem_range.mpr hj)
  intro b
  simp only [hcj, if_false]
  exact Val.vmin_le_right b (M i j)

/-- `findMinUncovered` is `Infinity` or the value of an uncovered cell. -/
theorem findMinUncovered_attained (n : ℕ) (M : Mat α) (rc cc : ℕ → Bool) :
    findMinUncovered n M rc cc = Val.inf ∨
      ∃ i j, i < n ∧ j < n ∧ rc i = false ∧ cc j = false ∧
        findMinUncovered n M rc cc = M i j := by
  unfold findMinUncovered
  set P : Val α → Prop := fun v =>
    ∃ i j, i < n ∧ j < n ∧ rc i = false ∧ cc j = false ∧ v = M i j with hP
  have h := Val.foldl_attain (P := P)
    (f := fun acc i => if rc i then acc
      else (List.range n).foldl
        (fun acc j => if cc j then acc else acc.vmin (M i j)) acc)
    (l := List.range n) ?_ Val.inf
  · rcases h with h | h
    · exact Or.inl h
    · exact Or.inr h
  · intro a x hx
    by_cases hrx : rc x
    · simp [hrx]
    · simp only [hrx, if_false]
      have hin := Val.foldl_attain (P := P)
        (f := fun acc j => if cc j then acc else acc.vmin (M x j))
        (l := List.range n) ?_ a
      · exact hin
      · intro b y hy
        by_cases hcy : cc y
        · simp [hcy]
        · simp only [hcy, if_false]
          rcases Val.vmin_cases b (M x y) with h' | h'
          · exact Or.inl h'
          · refine Or.inr ?_
            rw [h', hP]
            exact ⟨x, y, List.mem_range.mp hx, List.mem_range.mp hy,
              by simpa using hrx, by simpa using hcy, rfl⟩

end Hungarian

namespace Hungarian

variable {α : Type} [LinearOrderedCommRing α]

/-- Fold preservation of an invariant. -/
theorem foldl_preserve {β γ : Type} {P : γ → Prop} {f : γ → β → γ}
    {l : List β} (h : ∀ st x, x ∈ l → P st → P (f st x)) :
    ∀ {st}, P st → P (l.foldl f st) := by
  induction l with
  | nil => exact fun hst => hst
  | cons x t ih =>
    intro st hst
    exact ih (fun st' y hy => h st' y (List.mem_cons_of_mem _ hy))
      (h st x (by simp) hst)

theorem findStarInRow_some {n : ℕ} {mk : Masks} {i j : ℕ}
    (h : findStarInRow n mk i = some j) : mk i j = 1 ∧ j < n := by
  have h1 := List.find?_some h
  have h2 := List.mem_of_find?_eq_some h
  exact ⟨by simpa using h1, List.mem_range.mp h2⟩

theorem findStarInRow_none {n : ℕ} {mk : Masks} {i : ℕ}
    (h : findStarInRow n mk i = none) : ∀ j, j < n → mk i j ≠ 1 := by
  intro j hj
  have := List.find?_eq_none.mp h j (List.mem_range.mpr hj)
  simpa using this

theorem findStarInRow_of_star {n : ℕ} {mk : Masks} {i j : ℕ}
    (hj : j < n) (h : mk i j = 1) : ∃ j', findStarInRow n mk i = some j' := by
  have : (findStarInRow n mk i).isSome = true := by
    unfold findStarInRow
    rw [List.find?_isSome]
    exact ⟨j, List.mem_range.mpr hj, by simpa using h⟩
  exact Option.isSome_iff_exists.mp this

theorem findStarInCol_some {n : ℕ} {mk : Masks} {i j : ℕ}
    (h : findStarInCol n mk j = some i) : mk i j = 1 ∧ i < n := by
  have h1 := List.find?_some h
  have h2 := List.mem_of_find?_eq_some h
  exact ⟨by simpa using h1, List.mem_range.mp h2⟩

theorem findStarInCol_none {n : ℕ} {mk : Masks} {j : ℕ}
    (h : findStarInCol n mk j = none) : ∀ i, i < n → mk i j ≠ 1 := by
  intro i hi
  have := List.find?_eq_none.mp h i (List.mem_range.mpr hi)
  simpa using this

theorem findStarInCol_of_star {n : ℕ} {mk : Masks} {i j : ℕ}
    (hi : i < n) (h : mk i j = 1) : ∃ i', findStarInCol n mk j = some i' := by
  have : (findStarInCol n mk j).isSome = true := by
    unfold findStarInCol
    rw [List.find?_isSome]
    exact ⟨i, List.mem_range.mpr hi, by simpa using h⟩
  exact Option.isSome_iff_exists.mp this

theorem findPrimeInRow_some {n : ℕ} {mk : Masks} {i j : ℕ}
    (h : findPrimeInRow n mk i = some j) : mk i j = 2 ∧ j < n := by
  have h1 := List.find?_some h
  have h2 := List.mem_of_find?_eq_some h
  exact ⟨by simpa using h1, List.mem_range.mp h2⟩

theorem findPrimeInRow_of_prime {n : ℕ} {mk : Masks} {i j : ℕ}
    (hj : j < n) (h : mk i j = 2) : ∃ j', findPrimeInRow n mk i = some j' := by
  have : (findPrimeInRow n mk i).isSome = true := by
    unfold findPrimeInRow
    rw [List.find?_isSome]
    exact ⟨j, List.mem_range.mpr hj, by simpa using h⟩
  exact Option.isSome_iff_exists.mp this

theorem findUncoveredZero_some {n : ℕ} {M : Mat α} {rc cc : ℕ → Bool}
    {i j : ℕ} (h : findUncoveredZero n M rc cc = some (i, j)) :
    i < n ∧ j < n ∧ M i j = Val.fin 0 ∧ rc i = false ∧ cc j = false := by
  unfold findUncoveredZero at h
  obtain ⟨a, ha, hfa⟩ := List.exists_of_findSome?_eq_some h
  by_cases hra : rc a
  · simp [hra] at hfa
  · rw [if_neg hra] at hfa
    cases hb : (List.range n).find? fun j => decide (M a j = Val.fin 0) && !cc j with
    | none =>
      rw [hb] at hfa
      simp at hfa
    | some b =>
    rw [hb] at hfa
    simp only [Option.map_some'] at hfa
    have hba' : (a, b) = (i, j) := Option.some.inj hfa
    have ha2 : a = i := congrArg Prod.fst hba'
    have hb2 : b = j := congrArg Prod.snd hba'
    subst ha2
    subst hb2
    have h1 := List.find?_some hb
    have h2 := List.mem_of_find?_eq_some hb
    simp only [Bool.and_eq_true, decide_eq_true_eq, Bool.not_eq_true'] at h1
    exact ⟨List.mem_range.mp ha, List.mem_range.mp h2, h1.1,
      by simpa using hra, h1.2⟩

theorem findUncoveredZero_none {n : ℕ} {M : Mat α} {rc cc : ℕ → Bool}
    (h : findUncoveredZero n M rc cc = none) :
    ∀ i j, i < n → j < n → rc i = false → cc j = false → M i j ≠ Val.fin 0 := by
  intro i j hi hj hri hcj hzero
  unfold findUncoveredZero at h
  rw [List.findSome?_eq_none_iff] at h
  have := h i (List.mem_range.mpr hi)
  rw [hri] at this
  simp only [Bool.false_eq_true, if_false, Option.map_eq_none'] at this
  have hf := List.find?_eq_none.mp this j (List.mem_range.mpr hj)
  simp [hzero, hcj] at hf

theorem findUncoveredZero_of_zero {n : ℕ} {M : Mat α} {rc cc : ℕ → Bool}
    {i j : ℕ} (hi : i < n) (hj : j < n) (hri : rc i = false)
    (hcj : cc j = false) (hz : M i j = Val.fin 0) :
    ∃ p, findUncoveredZero n M rc cc = some p := by
  cases hfind : findUncoveredZero n M rc cc with
  | some p => exact ⟨p, rfl⟩
  | none => exact absurd hz (findUncoveredZero_none hfind i j hi hj hri hcj)

/-- Number of starred cells. -/
def starCount (n : ℕ) (mk : Masks) : ℕ :=
  ((Finset.range n ×ˢ Finset.range n).filter fun p => mk p.1 p.2 = 1).card

/-- Number of covered rows. -/
def coverRowCount (n : ℕ) (rc : ℕ → Bool) : ℕ :=
  ((Finset.range n).filter fun i => rc i = true).card

/-- The full machine invariant, relative to the padded original matrix
`orig` of side `n`. -/
structure Inv (n : ℕ) (orig : Mat α) (s : HState α) : Prop where
  finPat : ∀ i j, i < n → j < n → (s.mat i j = Val.inf ↔ orig i j = Val.inf)
  pot : ∃ u v : ℕ → α, ∀ i j, i < n → j < n → ∀ x, s.mat i j = Val.fin x →
      orig i j = Val.fin (x + u i + v j)
  nonneg : ∀ i j x, i < n → j < n → s.mat i j = Val.fin x → 0 ≤ x
  maskBound : ∀ i j, s.masks i j ≠ 0 → i < n ∧ j < n
  starZero : ∀ i j, s.masks i j = 1 → s.mat i j = Val.fin 0
  primeZero : ∀ i j, s.masks i j = 2 → s.mat i j = Val.fin 0
  starRowU : ∀ i j j', s.masks i j = 1 → s.masks i j' = 1 → j = j'
  starColU : ∀ i i' j, s.masks i j = 1 → s.masks i' j = 1 → i = i'
  primeRowU : ∀ i j j', s.masks i j = 2 → s.masks i j' = 2 → j = j'
  stepVal : s.step = 0 ∨ s.step = 1 ∨ s.step = 2 ∨ s.step = 3 ∨ s.step = 6
  step1Clean : s.step = 1 →
      (∀ i, s.rowCover i = false) ∧ (∀ j, s.colCover j = false) ∧
      (∀ i j, s.masks i j ≠ 2)
  coverRow : s.step ≠ 1 → ∀ i, s.rowCover i = true →
      (∃ j, s.masks i j = 1) ∧ (∃ j, s.masks i j = 2)
  coverCol : s.step ≠ 1 → ∀ j, s.colCover j = true → ∃ i, s.masks i j = 1
  starParity : s.step ≠ 1 → ∀ i j, s.masks i j = 1 →
      (s.rowCover i = true ∧ s.colCover j = false) ∨
      (s.rowCover i = false ∧ s.colCover j = true)
  primeUncovCol : s.step ≠ 1 → ∀ i j, s.masks i j = 2 → s.colCover j = false
  primeCovRow : s.step = 0 ∨ s.step = 2 ∨ s.step = 6 → ∀ i j, s.masks i j = 2 →
      s.rowCover i = true
  pathSpec : s.step = 3 → ∃ p : ℕ × ℕ, s.pathStart = some p ∧
      s.masks p.1 p.2 = 2 ∧ s.rowCover p.1 = false ∧
      (∀ j', s.masks p.1 j' ≠ 1) ∧
      (∀ i j, s.masks i j = 2 → (i, j) = p ∨ s.rowCover i = true)
  ordInv : ∃ ord : ℕ → ℕ, ∀ i c i', s.masks i c = 2 → s.masks i' c = 1 →
      ord i' < ord i
  phaseStars : s.step ≠ 1 → s.step ≠ 0 → starCount n s.masks < n
  step6NoZero : s.step = 6 →
      findUncoveredZero n s.mat s.rowCover s.colCover = none
  exitCond : s.step = 0 →
      ((∀ j, j < n → (s.colCover j = true ↔ ∃ i, s.masks i j = 1)) ∧
        ((List.range n).filter fun j => s.colCover j).length = n) ∨
      findMinUncovered n s.mat s.rowCover s.colCover = Val.inf

end Hungarian

namespace Hungarian

variable {α : Type} [LinearOrderedCommRing α]

/-- The finite value of a row/column minimum (`0` when there is none). -/
def vminDelta : Val α → α
  | Val.fin m => m
  | Val.inf => 0

def rowDelta (n : ℕ) (M : Mat α) (i : ℕ) : α := vminDelta (rowMin n M i)

def colDelta (n : ℕ) (M : Mat α) (j : ℕ) : α := vminDelta (colMin n M j)

theorem rowReduce_fin_iff {n : ℕ} {M : Mat α} {i j : ℕ} {x : α} :
    rowReduce n M i j = Val.fin x ↔ M i j = Val.fin (x + rowDelta n M i) := by
  unfold rowReduce rowDelta
  cases hmin : rowMin n M i with
  | inf => simp [vminDelta]
  | fin m =>
    cases hM : M i j with
    | inf => simp [vminDelta, Val.isFin]
    | fin y =>
      simp only [Val.isFin, if_true, Val.subF, vminDelta, Val.fin.injEq]
      constructor
      · rintro rfl; ring
      · rintro rfl; ring

theorem rowReduce_inf_iff {n : ℕ} {M : Mat α} {i j : ℕ} :
    rowReduce n M i j = Val.inf ↔ M i j = Val.inf := by
  unfold rowReduce
  cases hmin : rowMin n M i with
  | inf => simp
  | fin m => cases hM : M i j <;> simp [Val.isFin, Val.subF]

theorem colReduce_fin_iff {n : ℕ} {M : Mat α} {i j : ℕ} {x : α} :
    colReduce n M i j = Val.fin x ↔ M i j = Val.fin (x + colDelta n M j) := by
  unfold colReduce colDelta
  cases hmin : colMin n M j with
  | inf => simp [vminDelta]
  | fin m =>
    cases hM : M i j with
    | inf => simp [vminDelta, Val.isFin]
    | fin y =>
      simp only [Val.isFin, if_true, Val.subF, vminDelta, Val.fin.injEq]
      constructor
      · rintro rfl; ring
      · rintro rfl; ring

theorem colReduce_inf_iff {n : ℕ} {M : Mat α} {i j : ℕ} :
    colReduce n M i j = Val.inf ↔ M i j = Val.inf := by
  unfold colReduce
  cases hmin : colMin n M j with
  | inf => simp
  | fin m => cases hM : M i j <;> simp [Val.isFin, Val.subF]

theorem rowReduce_nonneg {n : ℕ} {M : Mat α} {i j : ℕ} {x : α} (hj : j < n)
    (h : rowReduce n M i j = Val.fin x) : 0 ≤ x := by
  have hM := rowReduce_fin_iff.mp h
  have hle := rowMin_le (M := M) (i := i) hj
  rw [hM] at hle
  unfold rowDelta at hM
  cases hmin : rowMin n M i with
  | inf => rw [hmin] at hle; exact absurd hle (by simp [Val.vle])
  | fin m =>
    rw [hmin] at hle
    have : m ≤ x + rowDelta n M i := hle
    rw [rowDelta, hmin] at this
    simpa [vminDelta] using this

theorem colReduce_nonneg {n : ℕ} {M : Mat α} {i j : ℕ} {x : α} (hi : i < n)
    (h : colReduce n M i j = Val.fin x) : 0 ≤ x := by
  have hM := colReduce_fin_iff.mp h
  have hle := colMin_le (M := M) (j := j) hi
  rw [hM] at hle
  cases hmin : colMin n M j with
  | inf => rw [hmin] at hle; exact absurd hle (by simp [Val.vle])
  | fin m =>
    rw [hmin] at hle
    have : m ≤ x + colDelta n M j := hle
    rw [colDelta, hmin] at this
    simpa [vminDelta] using this

/-- The invariant satisfied by the structures built by `initStar`. -/
def InitStarP (n : ℕ) (M : Mat α)
    (st : Masks × (ℕ → Bool) × (ℕ → Bool)) : Prop :=
  (∀ i j, st.1 i j ≠ 0 → st.1 i j = 1 ∧ i < n ∧ j < n ∧ M i j = Val.fin 0) ∧
  (∀ i, st.2.1 i = true ↔ ∃ j, st.1 i j = 1) ∧
  (∀ j, st.2.2 j = true ↔ ∃ i, st.1 i j = 1) ∧
  (∀ i j j', st.1 i j = 1 → st.1 i j' = 1 → j = j') ∧
  (∀ i i' j, st.1 i j = 1 → st.1 i' j = 1 → i = i')

theorem initStar_spec (n : ℕ) (M : Mat α) :
    InitStarP n M (initStar n M) := by
  unfold initStar
  apply foldl_preserve (P := InitStarP n M)
  · intro st i hi hst
    apply foldl_preserve (P := InitStarP n M)
    · intro st' j hj hst'
      obtain ⟨mk, rc, cc⟩ := st'
      by_cases hcond : M i j = Val.fin 0 ∧ rc i = false ∧ cc j = false
      · simp only [hcond, and_self, if_true]
        obtain ⟨hA, hB, hC, hD, hE⟩ := hst'
        dsimp only at hA hB hC hD hE
        unfold InitStarP
        dsimp only
        refine ⟨?_, ?_, ?_, ?_, ?_⟩
        · intro i' j' hne
          by_cases hij : i' = i ∧ j' = j
          · obtain ⟨rfl, rfl⟩ := hij
            exact ⟨by simp [upd2], List.mem_range.mp hi, List.mem_range.mp hj,
              hcond.1⟩
          · have : upd2 mk i j 1 i' j' = mk i' j' := by simp [upd2, hij]
            rw [this] at hne ⊢
            exact hA i' j' hne
        · intro i'
          constructor
          · intro hrc
            by_cases hii : i' = i
            · exact ⟨j, by simp [upd2, hii]⟩
            · have : rc i' = true := by simpa [upd1, hii] using hrc
              obtain ⟨j', hj'⟩ := (hB i').mp this
              refine ⟨j', ?_⟩
              have : ¬(i' = i ∧ j' = j) := fun hc => hii hc.1
              simp [upd2, this, hj']
          · rintro ⟨j', hj'⟩
            by_cases hii : i' = i
            · simp [upd1, hii]
            · have hmk : mk i' j' = 1 := by
                have : ¬(i' = i ∧ j' = j) := fun hc => hii hc.1
                simpa [upd2, this] using hj'
              have := (hB i').mpr ⟨j', hmk⟩
              simpa [upd1, hii] using this
        · intro j'
          constructor
          · intro hcc
            by_cases hjj : j' = j
            · exact ⟨i, by simp [upd2, hjj]⟩
            · have : cc j' = true := by simpa [upd1, hjj] using hcc
              obtain ⟨i', hi'⟩ := (hC j').mp this
              refine ⟨i', ?_⟩
              have : ¬(i' = i ∧ j' = j) := fun hc => hjj hc.2
              simp [upd2, this, hi']
          · rintro ⟨i', hi'⟩
            by_cases hjj : j' = j
            · simp [upd1, hjj]
            · have hmk : mk i' j' = 1 := by
                have : ¬(i' = i ∧ j' = j) := fun hc => hjj hc.2
                simpa [upd2, this] using hi'
              have := (hC j').mpr ⟨i', hmk⟩
              simpa [upd1, hjj] using this
        · intro i' ja jb hja hjb
          by_cases hii : i' = i
          · subst hii
            have hrow : ∀ jc, upd2 mk i' j 1 i' jc = 1 → jc = j := by
              intro jc hjc
              by_cases hjc' : jc = j
              · exact hjc'
              · have hmk : mk i' jc = 1 := by
                  simpa [upd2, hjc'] using hjc
                exact absurd ((hB i').mpr ⟨jc, hmk⟩) (by simp [hcond.2.1])
            rw [hrow ja hja, hrow jb hjb]
          · have hja' : mk i' ja = 1 := by
              have : ¬(i' = i ∧ ja = j) := fun hc => hii hc.1
              simpa [upd2, this] using hja
            have hjb' : mk i' jb = 1 := by
              have : ¬(i' = i ∧ jb = j) := fun hc => hii hc.1
              simpa [upd2, this] using hjb
            exact hD i' ja jb hja' hjb'
        · intro ia ib j' hia hib
          by_cases hjj : j' = j
          · subst hjj
            have hcol : ∀ ic, upd2 mk i j' 1 ic j' = 1 → ic = i := by
              intro ic hic
              by_cases hic' : ic = i
              · exact hic'
              · have hmk : mk ic j' = 1 := by
                  simpa [upd2, hic'] using hic
                exact absurd ((hC j').mpr ⟨ic, hmk⟩) (by simp [hcond.2.2])
            rw [hcol ia hia, hcol ib hib]
          · have hia' : mk ia j' = 1 := by
              have : ¬(ia = i ∧ j' = j) := fun hc => hjj hc.2
              simpa [upd2, this] using hia
            have hib' : mk ib j' = 1 := by
              have : ¬(ib = i ∧ j' = j) := fun hc => hjj hc.2
              simpa [upd2, this] using hib
            exact hE ia ib j' hia' hib'
      · dsimp only
        rw [if_neg hcond]
        exact hst'
    · exact hst
  · refine ⟨?_, ?_, ?_⟩ <;> simp [InitStarP]

end Hungarian

namespace Hungarian

variable {α : Type} [LinearOrderedCommRing α]

theorem reducedMat_inf_iff (cm : List (List α)) (i j : ℕ) :
    reducedMat cm i j = Val.inf ↔ padded cm i j = Val.inf := by
  unfold reducedMat
  exact colReduce_inf_iff.trans rowReduce_inf_iff

theorem initState_inv (cm : List (List α)) :
    Inv (padSize cm) (padded cm) (initState cm) := by
  obtain ⟨hA, hB, hC, hD, hE⟩ := initStar_spec (padSize cm) (reducedMat cm)
  have hmasknot2 : ∀ i j, (initStar (padSize cm) (reducedMat cm)).1 i j ≠ 2 := by
    intro i j h
    have := (hA i j (by simp [h])).1
    rw [h] at this
    exact absurd this (by norm_num)
  refine
    { finPat := ?_, pot := ?_, nonneg := ?_, maskBound := ?_, starZero := ?_,
      primeZero := ?_, starRowU := ?_, starColU := ?_, primeRowU := ?_,
      stepVal := ?_, step1Clean := ?_, coverRow := ?_, coverCol := ?_,
      starParity := ?_, primeUncovCol := ?_, primeCovRow := ?_,
      pathSpec := ?_, ordInv := ?_, phaseStars := ?_, step6NoZero := ?_,
      exitCond := ?_ }
  · intro i j _ _
    exact reducedMat_inf_iff cm i j
  · refine ⟨rowDelta (padSize cm) (padded cm),
      colDelta (padSize cm) (rowReduce (padSize cm) (padded cm)), ?_⟩
    intro i j _ _ x hx
    have h1 := colReduce_fin_iff.mp hx
    have h2 := rowReduce_fin_iff.mp h1
    rw [h2]
    exact congrArg Val.fin (by ring)
  · intro i j x hi _ hx
    exact colReduce_nonneg hi hx
  · intro i j h
    exact ⟨(hA i j h).2.1, (hA i j h).2.2.1⟩
  · intro i j h
    have h' : (initStar (padSize cm) (reducedMat cm)).1 i j = 1 := h
    exact (hA i j (by simp [h'])).2.2.2
  · intro i j h
    have h' : (initStar (padSize cm) (reducedMat cm)).1 i j = 2 := h
    exact absurd (hA i j (by simp [h'])).1 (by simp [h'])
  · exact hD
  · exact hE
  · intro i j j' h _
    have h' : (initStar (padSize cm) (reducedMat cm)).1 i j = 2 := h
    exact absurd (hA i j (by simp [h'])).1 (by simp [h'])
  · exact Or.inr (Or.inl rfl)
  · intro _
    exact ⟨fun i => rfl, fun j => rfl, fun i j => hmasknot2 i j⟩
  · intro h
    exact absurd rfl h
  · intro h
    exact absurd rfl h
  · intro h
    exact absurd rfl h
  · intro h
    exact absurd rfl h
  · intro h
    rcases h with h | h | h <;> simp [initState] at h
  · intro h
    simp [initState] at h
  · refine ⟨fun _ => 0, ?_⟩
    intro i c i' hp _
    have hp' : (initStar (padSize cm) (reducedMat cm)).1 i c = 2 := hp
    exact absurd (hA i c (by simp [hp'])).1 (by simp [hp'])
  · intro h
    exact absurd rfl h
  · intro h
    simp [initState] at h
  · intro h
    simp [initState] at h

end Hungarian

namespace Hungarian

variable {α : Type} [LinearOrderedCommRing α]

theorem filter_range_length_eq_card (p : ℕ → Bool) (n : ℕ) :
    ((List.range n).filter p).length
      = ((Finset.range n).filter fun x => p x = true).card := by
  induction n with
  | zero => simp
  | succ m ih =>
    rw [List.range_succ, List.filter_append, List.length_append,
      Finset.range_succ, Finset.filter_insert]
    by_cases hp : p m
    · rw [if_pos (by simp [hp]), Finset.card_insert_of_not_mem (by simp)]
      simp [hp, ih]
    · rw [if_neg (by simp [hp])]
      simp [hp, ih]

/-- With one star per column, the number of stars equals the number of
columns holding a star. -/
theorem starCount_eq_cols {n : ℕ} {mk : Masks}
    (hbound : ∀ i j, mk i j ≠ 0 → i < n ∧ j < n)
    (hcolU : ∀ i i' j, mk i j = 1 → mk i' j = 1 → i = i') :
    starCount n mk
      = ((Finset.range n).filter fun j => ∃ i ∈ Finset.range n, mk i j = 1).card := by
  unfold starCount
  apply Finset.card_bij (fun p _ => p.2)
  · intro p hp
    simp only [Finset.mem_filter, Finset.mem_product] at hp
    simp only [Finset.mem_filter]
    exact ⟨hp.1.2, p.1, hp.1.1, hp.2⟩
  · intro p hp q hq hpq
    simp only [Finset.mem_filter, Finset.mem_product] at hp hq
    have := hcolU p.1 q.1 p.2 hp.2 (hpq ▸ hq.2)
    exact Prod.ext this hpq
  · intro j hj
    simp only [Finset.mem_filter, Finset.mem_range] at hj
    obtain ⟨hjn, i, _, hi⟩ := hj
    refine ⟨(i, j), ?_, rfl⟩
    simp only [Finset.mem_filter, Finset.mem_product, Finset.mem_range]
    exact ⟨⟨(hbound i j (by simp [hi])).1, hjn⟩, hi⟩

theorem step1_inv {n : ℕ} {orig : Mat α} {s : HState α} (hInv : Inv n orig s)
    (hs : s.step = 1) : Inv n orig (step1 n s) := by
  obtain ⟨hrc0, hcc0, hnp⟩ := hInv.step1Clean hs
  have ccSpec : ∀ j,
      ((List.range n).any fun i => s.masks i j == 1) = true
        ↔ ∃ i, s.masks i j = 1 := by
    intro j
    rw [List.any_eq_true]
    constructor
    · rintro ⟨i, _, hi⟩
      exact ⟨i, by simpa using hi⟩
    · rintro ⟨i, hi⟩
      exact ⟨i, List.mem_range.mpr (hInv.maskBound i j (by simp [hi])).1,
        by simpa using hi⟩
  have hcovered :
      ((List.range n).filter fun j =>
        (List.range n).any fun i => s.masks i j == 1).length
      = starCount n s.masks := by
    rw [filter_range_length_eq_card,
      starCount_eq_cols hInv.maskBound hInv.starColU]
    congr 1
    apply Finset.filter_congr
    intro j _
    rw [ccSpec j]
    constructor
    · rintro ⟨i, hi⟩
      exact ⟨i, Finset.mem_range.mpr (hInv.maskBound i j (by simp [hi])).1, hi⟩
    · rintro ⟨i, _, hi⟩
      exact ⟨i, hi⟩
  unfold step1
  refine
    { finPat := hInv.finPat, pot := hInv.pot, nonneg := hInv.nonneg,
      maskBound := hInv.maskBound, starZero := hInv.starZero,
      primeZero := hInv.primeZero, starRowU := hInv.starRowU,
      starColU := hInv.starColU, primeRowU := hInv.primeRowU,
      stepVal := ?_, step1Clean := ?_, coverRow := ?_, coverCol := ?_,
      starParity := ?_, primeUncovCol := ?_, primeCovRow := ?_,
      pathSpec := ?_, ordInv := hInv.ordInv, phaseStars := ?_,
      step6NoZero := ?_, exitCond := ?_ }
  · by_cases h : ((List.range n).filter fun j =>
        (List.range n).any fun i => s.masks i j == 1).length = n
    · simp [h]
    · simp [h]
  · intro h
    by_cases hc : ((List.range n).filter fun j =>
        (List.range n).any fun i => s.masks i j == 1).length = n <;>
      simp [hc] at h
  · intro _ i hri
    exact absurd (hrc0 i ▸ hri) (by simp)
  · intro _ j hcj
    exact (ccSpec j).mp hcj
  · intro _ i j hstar
    right
    exact ⟨hrc0 i, (ccSpec j).mpr ⟨i, hstar⟩⟩
  · intro _ i j hp
    exact absurd hp (hnp i j)
  · intro _ i j hp
    exact absurd hp (hnp i j)
  · intro h
    by_cases hc : ((List.range n).filter fun j =>
        (List.range n).any fun i => s.masks i j == 1).length = n <;>
      simp [hc] at h
  · intro h1 h0
    by_cases hc : ((List.range n).filter fun j =>
        (List.range n).any fun i => s.masks i j == 1).length = n
    · exfalso
      apply h0
      simp [hc]
    · rw [hcovered] at hc
      have hle : starCount n s.masks ≤ n := by
        rw [← hcovered, filter_range_length_eq_card]
        exact le_trans (Finset.card_filter_le _ _) (by simp)
      exact lt_of_le_of_ne hle hc
  · intro h
    by_cases hc : ((List.range n).filter fun j =>
        (List.range n).any fun i => s.masks i j == 1).length = n <;>
      simp [hc] at h
  · intro h
    by_cases hc : ((List.range n).filter fun j =>
        (List.range n).any fun i => s.masks i j == 1).length = n
    · left
      constructor
      · intro j _
        exact ccSpec j
      · exact hc
    · simp [hc] at h
end Hungarian

namespace Hungarian

variable {α : Type} [LinearOrderedCommRing α]

theorem step6_inv {n : ℕ} {orig : Mat α} {s : HState α} (hInv : Inv n orig s)
    (hs : s.step = 6) : Inv n orig (step6 n s) := by
  have hne1 : s.step ≠ 1 := by rw [hs]; norm_num
  unfold step6
  cases hmin : findMinUncovered n s.mat s.rowCover s.colCover with
  | inf =>
    refine
      { finPat := hInv.finPat, pot := hInv.pot, nonneg := hInv.nonneg,
        maskBound := hInv.maskBound, starZero := hInv.starZero,
        primeZero := hInv.primeZero, starRowU := hInv.starRowU,
        starColU := hInv.starColU, primeRowU := hInv.primeRowU,
        stepVal := Or.inl rfl,
        step1Clean := (by intro h; cases h),
        coverRow := fun _ => hInv.coverRow hne1,
        coverCol := fun _ => hInv.coverCol hne1,
        starParity := fun _ => hInv.starParity hne1,
        primeUncovCol := fun _ => hInv.primeUncovCol hne1,
        primeCovRow := fun _ => hInv.primeCovRow (by rw [hs]; right; right; rfl),
        pathSpec := (by intro h; cases h),
        ordInv := hInv.ordInv,
        phaseStars := (by intro _ h; exact absurd rfl h),
        step6NoZero := (by intro h; cases h),
        exitCond := fun _ => Or.inr hmin }
  | fin mv =>
    -- facts about the minimum
    obtain hatt := findMinUncovered_attained n s.mat s.rowCover s.colCover
    rw [hmin] at hatt
    rcases hatt with h | hatt
    · cases h
    obtain ⟨i₀, j₀, hi₀, hj₀, hri₀, hcj₀, hcell⟩ := hatt
    have hmv0 : 0 ≤ mv := hInv.nonneg i₀ j₀ mv hi₀ hj₀ hcell.symm
    -- the new matrix, cell by cell
    set M' : Mat α := fun i j =>
      let a := if s.rowCover i then (s.mat i j).addF mv else s.mat i j
      if s.colCover j then a else a.subF mv with hM'
    have hfin : ∀ i j x, M' i j = Val.fin x →
        ∃ y, s.mat i j = Val.fin y ∧
          x = y + (if s.rowCover i then mv else 0)
            - (if s.colCover j then 0 else mv) := by
      intro i j x hx
      rw [hM'] at hx
      dsimp only at hx
      cases hM : s.mat i j with
      | inf => rw [hM] at hx; by_cases hr : s.rowCover i <;>
          by_cases hc : s.colCover j <;> simp [hr, hc, Val.addF, Val.subF] at hx
      | fin y =>
        rw [hM] at hx
        refine ⟨y, rfl, ?_⟩
        by_cases hr : s.rowCover i <;> by_cases hc : s.colCover j <;>
          simp [hr, hc, Val.addF, Val.subF] at hx ⊢ <;> linarith [hx]
    have hfin' : ∀ i j y, s.mat i j = Val.fin y →
        M' i j = Val.fin (y + (if s.rowCover i then mv else 0)
          - (if s.colCover j then 0 else mv)) := by
      intro i j y hy
      rw [hM']
      dsimp only
      rw [hy]
      by_cases hr : s.rowCover i <;> by_cases hc : s.colCover j <;>
        simp [hr, hc, Val.addF, Val.subF]
    have hinf : ∀ i j, M' i j = Val.inf ↔ s.mat i j = Val.inf := by
      intro i j
      rw [hM']
      dsimp only
      cases hM : s.mat i j with
      | inf => by_cases hr : s.rowCover i <;> by_cases hc : s.colCover j <;>
          simp [hr, hc, Val.addF, Val.subF]
      | fin y => by_cases hr : s.rowCover i <;> by_cases hc : s.colCover j <;>
          simp [hr, hc, Val.addF, Val.subF]
    refine
      { finPat := ?_, pot := ?_, nonneg := ?_,
        maskBound := hInv.maskBound, starZero := ?_, primeZero := ?_,
        starRowU := hInv.starRowU, starColU := hInv.starColU,
        primeRowU := hInv.primeRowU,
        stepVal := Or.inr (Or.inr (Or.inl rfl)),
        step1Clean := (by intro h; cases h),
        coverRow := fun _ => hInv.coverRow hne1,
        coverCol := fun _ => hInv.coverCol hne1,
        starParity := fun _ => hInv.starParity hne1,
        primeUncovCol := fun _ => hInv.primeUncovCol hne1,
        primeCovRow := fun _ => hInv.primeCovRow (by rw [hs]; right; right; rfl),
        pathSpec := (by intro h; cases h),
        ordInv := hInv.ordInv,
        phaseStars := (by
          intro _ _
          exact hInv.phaseStars hne1 (by rw [hs]; norm_num)),
        step6NoZero := (by intro h; cases h),
        exitCond := (by intro h; cases h) }
    · intro i j hi hj
      exact (hinf i j).trans (hInv.finPat i j hi hj)
    · obtain ⟨u, v, hpot⟩ := hInv.pot
      refine ⟨fun i => u i - (if s.rowCover i then mv else 0),
        fun j => v j + (if s.colCover j then 0 else mv), ?_⟩
      intro i j hi hj x hx
      obtain ⟨y, hy, hxy⟩ := hfin i j x hx
      rw [hpot i j hi hj y hy]
      exact congrArg Val.fin (by rw [hxy]; ring)
    · intro i j x hi hj hx
      obtain ⟨y, hy, hxy⟩ := hfin i j x hx
      have hy0 := hInv.nonneg i j y hi hj hy
      by_cases hr : s.rowCover i <;> by_cases hc : s.colCover j
      · rw [hxy]; simp [hr, hc]; linarith
      · rw [hxy]; simp [hr, hc]; linarith
      · rw [hxy]; simp [hr, hc]; linarith
      · -- uncovered cell: mv is a lower bound
        have hle := @findMinUncovered_le _ _ n s.mat s.rowCover
          s.colCover i j hi hj (by simpa using hr) (by simpa using hc)
        rw [hmin, hy] at hle
        have : mv ≤ y := hle
        rw [hxy]
        simp [hr, hc]
        linarith
    · intro i j hstar
      have hz := hInv.starZero i j hstar
      have hpar := hInv.starParity hne1 i j hstar
      rcases hpar with ⟨hr, hc⟩ | ⟨hr, hc⟩
      · have := hfin' i j 0 hz
        rw [hr, hc] at this
        simpa using this
      · have := hfin' i j 0 hz
        rw [hr, hc] at this
        simpa using this
    · intro i j hprime
      have hz := hInv.primeZero i j hprime
      have hc := hInv.primeUncovCol hne1 i j hprime
      have hr := hInv.primeCovRow (by rw [hs]; right; right; rfl) i j hprime
      have := hfin' i j 0 hz
      rw [hr, hc] at this
      simpa using this

end Hungarian

namespace Hungarian

variable {α : Type} [LinearOrderedCommRing α]

theorem step2_none_eq {n : ℕ} {s : HState α}
    (hfz : findUncoveredZero n s.mat s.rowCover s.colCover = none) :
    step2 n s = ({ s with step := 6 } : HState α) := by
  unfold step2
  rw [hfz]

theorem step2_star_eq {n : ℕ} {s : HState α} {i₀ j₀ sc : ℕ}
    (hfz : findUncoveredZero n s.mat s.rowCover s.colCover = some (i₀, j₀))
    (hfs : findStarInRow n (upd2 s.masks i₀ j₀ 2) i₀ = some sc) :
    step2 n s =
      ({ s with
        masks := upd2 s.masks i₀ j₀ 2,
        rowCover := upd1 s.rowCover i₀ true,
        colCover := upd1 s.colCover sc false,
        step := 2 } : HState α) := by
  unfold step2
  rw [hfz]
  dsimp only
  rw [hfs]

theorem step2_prime_eq {n : ℕ} {s : HState α} {i₀ j₀ : ℕ}
    (hfz : findUncoveredZero n s.mat s.rowCover s.colCover = some (i₀, j₀))
    (hfs : findStarInRow n (upd2 s.masks i₀ j₀ 2) i₀ = none) :
    step2 n s =
      ({ s with
        masks := upd2 s.masks i₀ j₀ 2,
        pathStart := some (i₀, j₀),
        step := 3 } : HState α) := by
  unfold step2
  rw [hfz]
  dsimp only
  rw [hfs]

theorem step2_inv {n : ℕ} {orig : Mat α} {s : HState α} (hInv : Inv n orig s)
    (hs : s.step = 2) : Inv n orig (step2 n s) := by
  have hne1 : s.step ≠ 1 := by rw [hs]; norm_num
  have hpcr := hInv.primeCovRow (by rw [hs]; right; left; rfl)
  cases hfz : findUncoveredZero n s.mat s.rowCover s.colCover with
  | none =>
    rw [step2_none_eq hfz]
    exact
      { finPat := hInv.finPat, pot := hInv.pot, nonneg := hInv.nonneg,
        maskBound := hInv.maskBound, starZero := hInv.starZero,
        primeZero := hInv.primeZero, starRowU := hInv.starRowU,
        starColU := hInv.starColU, primeRowU := hInv.primeRowU,
        stepVal := Or.inr (Or.inr (Or.inr (Or.inr rfl))),
        step1Clean := (by intro h; cases h),
        coverRow := fun _ => hInv.coverRow hne1,
        coverCol := fun _ => hInv.coverCol hne1,
        starParity := fun _ => hInv.starParity hne1,
        primeUncovCol := fun _ => hInv.primeUncovCol hne1,
        primeCovRow := fun _ => hpcr,
        pathSpec := (by intro h; cases h),
        ordInv := hInv.ordInv,
        phaseStars := (by
          intro _ _
          exact hInv.phaseStars hne1 (by rw [hs]; norm_num)),
        step6NoZero := fun _ => hfz,
        exitCond := (by intro h; cases h) }
  | some p =>
    obtain ⟨i₀, j₀⟩ := p
    obtain ⟨hi₀, hj₀, hzero, hri₀, hcj₀⟩ := findUncoveredZero_some hfz
    set mk' := upd2 s.masks i₀ j₀ 2 with hmk'
    have hcellval : mk' i₀ j₀ = 2 := by simp [hmk', upd2]
    have hmk'eq : ∀ i j, ¬(i = i₀ ∧ j = j₀) → mk' i j = s.masks i j := by
      intro i j hij
      simp [hmk', upd2, hij]
    have hnostar_cell : s.masks i₀ j₀ ≠ 1 := by
      intro h
      rcases hInv.starParity hne1 i₀ j₀ h with ⟨hr, _⟩ | ⟨_, hc⟩
      · rw [hri₀] at hr; cases hr
      · rw [hcj₀] at hc; cases hc
    have hnoprime_row : ∀ j', s.masks i₀ j' ≠ 2 := by
      intro j' h
      have := hpcr i₀ j' h
      rw [hri₀] at this
      cases this
    have hstar_iff : ∀ i j, mk' i j = 1 ↔ s.masks i j = 1 := by
      intro i j
      by_cases hij : i = i₀ ∧ j = j₀
      · obtain ⟨rfl, rfl⟩ := hij
        rw [hcellval]
        constructor
        · intro h; cases h
        · intro h; exact absurd h hnostar_cell
      · rw [hmk'eq i j hij]
    have hprime_iff : ∀ i j, mk' i j = 2 ↔ (i = i₀ ∧ j = j₀) ∨ s.masks i j = 2 := by
      intro i j
      by_cases hij : i = i₀ ∧ j = j₀
      · obtain ⟨rfl, rfl⟩ := hij
        simp [hcellval]
      · rw [hmk'eq i j hij]
        constructor
        · intro h; exact Or.inr h
        · rintro (h | h)
          · exact absurd h hij
          · exact h
    have hmaskBound' : ∀ i j, mk' i j ≠ 0 → i < n ∧ j < n := by
      intro i j h
      by_cases hij : i = i₀ ∧ j = j₀
      · obtain ⟨rfl, rfl⟩ := hij
        exact ⟨hi₀, hj₀⟩
      · exact hInv.maskBound i j (by rwa [hmk'eq i j hij] at h)
    have hstarZero' : ∀ i j, mk' i j = 1 → s.mat i j = Val.fin 0 :=
      fun i j h => hInv.starZero i j ((hstar_iff i j).mp h)
    have hprimeZero' : ∀ i j, mk' i j = 2 → s.mat i j = Val.fin 0 := by
      intro i j h
      rcases (hprime_iff i j).mp h with ⟨rfl, rfl⟩ | h'
      · exact hzero
      · exact hInv.primeZero i j h'
    have hstarRowU' : ∀ i j j', mk' i j = 1 → mk' i j' = 1 → j = j' :=
      fun i j j' h h' =>
        hInv.starRowU i j j' ((hstar_iff i j).mp h) ((hstar_iff i j').mp h')
    have hstarColU' : ∀ i i' j, mk' i j = 1 → mk' i' j = 1 → i = i' :=
      fun i i' j h h' =>
        hInv.starColU i i' j ((hstar_iff i j).mp h) ((hstar_iff i' j).mp h')
    have hprimeRowU' : ∀ i j j', mk' i j = 2 → mk' i j' = 2 → j = j' := by
      intro i j j' h h'
      rcases (hprime_iff i j).mp h with ⟨rfl, rfl⟩ | hold
      · rcases (hprime_iff i j').mp h' with ⟨_, rfl⟩ | hold'
        · rfl
        · exact absurd hold' (hnoprime_row j')
      · rcases (hprime_iff i j').mp h' with ⟨rfl, rfl⟩ | hold'
        · exact absurd hold (hnoprime_row j)
        · exact hInv.primeRowU i j j' hold hold'
    have hstarCount' : starCount n mk' = starCount n s.masks := by
      unfold starCount
      congr 1
      apply Finset.filter_congr
      intro p _
      exact hstar_iff p.1 p.2
    obtain ⟨ord, hord⟩ := hInv.ordInv
    set fresh := ((Finset.range n).sup ord) + 1 with hfresh
    have hordbig : ∀ i', i' < n → ord i' < fresh := by
      intro i' hi'
      rw [hfresh]
      exact Nat.lt_succ_of_le (Finset.le_sup (Finset.mem_range.mpr hi'))
    cases hfs : findStarInRow n (upd2 s.masks i₀ j₀ 2) i₀ with
    | some sc =>
      rw [step2_star_eq hfz hfs]
      have hfs' : findStarInRow n mk' i₀ = some sc := hfs
      obtain ⟨hscstar, hscn⟩ := findStarInRow_some hfs'
      have hscold : s.masks i₀ sc = 1 := (hstar_iff i₀ sc).mp hscstar
      have hccsc : s.colCover sc = true := by
        rcases hInv.starParity hne1 i₀ sc hscold with ⟨hr, _⟩ | ⟨_, hc⟩
        · rw [hri₀] at hr; cases hr
        · exact hc
      refine
        { finPat := hInv.finPat, pot := hInv.pot, nonneg := hInv.nonneg,
          maskBound := hmaskBound', starZero := hstarZero',
          primeZero := hprimeZero', starRowU := hstarRowU',
          starColU := hstarColU', primeRowU := hprimeRowU',
          stepVal := Or.inr (Or.inr (Or.inl rfl)),
          step1Clean := (by intro h; cases h),
          coverRow := ?_, coverCol := ?_, starParity := ?_,
          primeUncovCol := ?_, primeCovRow := ?_,
          pathSpec := (by intro h; cases h),
          ordInv := ?_,
          phaseStars := (by
            intro _ _
            dsimp only
            rw [← hmk', hstarCount']
            exact hInv.phaseStars hne1 (by rw [hs]; norm_num)),
          step6NoZero := (by intro h; cases h),
          exitCond := (by intro h; cases h) }
      · -- coverRow
        intro _ i hri
        by_cases hii : i = i₀
        · subst hii
          exact ⟨⟨sc, hscstar⟩, ⟨j₀, hcellval⟩⟩
        · have : s.rowCover i = true := by simpa [upd1, hii] using hri
          obtain ⟨⟨js, hjs⟩, ⟨jp, hjp⟩⟩ := hInv.coverRow hne1 i this
          refine ⟨⟨js, ?_⟩, ⟨jp, ?_⟩⟩
          · exact show mk' i js = 1 by
              rw [hmk'eq i js fun hc => hii hc.1]; exact hjs
          · exact show mk' i jp = 2 by
              rw [hmk'eq i jp fun hc => hii hc.1]; exact hjp
      · -- coverCol
        intro _ j hcj
        by_cases hjj : j = sc
        · subst hjj
          simp [upd1] at hcj
        · have : s.colCover j = true := by simpa [upd1, hjj] using hcj
          obtain ⟨i, hi⟩ := hInv.coverCol hne1 j this
          exact ⟨i, (hstar_iff i j).mpr hi⟩
      · -- starParity
        intro _ i j hstar
        have hold : s.masks i j = 1 := (hstar_iff i j).mp hstar
        by_cases hii : i = i₀
        · subst hii
          have hjsc2 : j = sc := hInv.starRowU i j sc hold hscold
          subst hjsc2
          left
          constructor
          · simp [upd1]
          · simp [upd1]
        · rcases hInv.starParity hne1 i j hold with ⟨hr, hc⟩ | ⟨hr, hc⟩
          · left
            constructor
            · simp [upd1, hii, hr]
            · by_cases hjj : j = sc <;> simp [upd1, hjj, hc]
          · right
            have hjsc : j ≠ sc := by
              intro hj
              subst hj
              exact hii (hInv.starColU i i₀ j hold hscold)
            constructor
            · simp [upd1, hii, hr]
            · simp [upd1, hjsc, hc]
      · -- primeUncovCol
        intro _ i j hprime
        rcases (hprime_iff i j).mp hprime with ⟨rfl, rfl⟩ | hold
        · by_cases hjj : j = sc <;> simp [upd1, hjj, hcj₀]
        · have := hInv.primeUncovCol hne1 i j hold
          by_cases hjj : j = sc <;> simp [upd1, hjj, this]
      · -- primeCovRow
        intro _ i j hprime
        rcases (hprime_iff i j).mp hprime with ⟨rfl, rfl⟩ | hold
        · simp [upd1]
        · have := hpcr i j hold
          by_cases hii : i = i₀ <;> simp [upd1, hii, this]
      · -- ordInv
        refine ⟨upd1 ord i₀ fresh, ?_⟩
        intro i c i' hprime hstar
        have hstar_old : s.masks i' c = 1 := (hstar_iff i' c).mp hstar
        have hi'n : i' < n := (hInv.maskBound i' c (by simp [hstar_old])).1
        have hi'ne : i' ≠ i₀ := by
          intro h
          subst h
          have : c = sc := hInv.starRowU i' c sc hstar_old hscold
          subst this
          -- the primed cell is (i₀, j₀); a prime in column sc would be covered
          rcases (hprime_iff i c).mp hprime with ⟨rfl, rfl⟩ | hold
          · rw [hcj₀] at hccsc; cases hccsc
          · have := hInv.primeUncovCol hne1 i c hold
            rw [this] at hccsc; cases hccsc
        rcases (hprime_iff i c).mp hprime with ⟨rfl, rfl⟩ | hold
        · have h1 : upd1 ord i fresh i = fresh := by simp [upd1]
          have h2 : upd1 ord i fresh i' = ord i' := by simp [upd1, hi'ne]
          rw [h1, h2]
          exact hordbig i' hi'n
        · have hine : i ≠ i₀ := by
            intro h
            subst h
            exact hnoprime_row c hold
          have h1 : upd1 ord i₀ fresh i = ord i := by simp [upd1, hine]
          have h2 : upd1 ord i₀ fresh i' = ord i' := by simp [upd1, hi'ne]
          rw [h1, h2]
          exact hord i c i' hold hstar_old
    | none =>
      rw [step2_prime_eq hfz hfs]
      have hfs' : findStarInRow n mk' i₀ = none := hfs
      have hnostar_row : ∀ j', mk' i₀ j' ≠ 1 := by
        intro j' h
        by_cases hj' : j' < n
        · exact findStarInRow_none hfs' j' hj' h
        · exact hj' (hmaskBound' i₀ j' (by simp [h])).2
      refine
        { finPat := hInv.finPat, pot := hInv.pot, nonneg := hInv.nonneg,
          maskBound := hmaskBound', starZero := hstarZero',
          primeZero := hprimeZero', starRowU := hstarRowU',
          starColU := hstarColU', primeRowU := hprimeRowU',
          stepVal := Or.inr (Or.inr (Or.inr (Or.inl rfl))),
          step1Clean := (by intro h; cases h),
          coverRow := ?_, coverCol := ?_, starParity := ?_,
          primeUncovCol := ?_, primeCovRow := ?_,
          pathSpec := ?_,
          ordInv := ?_,
          phaseStars := (by
            intro _ _
            dsimp only
            rw [← hmk', hstarCount']
            exact hInv.phaseStars hne1 (by rw [hs]; norm_num)),
          step6NoZero := (by intro h; cases h),
          exitCond := (by intro h; cases h) }
      · -- coverRow
        intro _ i hri
        obtain ⟨⟨js, hjs⟩, ⟨jp, hjp⟩⟩ := hInv.coverRow hne1 i hri
        have hii : i ≠ i₀ := by
          intro h
          subst h
          rw [hri₀] at hri
          cases hri
        refine ⟨⟨js, ?_⟩, ⟨jp, ?_⟩⟩
        · exact show mk' i js = 1 by
            rw [hmk'eq i js fun hc => hii hc.1]; exact hjs
        · exact show mk' i jp = 2 by
            rw [hmk'eq i jp fun hc => hii hc.1]; exact hjp
      · -- coverCol
        intro _ j hcj
        obtain ⟨i, hi⟩ := hInv.coverCol hne1 j hcj
        exact ⟨i, (hstar_iff i j).mpr hi⟩
      · -- starParity
        intro _ i j hstar
        exact hInv.starParity hne1 i j ((hstar_iff i j).mp hstar)
      · -- primeUncovCol
        intro _ i j hprime
        rcases (hprime_iff i j).mp hprime with ⟨rfl, rfl⟩ | hold
        · exact hcj₀
        · exact hInv.primeUncovCol hne1 i j hold
      · -- primeCovRow: the new step is 3, vacuous
        intro h
        rcases h with h | h | h <;> cases h
      · -- pathSpec
        intro _
        refine ⟨(i₀, j₀), rfl, hcellval, hri₀, hnostar_row, ?_⟩
        intro i j hprime
        rcases (hprime_iff i j).mp hprime with ⟨rfl, rfl⟩ | hold
        · exact Or.inl rfl
        · exact Or.inr (hpcr i j hold)
      · -- ordInv
        refine ⟨upd1 ord i₀ fresh, ?_⟩
        intro i c i' hprime hstar
        have hstar_old : s.masks i' c = 1 := (hstar_iff i' c).mp hstar
        have hi'n : i' < n := (hInv.maskBound i' c (by simp [hstar_old])).1
        have hi'ne : i' ≠ i₀ := by
          intro h
          subst h
          exact hnostar_row c hstar
        rcases (hprime_iff i c).mp hprime with ⟨rfl, rfl⟩ | hold
        · have h1 : upd1 ord i fresh i = fresh := by simp [upd1]
          have h2 : upd1 ord i fresh i' = ord i' := by simp [upd1, hi'ne]
          rw [h1, h2]
          exact hordbig i' hi'n
        · have hine : i ≠ i₀ := by
            intro h
            subst h
            exact hnoprime_row c hold
          have h1 : upd1 ord i₀ fresh i = ord i := by simp [upd1, hine]
          have h2 : upd1 ord i₀ fresh i' = ord i' := by simp [upd1, hi'ne]
          rw [h1, h2]
          exact hord i c i' hold hstar_old

end Hungarian

namespace Hungarian

/-- The hypotheses about masks, covers and the priming order available at
step 3, bundled. -/
structure ChainCtx (n : ℕ) (mk : Masks) (rc cc : ℕ → Bool)
    (ord : ℕ → ℕ) : Prop where
  bound : ∀ i j, mk i j ≠ 0 → i < n ∧ j < n
  srU : ∀ i j j', mk i j = 1 → mk i j' = 1 → j = j'
  scU : ∀ i i' j, mk i j = 1 → mk i' j = 1 → i = i'
  prU : ∀ i j j', mk i j = 2 → mk i j' = 2 → j = j'
  parity : ∀ i j, mk i j = 1 →
      (rc i = true ∧ cc j = false) ∨ (rc i = false ∧ cc j = true)
  covPrime : ∀ i, rc i = true → ∃ j, mk i j = 2
  primeUncov : ∀ i j, mk i j = 2 → cc j = false
  ord_lt : ∀ i c i', mk i c = 2 → mk i' c = 1 → ord i' < ord i

/-- The shape of the lists produced by the `findAugmentingPath` loop:
starting from column `c`, alternately the star in the current column and
the prime in that star's row. -/
inductive AugChain (n : ℕ) (mk : Masks) : ℕ → List (ℕ × ℕ) → Prop
  | nil (c : ℕ) (h : findStarInCol n mk c = none) : AugChain n mk c []
  | cons (c r c' : ℕ) (tail : List (ℕ × ℕ))
      (hstar : findStarInCol n mk c = some r)
      (hprime : findPrimeInRow n mk r = some c')
      (htail : AugChain n mk c' tail) :
      AugChain n mk c ((r, c) :: (r, c') :: tail)

theorem augPath_succ (n : ℕ) (mk : Masks) (fuel c : ℕ) :
    augPath n mk (fuel + 1) c =
      match findStarInCol n mk c with
      | none => []
      | some r =>
        match findPrimeInRow n mk r with
        | none => [(r, c)]
        | some c' => (r, c) :: (r, c') :: augPath n mk fuel c' := rfl

variable {n : ℕ} {mk : Masks} {rc cc : ℕ → Bool} {ord : ℕ → ℕ}

/-- With enough fuel (relative to the priming order of a prime sitting in
the start column), `augPath` produces an `AugChain`. -/
theorem augPath_chain (hctx : ChainCtx n mk rc cc ord) :
    ∀ (fuel p c : ℕ), mk p c = 2 → cc c = false → ord p < fuel →
      AugChain n mk c (augPath n mk fuel c) := by
  intro fuel
  induction fuel with
  | zero =>
    intro p c _ _ h
    cases h
  | succ f ih =>
    intro p c hp hcc hfuel
    rw [augPath_succ]
    cases hsc : findStarInCol n mk c with
    | none => exact AugChain.nil c hsc
    | some r =>
      obtain ⟨hrstar, hrn⟩ := findStarInCol_some hsc
      have hrc : rc r = true := by
        rcases hctx.parity r c hrstar with ⟨h1, _⟩ | ⟨_, h2⟩
        · exact h1
        · rw [hcc] at h2; cases h2
      obtain ⟨c₂, hc₂⟩ := hctx.covPrime r hrc
      obtain ⟨c', hc'⟩ :=
        findPrimeInRow_of_prime (hctx.bound r c₂ (by simp [hc₂])).2 hc₂
      dsimp only
      rw [hc']
      obtain ⟨hc'p, hc'n⟩ := findPrimeInRow_some hc'
      have hordr : ord r < ord p := hctx.ord_lt p c r hp hrstar
      have hcc' : cc c' = false := hctx.primeUncov r c' hc'p
      exact AugChain.cons c r c' _ hsc hc'
        (ih r c' hc'p hcc' (by omega))

end Hungarian

namespace Hungarian

/-- Facts about an augmenting chain started below a prime `(p, c)`:
bounds, mask values, the strict decrease of the priming order along rows,
freshness of prime columns, no duplicates, distinctness of primes, and the
pairing of primes with stars of the chain. -/
structure ChainFacts (n : ℕ) (mk : Masks) (ord : ℕ → ℕ)
    (p c : ℕ) (L : List (ℕ × ℕ)) : Prop where
  bounds : ∀ q ∈ L, q.1 < n ∧ q.2 < n
  mask12 : ∀ q ∈ L, mk q.1 q.2 = 1 ∨ mk q.1 q.2 = 2
  ordLt : ∀ q ∈ L, ord q.1 < ord p
  primeCol : ∀ q ∈ L, mk q.1 q.2 = 2 → q.2 ≠ c
  nodup : L.Nodup
  primesDistinct : ∀ q ∈ L, ∀ q' ∈ L, mk q.1 q.2 = 2 → mk q'.1 q'.2 = 2 →
      q ≠ q' → q.1 ≠ q'.1 ∧ q.2 ≠ q'.2
  primeStar : ∀ q ∈ L, mk q.1 q.2 = 2 →
      ∃ q' ∈ L, mk q'.1 q'.2 = 1 ∧ q'.1 = q.1
  primeColStar : ∀ q ∈ L, mk q.1 q.2 = 2 →
      (∃ q' ∈ L, mk q'.1 q'.2 = 1 ∧ q'.2 = q.2) ∨ (∀ i, mk i q.2 ≠ 1)
  starPrime : ∀ q ∈ L, mk q.1 q.2 = 1 →
      ∃ q' ∈ L, mk q'.1 q'.2 = 2 ∧ q'.1 = q.1

variable {n : ℕ} {mk : Masks} {rc cc : ℕ → Bool} {ord : ℕ → ℕ}

theorem chain_facts (hctx : ChainCtx n mk rc cc ord) :
    ∀ c L, AugChain n mk c L → ∀ p, mk p c = 2 →
      ChainFacts n mk ord p c L := by
  intro c L hch
  induction hch with
  | nil c h =>
    intro p hp
    refine ⟨?_, ?_, ?_, ?_, List.nodup_nil, ?_, ?_, ?_, ?_⟩ <;>
      intro q hq <;> exact absurd hq (List.not_mem_nil q)
  | cons c r c' tail hstar hprime htail ih =>
    intro p hp
    obtain ⟨hrstar, hrn⟩ := findStarInCol_some hstar
    obtain ⟨hc'p, hc'n⟩ := findPrimeInRow_some hprime
    have F := ih r hc'p
    have hcn : c < n := (hctx.bound r c (by simp [hrstar])).2
    have hc'c : c' ≠ c := by
      intro h
      rw [h, hrstar] at hc'p
      exact absurd hc'p (by decide)
    have hordr : ord r < ord p := hctx.ord_lt p c r hp hrstar
    have tailRow : ∀ q ∈ tail, q.1 ≠ r := by
      intro q hq h
      have := F.ordLt q hq
      rw [h] at this
      omega
    have tailPrimeCol : ∀ q ∈ tail, mk q.1 q.2 = 2 → q.2 ≠ c := by
      intro q hq hq2 hqc
      have h1 : ord r < ord q.1 := hctx.ord_lt q.1 c r (hqc ▸ hq2) hrstar
      have h2 := F.ordLt q hq
      omega
    have primeMem : ∀ q, q ∈ (r, c) :: (r, c') :: tail → mk q.1 q.2 = 2 →
        q = (r, c') ∨ q ∈ tail := by
      intro q hq h2
      rcases List.mem_cons.mp hq with rfl | hq
      · simp [hrstar] at h2
      · exact List.mem_cons.mp hq
    refine ⟨?_, ?_, ?_, ?_, ?_, ?_, ?_, ?_, ?_⟩
    · intro q hq
      rcases List.mem_cons.mp hq with rfl | hq
      · exact ⟨hrn, hcn⟩
      rcases List.mem_cons.mp hq with rfl | hq
      · exact ⟨hrn, hc'n⟩
      · exact F.bounds q hq
    · intro q hq
      rcases List.mem_cons.mp hq with rfl | hq
      · exact Or.inl hrstar
      rcases List.mem_cons.mp hq with rfl | hq
      · exact Or.inr hc'p
      · exact F.mask12 q hq
    · intro q hq
      rcases List.mem_cons.mp hq with rfl | hq
      · exact hordr
      rcases List.mem_cons.mp hq with rfl | hq
      · exact hordr
      · have := F.ordLt q hq
        omega
    · intro q hq h2
      rcases primeMem q hq h2 with rfl | hq₂
      · exact hc'c
      · exact tailPrimeCol q hq₂ h2
    · refine List.nodup_cons.mpr ⟨?_, List.nodup_cons.mpr ⟨?_, F.nodup⟩⟩
      · intro hmem
        rcases List.mem_cons.mp hmem with heq | hmem
        · have h : c = c' := congrArg Prod.snd heq
          exact hc'c h.symm
        · exact tailRow (r, c) hmem rfl
      · intro hmem
        exact tailRow (r, c') hmem rfl
    · intro q hq q' hq' h2 h2' hne
      rcases primeMem q hq h2 with rfl | hq₂ <;>
        rcases primeMem q' hq' h2' with rfl | hq₂'
      · exact absurd rfl hne
      · exact ⟨fun h => tailRow q' hq₂' h.symm,
          fun h => (F.primeCol q' hq₂' h2') h.symm⟩
      · exact ⟨fun h => tailRow q hq₂ h, fun h => (F.primeCol q hq₂ h2) h⟩
      · exact F.primesDistinct q hq₂ q' hq₂' h2 h2' hne
    · intro q hq h2
      rcases primeMem q hq h2 with rfl | hq₂
      · exact ⟨(r, c), List.mem_cons_self _ _, hrstar, rfl⟩
      · obtain ⟨q', hq', hs, hr⟩ := F.primeStar q hq₂ h2
        exact ⟨q', List.mem_cons_of_mem _ (List.mem_cons_of_mem _ hq'),
          hs, hr⟩
    · intro q hq h2
      rcases primeMem q hq h2 with rfl | hq₂
      · cases htail with
        | nil c₀ h =>
          right
          intro i hi
          have hin : i < n := (hctx.bound i c' (by simp [hi])).1
          exact absurd hi (findStarInCol_none h i hin)
        | cons _ r₂ c₂ tail₂ hstar₂ hprime₂ htail₂ =>
          left
          obtain ⟨hs₂, _⟩ := findStarInCol_some hstar₂
          exact ⟨(r₂, c'),
            List.mem_cons_of_mem _ (List.mem_cons_of_mem _
              (List.mem_cons_self _ _)), hs₂, rfl⟩
      · rcases F.primeColStar q hq₂ h2 with ⟨q', hq', hs, hcq⟩ | hnone
        · exact Or.inl ⟨q',
            List.mem_cons_of_mem _ (List.mem_cons_of_mem _ hq'), hs, hcq⟩
        · exact Or.inr hnone
    · intro q hq h1
      rcases List.mem_cons.mp hq with rfl | hq
      · exact ⟨(r, c'), List.mem_cons_of_mem _ (List.mem_cons_self _ _),
          hc'p, rfl⟩
      rcases List.mem_cons.mp hq with rfl | hq
      · simp [hc'p] at h1
      · obtain ⟨q', hq', h2', hr⟩ := F.starPrime q hq h1
        exact ⟨q', List.mem_cons_of_mem _ (List.mem_cons_of_mem _ hq'),
          h2', hr⟩

end Hungarian

namespace Hungarian

variable {n : ℕ} {mk : Masks} {rc cc : ℕ → Bool} {ord : ℕ → ℕ}

/-- Any priming order witnessing `ordInv` can be relabelled to take values
in `0..n`, by replacing each value with its rank among the `n` rows. -/
theorem ord_relabel (hbound : ∀ i j, mk i j ≠ 0 → i < n ∧ j < n)
    (hord : ∀ i c i', mk i c = 2 → mk i' c = 1 → ord i' < ord i) :
    ∃ ordr : ℕ → ℕ,
      (∀ i c i', mk i c = 2 → mk i' c = 1 → ordr i' < ordr i) ∧
      ∀ i, ordr i ≤ n := by
  refine ⟨fun i => ((Finset.range n).filter (fun k => ord k < ord i)).card,
    ?_, ?_⟩
  · intro i c i' h2 h1
    have hi'n : i' < n := (hbound i' c (by simp [h1])).1
    have hlt : ord i' < ord i := hord i c i' h2 h1
    apply Finset.card_lt_card
    rw [Finset.ssubset_def]
    constructor
    · intro k hk
      simp only [Finset.mem_filter, Finset.mem_range] at hk ⊢
      exact ⟨hk.1, lt_trans hk.2 hlt⟩
    · intro hsub
      have hmem : i' ∈ (Finset.range n).filter (fun k => ord k < ord i) := by
        simp only [Finset.mem_filter, Finset.mem_range]
        exact ⟨hi'n, hlt⟩
      have := hsub hmem
      simp only [Finset.mem_filter, Finset.mem_range] at this
      exact absurd this.2 (lt_irrefl _)
  · intro i
    calc ((Finset.range n).filter (fun k => ord k < ord i)).card
        ≤ (Finset.range n).card := Finset.card_filter_le _ _
      _ = n := Finset.card_range n

/-- Pointwise value of `flipPath` along a duplicate-free path: cells on the
path are flipped (star to `0`, anything else to `1`), others unchanged. -/
theorem flipPath_eval :
    ∀ (path : List (ℕ × ℕ)) (mk : Masks), path.Nodup →
      ∀ i j, flipPath mk path i j =
        if (i, j) ∈ path then (if mk i j = 1 then 0 else 1) else mk i j := by
  intro path
  induction path with
  | nil =>
    intro mk _ i j
    simp [flipPath]
  | cons q rest ih =>
    intro mk hnd i j
    obtain ⟨hq, hnd'⟩ := List.nodup_cons.mp hnd
    have hstep : flipPath mk (q :: rest) =
        flipPath (upd2 mk q.1 q.2 (if mk q.1 q.2 = 1 then 0 else 1)) rest :=
      rfl
    rw [hstep, ih _ hnd']
    by_cases hmem : (i, j) ∈ rest
    · have hne : ¬(i = q.1 ∧ j = q.2) := by
        rintro ⟨rfl, rfl⟩
        exact hq (by simpa using hmem)
      have hupd : upd2 mk q.1 q.2 (if mk q.1 q.2 = 1 then 0 else 1) i j =
          mk i j := by
        simp [upd2, hne]
      rw [if_pos hmem, hupd, if_pos (List.mem_cons_of_mem _ hmem)]
    · by_cases heq : (i, j) = q
      · subst heq
        have hupd : upd2 mk (i, j).1 (i, j).2
            (if mk (i, j).1 (i, j).2 = 1 then 0 else 1) i j =
            (if mk i j = 1 then 0 else 1) := by
          simp [upd2]
        rw [if_neg hmem, hupd, if_pos (List.mem_cons_self _ _)]
      · have hne : ¬(i = q.1 ∧ j = q.2) := by
          rintro ⟨rfl, rfl⟩
          exact heq rfl
        have hupd : upd2 mk q.1 q.2 (if mk q.1 q.2 = 1 then 0 else 1) i j =
            mk i j := by
          simp [upd2, hne]
        rw [if_neg hmem, hupd, if_neg (by
          intro hmem'
          rcases List.mem_cons.mp hmem' with heq' | hmem''
          · exact heq heq'
          · exact hmem hmem'')]

/-- The unique prime of a row is the one `findPrimeInRow` returns. -/
theorem findPrimeInRow_unique
    (hprU : ∀ i j j', mk i j = 2 → mk i j' = 2 → j = j')
    {i j : ℕ} (hj : j < n) (h : mk i j = 2) :
    findPrimeInRow n mk i = some j := by
  obtain ⟨j', hj'⟩ := findPrimeInRow_of_prime hj h
  obtain ⟨h2, _⟩ := findPrimeInRow_some hj'
  rw [hj']
  exact congrArg some (hprU i j' j h2 h)

end Hungarian

namespace Hungarian

/-- Heads of chains: a chain either starts with the star of its column or
the column has no star. -/
theorem chain_head {n : ℕ} {mk : Masks} {c : ℕ} {L : List (ℕ × ℕ)}
    (hch : AugChain n mk c L) :
    (∃ r, (r, c) ∈ L ∧ mk r c = 1) ∨ findStarInCol n mk c = none := by
  cases hch with
  | nil c₀ h => exact Or.inr h
  | cons _ r c' tail hstar hprime htail =>
    exact Or.inl ⟨r, List.mem_cons_self _ _, (findStarInCol_some hstar).1⟩

/-- The row-preserving map sending each starred row of the path to the
primed cell of that row; used to count the stars gained by augmenting. -/
def augMap (n : ℕ) (mk : Masks) (P : List (ℕ × ℕ)) (q : ℕ × ℕ) : ℕ × ℕ :=
  if q ∈ P then (q.1, (findPrimeInRow n mk q.1).getD 0) else q

theorem augMap_fst (n : ℕ) (mk : Masks) (P : List (ℕ × ℕ)) (q : ℕ × ℕ) :
    (augMap n mk P q).1 = q.1 := by
  unfold augMap
  split <;> rfl

variable {n : ℕ} {mk : Masks} {rc cc : ℕ → Bool} {ord : ℕ → ℕ}

/-- Effect of flipping the augmenting path found from an uncovered,
starless prime `p` and then erasing primes: the masks stay bounded, stars
sit where the old masks were starred or primed, no primes remain, stars
are unique per row and column, and the number of stars strictly grows. -/
theorem augment_spec (hctx : ChainCtx n mk rc cc ord)
    (hordle : ∀ i, ord i ≤ n) {p : ℕ × ℕ} (hpp : mk p.1 p.2 = 2)
    (hnostar : ∀ j', mk p.1 j' ≠ 1) {P : List (ℕ × ℕ)}
    (hPeq : P = p :: augPath n mk (n + 1) p.2) {newMk : Masks}
    (hnew : newMk = clearPrimes (flipPath mk P)) :
    (∀ i j, newMk i j ≠ 0 → i < n ∧ j < n) ∧
    (∀ i j, newMk i j = 1 → mk i j = 1 ∨ mk i j = 2) ∧
    (∀ i j, newMk i j ≠ 2) ∧
    (∀ i j j', newMk i j = 1 → newMk i j' = 1 → j = j') ∧
    (∀ i i' j, newMk i j = 1 → newMk i' j = 1 → i = i') ∧
    starCount n mk < starCount n newMk := by
  subst hPeq
  subst hnew
  have hcc : cc p.2 = false := hctx.primeUncov p.1 p.2 hpp
  have hpn : p.1 < n ∧ p.2 < n := hctx.bound p.1 p.2 (by simp [hpp])
  have hchain : AugChain n mk p.2 (augPath n mk (n + 1) p.2) :=
    augPath_chain hctx (n + 1) p.1 p.2 hpp hcc
      (by have := hordle p.1; omega)
  have CF := chain_facts hctx p.2 _ hchain p.1 hpp
  set L := augPath n mk (n + 1) p.2 with hL
  have hpnotL : p ∉ L := fun hmem => absurd (CF.ordLt p hmem) (lt_irrefl _)
  have hPnd : (p :: L).Nodup := List.nodup_cons.mpr ⟨hpnotL, CF.nodup⟩
  have hmask12 : ∀ q ∈ p :: L, mk q.1 q.2 = 1 ∨ mk q.1 q.2 = 2 := by
    intro q hq
    rcases List.mem_cons.mp hq with rfl | hq
    · exact Or.inr hpp
    · exact CF.mask12 q hq
  have hflip := flipPath_eval (p :: L) mk hPnd
  have hchar : ∀ i j, clearPrimes (flipPath mk (p :: L)) i j =
      if (i, j) ∈ p :: L then (if mk i j = 2 then 1 else 0)
      else (if mk i j = 2 then 0 else mk i j) := by
    intro i j
    unfold clearPrimes
    rw [hflip i j]
    by_cases hm : (i, j) ∈ p :: L
    · rw [if_pos hm]
      rcases hmask12 (i, j) hm with h1 | h2
      · simp [h1, List.mem_cons.mp hm]
      · simp [h2, List.mem_cons.mp hm]
    · rw [if_neg hm, if_neg hm]
  have hstar_iff : ∀ i j, clearPrimes (flipPath mk (p :: L)) i j = 1 ↔
      ((i, j) ∈ p :: L ∧ mk i j = 2) ∨ ((i, j) ∉ p :: L ∧ mk i j = 1) := by
    intro i j
    rw [hchar i j]
    by_cases hm : (i, j) ∈ p :: L <;> by_cases hk : mk i j = 2
    · simp [hm, hk]
    · simp [hm, hk]
    · simp [hm, hk]
    · simp [hm, hk]
  refine ⟨?_, ?_, ?_, ?_, ?_, ?_⟩
  · intro i j h0
    rw [hchar i j] at h0
    by_cases hm : (i, j) ∈ p :: L
    · rcases List.mem_cons.mp hm with heq | hmL
      · have hf : i = p.1 := congrArg Prod.fst heq
        have hs : j = p.2 := congrArg Prod.snd heq
        rw [hf, hs]
        exact hpn
      · exact CF.bounds (i, j) hmL
    · rw [if_neg hm] at h0
      by_cases hk : mk i j = 2
      · rw [if_pos hk] at h0
        exact absurd rfl h0
      · rw [if_neg hk] at h0
        exact hctx.bound i j h0
  · intro i j h1
    rw [hstar_iff i j] at h1
    rcases h1 with ⟨_, h2⟩ | ⟨_, h1⟩
    · exact Or.inr h2
    · exact Or.inl h1
  · intro i j h2
    rw [hchar i j] at h2
    by_cases hm : (i, j) ∈ p :: L
    · rw [if_pos hm] at h2
      by_cases hk : mk i j = 2
      · rw [if_pos hk] at h2
        exact absurd h2 (by decide)
      · rw [if_neg hk] at h2
        exact absurd h2 (by decide)
    · rw [if_neg hm] at h2
      by_cases hk : mk i j = 2
      · rw [if_pos hk] at h2
        exact absurd h2 (by decide)
      · rw [if_neg hk] at h2
        exact hk h2
  · intro i j j' h1 h1'
    rw [hstar_iff i j] at h1
    rw [hstar_iff i j'] at h1'
    rcases h1 with ⟨hm, h2⟩ | ⟨hm, h1s⟩ <;>
      rcases h1' with ⟨hm', h2'⟩ | ⟨hm', h1s'⟩
    · rcases List.mem_cons.mp hm with heq | hmL <;>
        rcases List.mem_cons.mp hm' with heq' | hmL'
      · exact (congrArg Prod.snd heq).trans (congrArg Prod.snd heq').symm
      · have hfst : i = p.1 := congrArg Prod.fst heq
        have hlt : ord i < ord p.1 := CF.ordLt (i, j') hmL'
        rw [hfst] at hlt
        exact absurd hlt (lt_irrefl _)
      · have hfst : i = p.1 := congrArg Prod.fst heq'
        have hlt : ord i < ord p.1 := CF.ordLt (i, j) hmL
        rw [hfst] at hlt
        exact absurd hlt (lt_irrefl _)
      · by_cases heq2 : (i, j) = ((i, j') : ℕ × ℕ)
        · exact congrArg Prod.snd heq2
        · exact absurd rfl
            ((CF.primesDistinct (i, j) hmL (i, j') hmL' h2 h2' heq2).1)
    · rcases List.mem_cons.mp hm with heq | hmL
      · have hfst : i = p.1 := congrArg Prod.fst heq
        rw [hfst] at h1s'
        exact absurd h1s' (hnostar j')
      · obtain ⟨q', hq'L, hq's, hq'r⟩ := CF.primeStar (i, j) hmL h2
        rw [hq'r] at hq's
        have hcol : q'.2 = j' := hctx.srU i q'.2 j' hq's h1s'
        have hq'eq : q' = (i, j') := Prod.ext hq'r hcol
        rw [hq'eq] at hq'L
        exact absurd (List.mem_cons_of_mem p hq'L) hm'
    · rcases List.mem_cons.mp hm' with heq | hmL
      · have hfst : i = p.1 := congrArg Prod.fst heq
        rw [hfst] at h1s
        exact absurd h1s (hnostar j)
      · obtain ⟨q', hq'L, hq's, hq'r⟩ := CF.primeStar (i, j') hmL h2'
        rw [hq'r] at hq's
        have hcol : q'.2 = j := hctx.srU i q'.2 j hq's h1s
        have hq'eq : q' = (i, j) := Prod.ext hq'r hcol
        rw [hq'eq] at hq'L
        exact absurd (List.mem_cons_of_mem p hq'L) hm
    · exact hctx.srU i j j' h1s h1s'
  · intro i i' j h1 h1'
    rw [hstar_iff i j] at h1
    rw [hstar_iff i' j] at h1'
    rcases h1 with ⟨hm, h2⟩ | ⟨hm, h1s⟩ <;>
      rcases h1' with ⟨hm', h2'⟩ | ⟨hm', h1s'⟩
    · rcases List.mem_cons.mp hm with heq | hmL <;>
        rcases List.mem_cons.mp hm' with heq' | hmL'
      · exact (congrArg Prod.fst heq).trans (congrArg Prod.fst heq').symm
      · have hsnd : j = p.2 := congrArg Prod.snd heq
        exact absurd hsnd (CF.primeCol (i', j) hmL' h2')
      · have hsnd : j = p.2 := congrArg Prod.snd heq'
        exact absurd hsnd (CF.primeCol (i, j) hmL h2)
      · by_cases heq2 : ((i, j) : ℕ × ℕ) = (i', j)
        · exact congrArg Prod.fst heq2
        · exact absurd rfl
            ((CF.primesDistinct (i, j) hmL (i', j) hmL' h2 h2' heq2).2)
    · rcases List.mem_cons.mp hm with heq | hmL
      · have hsnd : j = p.2 := congrArg Prod.snd heq
        rcases chain_head hchain with ⟨r, hrL, hrs⟩ | hnone
        · rw [hsnd] at h1s'
          have : r = i' := hctx.scU r i' p.2 hrs h1s'
          rw [this] at hrL
          rw [hsnd] at hm'
          exact absurd (List.mem_cons_of_mem p hrL) hm'
        · have hi'n : i' < n := (hctx.bound i' j (by simp [h1s'])).1
          rw [hsnd] at h1s'
          exact absurd h1s' (findStarInCol_none hnone i' hi'n)
      · rcases CF.primeColStar (i, j) hmL h2 with ⟨q', hq'L, hq's, hq'c⟩ | hnone
        · rw [hq'c] at hq's
          have : q'.1 = i' := hctx.scU q'.1 i' j hq's h1s'
          have hq'eq : q' = (i', j) := Prod.ext this hq'c
          rw [hq'eq] at hq'L
          exact absurd (List.mem_cons_of_mem p hq'L) hm'
        · exact absurd h1s' (hnone i')
    · rcases List.mem_cons.mp hm' with heq | hmL
      · have hsnd : j = p.2 := congrArg Prod.snd heq
        rcases chain_head hchain with ⟨r, hrL, hrs⟩ | hnone
        · rw [hsnd] at h1s
          have : r = i := hctx.scU r i p.2 hrs h1s
          rw [this] at hrL
          rw [hsnd] at hm
          exact absurd (List.mem_cons_of_mem p hrL) hm
        · have hin : i < n := (hctx.bound i j (by simp [h1s])).1
          rw [hsnd] at h1s
          exact absurd h1s (findStarInCol_none hnone i hin)
      · rcases CF.primeColStar (i', j) hmL h2' with ⟨q', hq'L, hq's, hq'c⟩ | hnone
        · rw [hq'c] at hq's
          have : q'.1 = i := hctx.scU q'.1 i j hq's h1s
          have hq'eq : q' = (i, j) := Prod.ext this hq'c
          rw [hq'eq] at hq'L
          exact absurd (List.mem_cons_of_mem p hq'L) hm
        · exact absurd h1s (hnone i)
    · exact hctx.scU i i' j h1s h1s'
  · have hpmem : p ∈ Finset.range n ×ˢ Finset.range n :=
      Finset.mem_product.mpr
        ⟨Finset.mem_range.mpr hpn.1, Finset.mem_range.mpr hpn.2⟩
    have hpnot : p ∉ (Finset.range n ×ˢ Finset.range n).filter
        (fun q => mk q.1 q.2 = 1) := by
      simp [Finset.mem_filter, hpp]
    have hcard : (insert p ((Finset.range n ×ˢ Finset.range n).filter
        (fun q => mk q.1 q.2 = 1))).card =
        ((Finset.range n ×ˢ Finset.range n).filter
          (fun q => mk q.1 q.2 = 1)).card + 1 :=
      Finset.card_insert_of_not_mem hpnot
    have hmaps : ∀ q ∈ insert p ((Finset.range n ×ˢ Finset.range n).filter
        (fun q => mk q.1 q.2 = 1)), augMap n mk (p :: L) q ∈
        (Finset.range n ×ˢ Finset.range n).filter
          (fun q => clearPrimes (flipPath mk (p :: L)) q.1 q.2 = 1) := by
      intro q hq
      rcases Finset.mem_insert.mp hq with rfl | hq
      · have hfind : findPrimeInRow n mk q.1 = some q.2 :=
          findPrimeInRow_unique hctx.prU hpn.2 hpp
        have hmap : augMap n mk (q :: L) q = q := by
          unfold augMap
          rw [if_pos (List.mem_cons_self _ _), hfind]
          rfl
        rw [hmap]
        refine Finset.mem_filter.mpr ⟨hpmem, ?_⟩
        rw [hstar_iff]
        exact Or.inl ⟨List.mem_cons_self _ _, hpp⟩
      · obtain ⟨hqm, hqs⟩ := Finset.mem_filter.mp hq
        by_cases hqP : q ∈ p :: L
        · have hqL : q ∈ L := by
            rcases List.mem_cons.mp hqP with rfl | hqL
            · rw [hpp] at hqs
              exact absurd hqs (by decide)
            · exact hqL
          obtain ⟨q', hq'L, hq'p, hq'r⟩ := CF.starPrime q hqL hqs
          have hq'n := CF.bounds q' hq'L
          rw [hq'r] at hq'p
          have hfind : findPrimeInRow n mk q.1 = some q'.2 :=
            findPrimeInRow_unique hctx.prU hq'n.2 hq'p
          have hmap : augMap n mk (p :: L) q = (q.1, q'.2) := by
            unfold augMap
            rw [if_pos hqP, hfind]
            rfl
          rw [hmap]
          refine Finset.mem_filter.mpr ⟨?_, ?_⟩
          · exact Finset.mem_product.mpr
              ⟨Finset.mem_product.mp hqm |>.1, Finset.mem_range.mpr hq'n.2⟩
          · rw [hstar_iff]
            refine Or.inl ⟨?_, hq'p⟩
            have hq'eq : q' = (q.1, q'.2) := Prod.ext hq'r rfl
            rw [hq'eq] at hq'L
            exact List.mem_cons_of_mem p hq'L
        · have hmap : augMap n mk (p :: L) q = q := by
            unfold augMap
            rw [if_neg hqP]
          rw [hmap]
          refine Finset.mem_filter.mpr ⟨hqm, ?_⟩
          rw [hstar_iff]
          refine Or.inr ⟨?_, hqs⟩
          intro hmem
          exact hqP (by simpa using hmem)
    have hinj : Set.InjOn (augMap n mk (p :: L))
        ↑(insert p ((Finset.range n ×ˢ Finset.range n).filter
          (fun q => mk q.1 q.2 = 1))) := by
      intro q hq q' hq' hfe
      have h1 : q.1 = q'.1 := by
        have e1 := congrArg Prod.fst hfe
        rw [augMap_fst, augMap_fst] at e1
        exact e1
      have hq₂ := Finset.mem_coe.mp hq
      have hq'₂ := Finset.mem_coe.mp hq'
      rcases Finset.mem_insert.mp hq₂ with rfl | hqo <;>
        rcases Finset.mem_insert.mp hq'₂ with rfl | hq'o
      · rfl
      · obtain ⟨_, hq's⟩ := Finset.mem_filter.mp hq'o
        rw [← h1] at hq's
        exact absurd hq's (hnostar q'.2)
      · obtain ⟨_, hqs⟩ := Finset.mem_filter.mp hqo
        rw [h1] at hqs
        exact absurd hqs (hnostar q.2)
      · obtain ⟨_, hqs⟩ := Finset.mem_filter.mp hqo
        obtain ⟨_, hq's⟩ := Finset.mem_filter.mp hq'o
        rw [h1] at hqs
        have h2 : q.2 = q'.2 := hctx.srU q'.1 q.2 q'.2 hqs hq's
        exact Prod.ext h1 h2
    have hmain := Finset.card_le_card_of_injOn _ hmaps hinj
    have e1 : starCount n mk = ((Finset.range n ×ˢ Finset.range n).filter
        (fun q => mk q.1 q.2 = 1)).card := rfl
    have e2 : starCount n (clearPrimes (flipPath mk (p :: L))) =
        ((Finset.range n ×ˢ Finset.range n).filter
          (fun q => clearPrimes (flipPath mk (p :: L)) q.1 q.2 = 1)).card :=
      rfl
    rw [e1, e2]
    omega

end Hungarian

namespace Hungarian

variable {α : Type} [LinearOrderedCommRing α]

/-- `case 3` preserves the invariant, returns to `case 1`, and strictly
increases the number of starred zeros. -/
theorem step3_spec {n : ℕ} {orig : Mat α} {s : HState α}
    (hinv : Inv n orig s) (hstep : s.step = 3) :
    Inv n orig (step3 n s) ∧ (step3 n s).step = 1 ∧
      starCount n s.masks < starCount n (step3 n s).masks := by
  obtain ⟨p, hps, hpp, hprc, hnostar, hothers⟩ := hinv.pathSpec hstep
  have h31 : s.step ≠ 1 := by omega
  obtain ⟨ord₀, hord₀⟩ := hinv.ordInv
  obtain ⟨ord, hordlt, hordle⟩ := ord_relabel hinv.maskBound hord₀
  have hctx : ChainCtx n s.masks s.rowCover s.colCover ord :=
    ⟨hinv.maskBound, hinv.starRowU, hinv.starColU, hinv.primeRowU,
      hinv.starParity h31, fun i hi => (hinv.coverRow h31 i hi).2,
      hinv.primeUncovCol h31, hordlt⟩
  have hP : findAugmentingPath n s.masks p =
      p :: augPath n s.masks (n + 1) p.2 := rfl
  obtain ⟨A1, A2, A3, A4, A5, A6⟩ :=
    augment_spec hctx hordle hpp hnostar hP rfl
  have h3eq : step3 n s = ({ s with
      masks := clearPrimes
        (flipPath s.masks (findAugmentingPath n s.masks p)),
      rowCover := fun _ => false,
      colCover := fun _ => false,
      step := 1 } : HState α) := by
    unfold step3
    rw [hps]
  rw [h3eq]
  refine ⟨?_, rfl, A6⟩
  refine ⟨hinv.finPat, hinv.pot, hinv.nonneg, A1, ?_, ?_, A4, A5, ?_, ?_,
    ?_, ?_, ?_, ?_, ?_, ?_, ?_, ?_, ?_, ?_, ?_⟩
  · intro i j h1
    rcases A2 i j h1 with hs | hp2
    · exact hinv.starZero i j hs
    · exact hinv.primeZero i j hp2
  · intro i j h2
    exact absurd h2 (A3 i j)
  · intro i j j' h2 _
    exact absurd h2 (A3 i j)
  · exact Or.inr (Or.inl rfl)
  · intro _
    exact ⟨fun i => rfl, fun j => rfl, A3⟩
  · intro h
    exact absurd rfl h
  · intro h
    exact absurd rfl h
  · intro h
    exact absurd rfl h
  · intro h
    exact absurd rfl h
  · intro h
    rcases h with h | h | h
    · exact absurd (show (1 : ℕ) = 0 from h) (by decide)
    · exact absurd (show (1 : ℕ) = 2 from h) (by decide)
    · exact absurd (show (1 : ℕ) = 6 from h) (by decide)
  · intro h
    exact absurd (show (1 : ℕ) = 3 from h) (by decide)
  · exact ⟨fun _ => 0, fun i c i' h2 _ => absurd h2 (A3 i c)⟩
  · intro h _
    exact absurd rfl h
  · intro h
    exact absurd (show (1 : ℕ) = 6 from h) (by decide)
  · intro h
    exact absurd (show (1 : ℕ) = 0 from h) (by decide)

end Hungarian

namespace Hungarian

variable {α : Type} [LinearOrderedCommRing α]

/-- `1` exactly when no uncovered zero remains (the situation in which the
machine moves towards `case 6`). -/
def flagOf (n : ℕ) (s : HState α) : ℕ :=
  if findUncoveredZero n s.mat s.rowCover s.colCover = none then 1 else 0

/-- Ranking of the `step` tags along the inner loop `1 → 2 → 6 → 3 → 0`. -/
def tagOf (st : ℕ) : ℕ :=
  if st = 1 then 8 else if st = 2 then 3 else if st = 6 then 2
  else if st = 3 then 1 else 0

/-- Lexicographic-style termination measure: missing stars dominate,
then uncovered rows, then the no-zero flag, then the step tag. -/
def measureOf (n : ℕ) (s : HState α) : ℕ :=
  (3 * n + 14) * (n + 1 - starCount n s.masks) +
    3 * (n + 1 - coverRowCount n s.rowCover) +
    2 * flagOf n s + tagOf s.step

theorem flagOf_le_one (n : ℕ) (s : HState α) : flagOf n s ≤ 1 := by
  unfold flagOf
  split <;> omega

theorem starCount_le {n : ℕ} {mk : Masks}
    (hsrU : ∀ i j j', mk i j = 1 → mk i j' = 1 → j = j') :
    starCount n mk ≤ n := by
  unfold starCount
  have h := Finset.card_le_card_of_injOn (fun q : ℕ × ℕ => q.1)
    (s := (Finset.range n ×ˢ Finset.range n).filter fun q => mk q.1 q.2 = 1)
    (t := Finset.range n) ?_ ?_
  · exact le_trans h (le_of_eq (Finset.card_range n))
  · intro q hq
    exact (Finset.mem_product.mp (Finset.mem_filter.mp hq).1).1
  · intro q hq q' hq' hfe
    have hqs := (Finset.mem_filter.mp (Finset.mem_coe.mp hq)).2
    have hq's := (Finset.mem_filter.mp (Finset.mem_coe.mp hq')).2
    have h1 : q.1 = q'.1 := hfe
    rw [h1] at hqs
    exact Prod.ext h1 (hsrU q'.1 q.2 q'.2 hqs hq's)

theorem coverRowCount_le (n : ℕ) (rc : ℕ → Bool) : coverRowCount n rc ≤ n := by
  unfold coverRowCount
  calc ((Finset.range n).filter fun i => rc i = true).card
      ≤ (Finset.range n).card := Finset.card_filter_le _ _
    _ = n := Finset.card_range n

/-- Priming a non-starred cell does not change the star count. -/
theorem starCount_upd2 {n : ℕ} {mk : Masks} {i j : ℕ} (h : mk i j ≠ 1) :
    starCount n (upd2 mk i j 2) = starCount n mk := by
  unfold starCount
  congr 1
  apply Finset.filter_congr
  intro q _
  by_cases hq : q.1 = i ∧ q.2 = j
  · simp only [upd2, if_pos hq, hq.1, hq.2]
    simp [h]
  · simp [upd2, hq]

/-- Covering a fresh row increments the covered-row count. -/
theorem coverRowCount_upd1 {n : ℕ} {rc : ℕ → Bool} {i : ℕ} (hi : i < n)
    (hrc : rc i = false) :
    coverRowCount n (upd1 rc i true) = coverRowCount n rc + 1 := by
  unfold coverRowCount
  have hset : ((Finset.range n).filter fun i' => upd1 rc i true i' = true) =
      insert i ((Finset.range n).filter fun i' => rc i' = true) := by
    ext x
    simp only [Finset.mem_filter, Finset.mem_insert, Finset.mem_range]
    constructor
    · rintro ⟨hx, hv⟩
      by_cases hxi : x = i
      · exact Or.inl hxi
      · right
        exact ⟨hx, by simpa [upd1, hxi] using hv⟩
    · rintro (rfl | ⟨hx, hv⟩)
      · exact ⟨hi, by simp [upd1]⟩
      · refine ⟨hx, ?_⟩
        by_cases hxi : x = i
        · simp [upd1, hxi]
        · simp [upd1, hxi, hv]
  rw [hset, Finset.card_insert_of_not_mem]
  simp [Finset.mem_filter, hrc]

/-- `case 6` with a finite uncovered minimum, written out. -/
theorem step6_fin_eq {n : ℕ} {s : HState α} {mv : α}
    (hmin : findMinUncovered n s.mat s.rowCover s.colCover = Val.fin mv) :
    step6 n s = ({ s with
      mat := fun i j =>
        let a := if s.rowCover i then (s.mat i j).addF mv else s.mat i j
        if s.colCover j then a else a.subF mv,
      step := 2 } : HState α) := by
  unfold step6
  rw [hmin]

end Hungarian

namespace Hungarian

variable {α : Type} [LinearOrderedCommRing α]

/-- Every dispatch from a non-final state strictly decreases the measure. -/
theorem measure_decrease {n : ℕ} {orig : Mat α} {s : HState α}
    (hinv : Inv n orig s) (hs0 : s.step ≠ 0) :
    measureOf n (stepFn n s) < measureOf n s := by
  rcases hinv.stepVal with h | h | h | h | h
  · exact absurd h hs0
  · have he : stepFn n s = step1 n s := by simp [stepFn, h]
    rw [he]
    have hstep : (step1 n s).step = 0 ∨ (step1 n s).step = 2 := by
      unfold step1
      dsimp only
      split
      · exact Or.inl rfl
      · exact Or.inr rfl
    have htag : tagOf (step1 n s).step ≤ 3 := by
      rcases hstep with h2 | h2 <;> rw [h2] <;> norm_num [tagOf]
    have hf' := flagOf_le_one n (step1 n s)
    have hmm : (step1 n s).masks = s.masks := rfl
    have hrr : (step1 n s).rowCover = s.rowCover := rfl
    unfold measureOf
    rw [hmm, hrr, h]
    have ht1 : tagOf 1 = 8 := rfl
    rw [ht1]
    omega
  · have he : stepFn n s = step2 n s := by simp [stepFn, h]
    rw [he]
    have hne1 : s.step ≠ 1 := by omega
    cases hfz : findUncoveredZero n s.mat s.rowCover s.colCover with
    | none =>
      have e1 : (step2 n s).masks = s.masks := by rw [step2_none_eq hfz]
      have e2 : (step2 n s).rowCover = s.rowCover := by rw [step2_none_eq hfz]
      have ef : flagOf n (step2 n s) = flagOf n s := by
        rw [step2_none_eq hfz]
        rfl
      have e3 : (step2 n s).step = 6 := by rw [step2_none_eq hfz]
      unfold measureOf
      rw [e1, e2, ef, e3, h]
      have ht6 : tagOf 6 = 2 := rfl
      have ht2 : tagOf 2 = 3 := rfl
      rw [ht6, ht2]
      omega
    | some p =>
      rcases p with ⟨i₀, j₀⟩
      obtain ⟨hi₀, hj₀, hz, hri, hci⟩ := findUncoveredZero_some hfz
      have hnotstar : s.masks i₀ j₀ ≠ 1 := by
        intro h1
        rcases hinv.starParity hne1 i₀ j₀ h1 with ⟨hr, _⟩ | ⟨_, hc⟩
        · rw [hri] at hr
          cases hr
        · rw [hci] at hc
          cases hc
      have hsc := starCount_upd2 (n := n) hnotstar
      cases hfs : findStarInRow n (upd2 s.masks i₀ j₀ 2) i₀ with
      | some sc =>
        have e1 : (step2 n s).masks = upd2 s.masks i₀ j₀ 2 := by
          rw [step2_star_eq hfz hfs]
        have e2 : (step2 n s).rowCover = upd1 s.rowCover i₀ true := by
          rw [step2_star_eq hfz hfs]
        have e3 : (step2 n s).step = 2 := by
          rw [step2_star_eq hfz hfs]
        have hcr := coverRowCount_upd1 hi₀ hri
        have hcrle := coverRowCount_le n s.rowCover
        have hf' := flagOf_le_one n (step2 n s)
        unfold measureOf
        rw [e1, e2, e3, h, hsc, hcr]
        omega
      | none =>
        have e1 : (step2 n s).masks = upd2 s.masks i₀ j₀ 2 := by
          rw [step2_prime_eq hfz hfs]
        have e2 : (step2 n s).rowCover = s.rowCover := by
          rw [step2_prime_eq hfz hfs]
        have ef : flagOf n (step2 n s) = flagOf n s := by
          rw [step2_prime_eq hfz hfs]
          rfl
        have e3 : (step2 n s).step = 3 := by
          rw [step2_prime_eq hfz hfs]
        unfold measureOf
        rw [e1, e2, ef, e3, h, hsc]
        have ht3 : tagOf 3 = 1 := rfl
        have ht2 : tagOf 2 = 3 := rfl
        rw [ht3, ht2]
        omega
  · have he : stepFn n s = step3 n s := by simp [stepFn, h]
    rw [he]
    obtain ⟨hinv', hstep1, hcount⟩ := step3_spec hinv h
    have hscn : starCount n s.masks < n :=
      hinv.phaseStars (by omega) (by omega)
    have hf' := flagOf_le_one n (step3 n s)
    have ht' : tagOf (step3 n s).step = 8 := by
      rw [hstep1]
      rfl
    have hB : n + 1 - coverRowCount n (step3 n s).rowCover ≤ n + 1 :=
      Nat.sub_le _ _
    have hu : (n + 1 - starCount n (step3 n s).masks) + 1 ≤
        n + 1 - starCount n s.masks := by omega
    have hmul1 : (3 * n + 14) *
        ((n + 1 - starCount n (step3 n s).masks) + 1) ≤
        (3 * n + 14) * (n + 1 - starCount n s.masks) :=
      Nat.mul_le_mul_left _ hu
    have hmul2 : (3 * n + 14) *
        ((n + 1 - starCount n (step3 n s).masks) + 1) =
        (3 * n + 14) * (n + 1 - starCount n (step3 n s).masks) +
          (3 * n + 14) := Nat.mul_succ _ _
    unfold measureOf
    rw [h, ht']
    have ht3 : tagOf 3 = 1 := rfl
    rw [ht3]
    omega
  · have he : stepFn n s = step6 n s := by simp [stepFn, h]
    rw [he]
    cases hmin : findMinUncovered n s.mat s.rowCover s.colCover with
    | inf =>
      have h6 : step6 n s = ({ s with step := 0 } : HState α) := by
        unfold step6
        rw [hmin]
      have e1 : (step6 n s).masks = s.masks := by rw [h6]
      have e2 : (step6 n s).rowCover = s.rowCover := by rw [h6]
      have ef : flagOf n (step6 n s) = flagOf n s := by
        rw [h6]
        rfl
      have e3 : (step6 n s).step = 0 := by rw [h6]
      unfold measureOf
      rw [e1, e2, ef, e3, h]
      have ht0 : tagOf 0 = 0 := rfl
      have ht6 : tagOf 6 = 2 := rfl
      rw [ht0, ht6]
      omega
    | fin mv =>
      have h6 := step6_fin_eq hmin
      have e1 : (step6 n s).masks = s.masks := by rw [h6]
      have e2 : (step6 n s).rowCover = s.rowCover := by rw [h6]
      have hcc' : (step6 n s).colCover = s.colCover := by rw [h6]
      have e3 : (step6 n s).step = 2 := by rw [h6]
      have hnz := hinv.step6NoZero h
      have hfs1 : flagOf n s = 1 := by simp [flagOf, hnz]
      rcases findMinUncovered_attained n s.mat s.rowCover s.colCover with
        hinf | ⟨i₁, j₁, hi₁, hj₁, hri₁, hci₁, hattain⟩
      · rw [hmin] at hinf
        simp at hinf
      · rw [hmin] at hattain
        have hmatval : s.mat i₁ j₁ = Val.fin mv := hattain.symm
        have hnewzero : (step6 n s).mat i₁ j₁ = Val.fin 0 := by
          rw [h6]
          dsimp only
          simp [hri₁, hci₁, hmatval, Val.subF, sub_self]
        have hzrow : (step6 n s).rowCover i₁ = false := by
          rw [e2]
          exact hri₁
        have hzcol : (step6 n s).colCover j₁ = false := by
          rw [hcc']
          exact hci₁
        obtain ⟨pz, hpz⟩ := findUncoveredZero_of_zero hi₁ hj₁
          hzrow hzcol hnewzero
        have hfs0 : flagOf n (step6 n s) = 0 := by
          unfold flagOf
          rw [hpz]
          simp
        unfold measureOf
        rw [e1, e2, e3, h, hfs1, hfs0]
        have ht2 : tagOf 2 = 3 := rfl
        have ht6 : tagOf 6 = 2 := rfl
        rw [ht2, ht6]
        omega

end Hungarian

namespace Hungarian

variable {α : Type} [LinearOrderedCommRing α]

/-- One dispatch preserves the invariant, whatever the step. -/
theorem stepFn_inv {n : ℕ} {orig : Mat α} {s : HState α}
    (hinv : Inv n orig s) : Inv n orig (stepFn n s) := by
  rcases hinv.stepVal with h | h | h | h | h
  · rw [show stepFn n s = s from by simp [stepFn, h]]
    exact hinv
  · rw [show stepFn n s = step1 n s from by simp [stepFn, h]]
    exact step1_inv hinv h
  · rw [show stepFn n s = step2 n s from by simp [stepFn, h]]
    exact step2_inv hinv h
  · rw [show stepFn n s = step3 n s from by simp [stepFn, h]]
    exact (step3_spec hinv h).1
  · rw [show stepFn n s = step6 n s from by simp [stepFn, h]]
    exact step6_inv hinv h

theorem tagOf_le (st : ℕ) : tagOf st ≤ 8 := by
  unfold tagOf
  split
  · omega
  · split
    · omega
    · split
      · omega
      · split <;> omega

theorem measureOf_lt_fuel (n : ℕ) (s : HState α) :
    measureOf n s < hungarianFuel n := by
  have h1 : n + 1 - starCount n s.masks ≤ n + 1 := Nat.sub_le _ _
  have h2 : n + 1 - coverRowCount n s.rowCover ≤ n + 1 := Nat.sub_le _ _
  have h3 := flagOf_le_one n s
  have h4 := tagOf_le s.step
  have h5 : (3 * n + 14) * (n + 1 - starCount n s.masks) ≤
      (3 * n + 14) * (n + 1) := Nat.mul_le_mul_left _ h1
  have e1 : (3 * n + 14) * (n + 1) = 3 * (n * n) + 17 * n + 14 := by ring
  have e2 : hungarianFuel n = 8 * (n * n) + 32 * n + 40 := by
    unfold hungarianFuel
    ring
  unfold measureOf
  omega

/-- Enough fuel drives the machine to `step = 0`, preserving the
invariant along the way. -/
theorem run_reaches {n : ℕ} {orig : Mat α} :
    ∀ (fuel : ℕ) (s : HState α), Inv n orig s → measureOf n s < fuel →
      (run n fuel s).step = 0 ∧ Inv n orig (run n fuel s) := by
  intro fuel
  induction fuel with
  | zero =>
    intro s _ hm
    exact absurd hm (Nat.not_lt_zero _)
  | succ f ih =>
    intro s hinv hm
    rw [run_succ]
    by_cases h0 : s.step = 0
    · rw [if_pos h0]
      exact ⟨h0, hinv⟩
    · rw [if_neg h0]
      have hd := measure_decrease hinv h0
      exact ih (stepFn n s) (stepFn_inv hinv) (by omega)

/-- The final state: the machine has stopped and the invariant holds. -/
theorem finalState_spec (cm : List (List α)) :
    (finalState cm).step = 0 ∧
      Inv (padSize cm) (padded cm) (finalState cm) :=
  run_reaches (hungarianFuel (padSize cm)) (initState cm) (initState_inv cm)
    (measureOf_lt_fuel _ _)

end Hungarian

/-- **C5.** For every rectangular matrix of non-negative finite costs, the
step machine of `hungarian` terminates: within the allotted fuel it
reaches `step = 0`, and it does so either with all `N` columns of the
padded square covered by starred zeros or with no finite uncovered value
remaining. -/
theorem claim_C5 {α : Type} [LinearOrderedCommRing α] {cm : List (List α)}
    (hrect : Hungarian.Rectangular cm) (hnn : Hungarian.NonnegMatrix cm) :
    (Hungarian.finalState cm).step = 0 ∧
      (((List.range (Hungarian.padSize cm)).filter fun j =>
          (Hungarian.finalState cm).colCover j).length =
            Hungarian.padSize cm ∨
        Hungarian.findMinUncovered (Hungarian.padSize cm)
          (Hungarian.finalState cm).mat (Hungarian.finalState cm).rowCover
          (Hungarian.finalState cm).colCover = Val.inf) := by
  obtain ⟨h0, hinv⟩ := Hungarian.finalState_spec cm
  refine ⟨h0, ?_⟩
  rcases hinv.exitCond h0 with ⟨_, hlen⟩ | hinf
  · exact Or.inl hlen
  · exact Or.inr hinf

/-- Witness for C5 at the concrete matrix `[[1]]`. -/
theorem claim_C5_witness :
    (Hungarian.finalState ([[(1 : ℤ)]])).step = 0 ∧
      (((List.range (Hungarian.padSize [[(1 : ℤ)]])).filter fun j =>
          (Hungarian.finalState [[(1 : ℤ)]]).colCover j).length =
            Hungarian.padSize [[(1 : ℤ)]] ∨
        Hungarian.findMinUncovered (Hungarian.padSize [[(1 : ℤ)]])
          (Hungarian.finalState [[(1 : ℤ)]]).mat
          (Hungarian.finalState [[(1 : ℤ)]]).rowCover
          (Hungarian.finalState [[(1 : ℤ)]]).colCover = Val.inf) :=
  claim_C5 (by unfold Hungarian.Rectangular; decide)
    (by unfold Hungarian.NonnegMatrix; decide)

namespace Hungarian

variable {α : Type} [LinearOrderedCommRing α]

theorem starCount_le_rows {n m : ℕ} {mk : Masks}
    (hrow : ∀ i j, mk i j = 1 → i < m)
    (hsrU : ∀ i j j', mk i j = 1 → mk i j' = 1 → j = j') :
    starCount n mk ≤ m := by
  unfold starCount
  have h := Finset.card_le_card_of_injOn (fun q : ℕ × ℕ => q.1)
    (s := (Finset.range n ×ˢ Finset.range n).filter fun q => mk q.1 q.2 = 1)
    (t := Finset.range m) ?_ ?_
  · exact le_trans h (le_of_eq (Finset.card_range m))
  · intro q hq
    exact Finset.mem_range.mpr (hrow q.1 q.2 (Finset.mem_filter.mp hq).2)
  · intro q hq q' hq' hfe
    have hqs := (Finset.mem_filter.mp (Finset.mem_coe.mp hq)).2
    have hq's := (Finset.mem_filter.mp (Finset.mem_coe.mp hq')).2
    have h1 : q.1 = q'.1 := hfe
    rw [h1] at hqs
    exact Prod.ext h1 (hsrU q'.1 q.2 q'.2 hqs hq's)

theorem starCount_le_cols {n c : ℕ} {mk : Masks}
    (hcol : ∀ i j, mk i j = 1 → j < c)
    (hscU : ∀ i i' j, mk i j = 1 → mk i' j = 1 → i = i') :
    starCount n mk ≤ c := by
  unfold starCount
  have h := Finset.card_le_card_of_injOn (fun q : ℕ × ℕ => q.2)
    (s := (Finset.range n ×ˢ Finset.range n).filter fun q => mk q.1 q.2 = 1)
    (t := Finset.range c) ?_ ?_
  · exact le_trans h (le_of_eq (Finset.card_range c))
  · intro q hq
    exact Finset.mem_range.mpr (hcol q.1 q.2 (Finset.mem_filter.mp hq).2)
  · intro q hq q' hq' hfe
    have hqs := (Finset.mem_filter.mp (Finset.mem_coe.mp hq)).2
    have hq's := (Finset.mem_filter.mp (Finset.mem_coe.mp hq')).2
    have h2 : q.2 = q'.2 := hfe
    rw [h2] at hqs
    exact Prod.ext (hscU q.1 q'.1 q'.2 hqs hq's) h2

theorem le_starCount_of_rows {n m : ℕ} {mk : Masks} (hmn : m ≤ n)
    (h : ∀ i, i < m → ∃ j, j < n ∧ mk i j = 1) :
    m ≤ starCount n mk := by
  unfold starCount
  have hle := Finset.card_le_card_of_injOn
    (fun i => ((i, (findStarInRow n mk i).getD 0) : ℕ × ℕ))
    (s := Finset.range m)
    (t := (Finset.range n ×ˢ Finset.range n).filter fun q => mk q.1 q.2 = 1)
    ?_ ?_
  · rw [Finset.card_range] at hle
    exact hle
  · intro i hi
    obtain ⟨j, hj, hstar⟩ := h i (Finset.mem_range.mp hi)
    obtain ⟨j', hj'⟩ := findStarInRow_of_star hj hstar
    obtain ⟨hstar', hj'n⟩ := findStarInRow_some hj'
    dsimp only
    rw [hj']
    refine Finset.mem_filter.mpr ⟨Finset.mem_product.mpr ⟨?_, ?_⟩, hstar'⟩
    · exact Finset.mem_range.mpr (lt_of_lt_of_le (Finset.mem_range.mp hi) hmn)
    · exact Finset.mem_range.mpr hj'n
  · intro i _ i' _ hfe
    exact congrArg Prod.fst hfe

theorem le_starCount_of_cols {n c : ℕ} {mk : Masks} (hcn : c ≤ n)
    (h : ∀ j, j < c → ∃ i, i < n ∧ mk i j = 1) :
    c ≤ starCount n mk := by
  unfold starCount
  have hle := Finset.card_le_card_of_injOn
    (fun j => (((findStarInCol n mk j).getD 0, j) : ℕ × ℕ))
    (s := Finset.range c)
    (t := (Finset.range n ×ˢ Finset.range n).filter fun q => mk q.1 q.2 = 1)
    ?_ ?_
  · rw [Finset.card_range] at hle
    exact hle
  · intro j hj
    obtain ⟨i, hi, hstar⟩ := h j (Finset.mem_range.mp hj)
    obtain ⟨i', hi'⟩ := findStarInCol_of_star hi hstar
    obtain ⟨hstar', hi'n⟩ := findStarInCol_some hi'
    dsimp only
    rw [hi']
    refine Finset.mem_filter.mpr ⟨Finset.mem_product.mpr ⟨?_, ?_⟩, hstar'⟩
    · exact Finset.mem_range.mpr hi'n
    · exact Finset.mem_range.mpr (lt_of_lt_of_le (Finset.mem_range.mp hj) hcn)
  · intro j _ j' _ hfe
    exact congrArg Prod.snd hfe

end Hungarian

namespace Hungarian

variable {α : Type} [LinearOrderedCommRing α]

theorem eq_inf_of_vle_inf {v : Val α} (h : Val.vle Val.inf v) : v = Val.inf := by
  cases v with
  | fin x => exact absurd h (Val.not_vle_inf_fin)
  | inf => rfl

/-- A full column filter means every column is covered. -/
theorem all_colCover_of_full {n : ℕ} {cc : ℕ → Bool}
    (h : ((List.range n).filter fun j => cc j).length = n) :
    ∀ j, j < n → cc j = true := by
  rw [filter_range_length_eq_card] at h
  have hsub : ((Finset.range n).filter fun j => cc j = true) ⊆
      Finset.range n := Finset.filter_subset _ _
  have heq : ((Finset.range n).filter fun j => cc j = true) =
      Finset.range n := by
    apply Finset.eq_of_subset_of_card_le hsub
    rw [h]
    exact le_of_eq (Finset.card_range n)
  intro j hj
  have hmem : j ∈ (Finset.range n).filter fun j => cc j = true := by
    rw [heq]
    exact Finset.mem_range.mpr hj
  exact (Finset.mem_filter.mp hmem).2

/-- Every starred zero of the final state lies inside the original
`m × cols` rectangle (the padding is `Infinity`, which never equals
zero). -/
theorem stars_in_rect {cm : List (List α)} {i j : ℕ}
    (h : (finalState cm).masks i j = 1) :
    i < rowsOf cm ∧ j < colsOf cm := by
  obtain ⟨h0, hinv⟩ := finalState_spec cm
  have hb := hinv.maskBound i j (by simp [h])
  have hz := hinv.starZero i j h
  by_contra hc
  have horig : padded cm i j = Val.inf := by
    unfold padded
    rw [if_neg hc]
  have hmatinf := (hinv.finPat i j hb.1 hb.2).mpr horig
  rw [hz] at hmatinf
  cases hmatinf

/-- The final state carries exactly `min(m, cols)` starred zeros. -/
theorem final_starCount {cm : List (List α)} (hrect : Rectangular cm)
    (hnn : NonnegMatrix cm) :
    starCount (padSize cm) (finalState cm).masks =
      min (rowsOf cm) (colsOf cm) := by
  obtain ⟨h0, hinv⟩ := finalState_spec cm
  have hmn : rowsOf cm ≤ padSize cm := le_max_left _ _
  have hcn : colsOf cm ≤ padSize cm := le_max_right _ _
  have hub1 : starCount (padSize cm) (finalState cm).masks ≤ rowsOf cm :=
    starCount_le_rows (fun i j h => (stars_in_rect h).1) hinv.starRowU
  have hub2 : starCount (padSize cm) (finalState cm).masks ≤ colsOf cm :=
    starCount_le_cols (fun i j h => (stars_in_rect h).2) hinv.starColU
  have hlb : min (rowsOf cm) (colsOf cm) ≤
      starCount (padSize cm) (finalState cm).masks := by
    rcases hinv.exitCond h0 with ⟨hiff, hlen⟩ | hinf
    · have hall := all_colCover_of_full hlen
      have hge : padSize cm ≤ starCount (padSize cm) (finalState cm).masks := by
        apply le_starCount_of_cols (le_refl (padSize cm))
        intro j hj
        obtain ⟨i, hi⟩ := (hiff j hj).mp (hall j hj)
        exact ⟨i, (hinv.maskBound i j (by simp [hi])).1, hi⟩
      omega
    · by_contra hlt
      push_neg at hlt
      have hrowstar : ¬(∀ i, i < rowsOf cm →
          ∃ j, j < padSize cm ∧ (finalState cm).masks i j = 1) := by
        intro hallrows
        have := le_starCount_of_rows hmn hallrows
        omega
      push_neg at hrowstar
      obtain ⟨i, him, hnostar⟩ := hrowstar
      have hrci : (finalState cm).rowCover i = false := by
        by_contra hrc
        rw [Bool.not_eq_false] at hrc
        obtain ⟨⟨j, hj⟩, _⟩ := hinv.coverRow (by omega) i hrc
        have hjn := (hinv.maskBound i j (by simp [hj])).2
        exact hnostar j hjn hj
      have hallc : ∀ j, j < colsOf cm →
          (finalState cm).colCover j = true := by
        intro j hjc
        by_contra hccj
        rw [Bool.not_eq_true] at hccj
        have hin : i < padSize cm := lt_of_lt_of_le him hmn
        have hjn : j < padSize cm := lt_of_lt_of_le hjc hcn
        have hvle := findMinUncovered_le (M := (finalState cm).mat)
          hin hjn hrci hccj
        rw [hinf] at hvle
        have hmatinf := eq_inf_of_vle_inf hvle
        have horig := (hinv.finPat i j hin hjn).mp hmatinf
        unfold padded at horig
        rw [if_pos ⟨him, hjc⟩] at horig
        cases horig
      have hge : colsOf cm ≤ starCount (padSize cm) (finalState cm).masks := by
        apply le_starCount_of_cols hcn
        intro j hjc
        obtain ⟨i', hi'⟩ := hinv.coverCol (by omega) j (hallc j hjc)
        exact ⟨i', (hinv.maskBound i' j (by simp [hi'])).1, hi'⟩
      omega
  omega

end Hungarian

namespace Hungarian

variable {α : Type} [LinearOrderedCommRing α]

theorem range_toFinset (m : ℕ) : (List.range m).toFinset = Finset.range m := by
  ext x
  simp

theorem mem_assignmentsOf {cm : List (List α)} {mk : Masks} {q : ℕ × ℕ} :
    q ∈ assignmentsOf cm mk ↔
      q.1 < rowsOf cm ∧ q.2 < colsOf cm ∧ mk q.1 q.2 = 1 := by
  unfold assignmentsOf
  simp only [List.mem_flatMap, List.mem_map, List.mem_filter, List.mem_range,
    beq_iff_eq]
  constructor
  · rintro ⟨i, hi, j, ⟨hj, hs⟩, rfl⟩
    exact ⟨hi, hj, hs⟩
  · rintro ⟨h1, h2, h3⟩
    exact ⟨q.1, h1, q.2, ⟨h2, h3⟩, Prod.mk.eta⟩

theorem flatMap_nodup_fst {f : ℕ → List (ℕ × ℕ)} :
    ∀ l : List ℕ, l.Nodup → (∀ i q, q ∈ f i → q.1 = i) →
      (∀ i, (f i).length ≤ 1) → ((l.flatMap f).map Prod.fst).Nodup := by
  intro l
  induction l with
  | nil =>
    intro _ _ _
    simp
  | cons i rest ih =>
    intro hnd hfst hlen
    obtain ⟨hni, hnd'⟩ := List.nodup_cons.mp hnd
    rw [List.flatMap_cons, List.map_append]
    apply List.Nodup.append
    · have hl := hlen i
      cases hfi : f i with
      | nil => simp
      | cons q t =>
        cases t with
        | nil => simp
        | cons q' t' =>
          rw [hfi] at hl
          simp at hl
    · exact ih hnd' hfst hlen
    · intro x hx1 hx2
      obtain ⟨q, hq, hxq⟩ := List.mem_map.mp hx1
      obtain ⟨q', hq', hxq'⟩ := List.mem_map.mp hx2
      obtain ⟨i', hi', hq'f⟩ := List.mem_flatMap.mp hq'
      have h1 : q.1 = i := hfst i q hq
      have h2 : q'.1 = i' := hfst i' q' hq'f
      have : i = i' := by rw [← h1, hxq, ← hxq', h2]
      rw [this] at hni
      exact hni hi'

theorem inner_len_le_one {cm : List (List α)} {mk : Masks}
    (hsrU : ∀ i j j', mk i j = 1 → mk i j' = 1 → j = j') (i : ℕ) :
    (((List.range (colsOf cm)).filter fun j => mk i j == 1).map
      fun j => ((i, j) : ℕ × ℕ)).length ≤ 1 := by
  rw [List.length_map, filter_range_length_eq_card]
  apply Finset.card_le_one.mpr
  intro a ha b hb
  have ha' := (Finset.mem_filter.mp ha).2
  have hb' := (Finset.mem_filter.mp hb).2
  rw [beq_iff_eq] at ha' hb'
  exact hsrU i a b ha' hb'

theorem assignments_nodup_fst {cm : List (List α)} {mk : Masks}
    (hsrU : ∀ i j j', mk i j = 1 → mk i j' = 1 → j = j') :
    ((assignmentsOf cm mk).map Prod.fst).Nodup := by
  apply flatMap_nodup_fst
  · exact List.nodup_range _
  · intro i q hq
    obtain ⟨j, _, hjq⟩ := List.mem_map.mp hq
    rw [← hjq]
  · exact inner_len_le_one hsrU

theorem assignments_nodup_snd {cm : List (List α)} {mk : Masks}
    (hsrU : ∀ i j j', mk i j = 1 → mk i j' = 1 → j = j')
    (hscU : ∀ i i' j, mk i j = 1 → mk i' j = 1 → i = i') :
    ((assignmentsOf cm mk).map Prod.snd).Nodup := by
  have hnd : (assignmentsOf cm mk).Nodup :=
    (assignments_nodup_fst hsrU).of_map
  apply List.Nodup.map_on ?_ hnd
  intro q hq q' hq' he
  have h1 := mem_assignmentsOf.mp hq
  have h2 := mem_assignmentsOf.mp hq'
  have hs1 : mk q.1 q'.2 = 1 := by rw [← he]; exact h1.2.2
  exact Prod.ext (hscU q.1 q'.1 q'.2 hs1 h2.2.2) he

theorem assignmentsOf_length {cm : List (List α)} {mk : Masks}
    (hin : ∀ i j, mk i j = 1 → i < rowsOf cm ∧ j < colsOf cm) :
    (assignmentsOf cm mk).length = starCount (padSize cm) mk := by
  unfold assignmentsOf
  rw [List.length_flatMap]
  simp only [Function.comp_def]
  have hb : ((List.range (rowsOf cm)).map fun i =>
      (((List.range (colsOf cm)).filter fun j => mk i j == 1).map
        fun j => ((i, j) : ℕ × ℕ)).length).sum =
      ∑ i ∈ Finset.range (rowsOf cm),
        ((Finset.range (colsOf cm)).filter fun j => mk i j = 1).card := by
    rw [← List.sum_toFinset _ (List.nodup_range (rowsOf cm)),
      range_toFinset]
    apply Finset.sum_congr rfl
    intro i _
    rw [List.length_map, filter_range_length_eq_card]
    congr 1
    apply Finset.filter_congr
    intro j _
    simp [beq_iff_eq]
  rw [hb]
  unfold starCount
  have hmn : rowsOf cm ≤ padSize cm := le_max_left _ _
  have hcn : colsOf cm ≤ padSize cm := le_max_right _ _
  have hset : ((Finset.range (padSize cm) ×ˢ Finset.range (padSize cm)).filter
      fun q => mk q.1 q.2 = 1) =
      ((Finset.range (rowsOf cm) ×ˢ Finset.range (colsOf cm)).filter
        fun q => mk q.1 q.2 = 1) := by
    ext q
    simp only [Finset.mem_filter, Finset.mem_product, Finset.mem_range]
    constructor
    · rintro ⟨⟨_, _⟩, hs⟩
      exact ⟨hin q.1 q.2 hs, hs⟩
    · rintro ⟨⟨hq1, hq2⟩, hs⟩
      exact ⟨⟨lt_of_lt_of_le hq1 hmn, lt_of_lt_of_le hq2 hcn⟩, hs⟩
  rw [hset]
  have hmaps : ∀ q ∈ ((Finset.range (rowsOf cm) ×ˢ
      Finset.range (colsOf cm)).filter fun q => mk q.1 q.2 = 1),
      (fun q : ℕ × ℕ => q.1) q ∈ Finset.range (rowsOf cm) := by
    intro q hq
    exact (Finset.mem_product.mp (Finset.mem_filter.mp hq).1).1
  rw [Finset.card_eq_sum_card_fiberwise hmaps]
  apply Finset.sum_congr rfl
  intro i hi
  symm
  apply Finset.card_bij (fun q _ => q.2)
  · intro q hq
    simp only [Finset.mem_filter, Finset.mem_product, Finset.mem_range] at hq
    simp only [Finset.mem_filter, Finset.mem_range]
    refine ⟨hq.1.1.2, ?_⟩
    rw [← hq.2]
    exact hq.1.2
  · intro q hq q' hq' he
    simp only [Finset.mem_filter, Finset.mem_product, Finset.mem_range]
      at hq hq'
    exact Prod.ext (hq.2.trans hq'.2.symm) he
  · intro j hj
    simp only [Finset.mem_filter, Finset.mem_range] at hj
    refine ⟨(i, j), ?_, rfl⟩
    simp only [Finset.mem_filter, Finset.mem_product, Finset.mem_range]
    exact ⟨⟨⟨Finset.mem_range.mp hi, hj.1⟩, hj.2⟩, trivial⟩

end Hungarian

/-- **C2.** For every rectangular matrix of non-negative finite costs,
`hungarian` returns exactly `min(m, n)` assignments, with no repeated row
index and no repeated column index, and its total cost is the sum of the
original matrix entries at the assigned cells. -/
theorem claim_C2 {α : Type} [LinearOrderedCommRing α] {cm : List (List α)}
    (hrect : Hungarian.Rectangular cm) (hnn : Hungarian.NonnegMatrix cm) :
    (Hungarian.hungarian cm).1.length =
        min (Hungarian.rowsOf cm) (Hungarian.colsOf cm) ∧
      ((Hungarian.hungarian cm).1.map Prod.fst).Nodup ∧
      ((Hungarian.hungarian cm).1.map Prod.snd).Nodup ∧
      (Hungarian.hungarian cm).2 =
        Hungarian.matchingCost cm (Hungarian.hungarian cm).1 := by
  obtain ⟨h0, hinv⟩ := Hungarian.finalState_spec cm
  have h1 : (Hungarian.hungarian cm).1 =
      Hungarian.assignmentsOf cm (Hungarian.finalState cm).masks := rfl
  refine ⟨?_, ?_, ?_, rfl⟩
  · rw [h1, Hungarian.assignmentsOf_length
      (fun i j h => Hungarian.stars_in_rect h),
      Hungarian.final_starCount hrect hnn]
  · rw [h1]
    exact Hungarian.assignments_nodup_fst hinv.starRowU
  · rw [h1]
    exact Hungarian.assignments_nodup_snd hinv.starRowU hinv.starColU

/-- Witness for C2 at the concrete 1 × 2 matrix `[[5, 3]]`. -/
theorem claim_C2_witness :
    (Hungarian.hungarian ([[5, 3]] : List (List ℤ))).1.length =
        min (Hungarian.rowsOf ([[5, 3]] : List (List ℤ)))
          (Hungarian.colsOf ([[5, 3]] : List (List ℤ))) ∧
      ((Hungarian.hungarian ([[5, 3]] : List (List ℤ))).1.map
        Prod.fst).Nodup ∧
      ((Hungarian.hungarian ([[5, 3]] : List (List ℤ))).1.map
        Prod.snd).Nodup ∧
      (Hungarian.hungarian ([[5, 3]] : List (List ℤ))).2 =
        Hungarian.matchingCost ([[5, 3]] : List (List ℤ))
          (Hungarian.hungarian ([[5, 3]] : List (List ℤ))).1 :=
  claim_C2 (by unfold Hungarian.Rectangular; decide)
    (by unfold Hungarian.NonnegMatrix; decide)

namespace Hungarian

variable {α : Type} [LinearOrderedCommRing α]

theorem list_map_sum_add {β : Type} (l : List β) (f g : β → α) :
    (l.map fun x => f x + g x).sum = (l.map f).sum + (l.map g).sum := by
  induction l with
  | nil => simp
  | cons x t ih =>
    simp only [List.map_cons, List.sum_cons, ih]
    ring

theorem list_map_sum_le {β : Type} (l : List β) (f g : β → α)
    (h : ∀ x ∈ l, f x ≤ g x) : (l.map f).sum ≤ (l.map g).sum := by
  induction l with
  | nil => simp
  | cons x t ih =>
    simp only [List.map_cons, List.sum_cons]
    exact add_le_add (h x (List.mem_cons_self _ _))
      (ih fun y hy => h y (List.mem_cons_of_mem _ hy))

/-- A duplicate-free list of `n` naturals below `n` enumerates `0..n-1`,
so a sum over it is the sum over `range n`. -/
theorem sum_map_of_perm_range {n : ℕ} {l : List ℕ} (hnd : l.Nodup)
    (hlen : l.length = n) (hlt : ∀ x ∈ l, x < n) (g : ℕ → α) :
    (l.map g).sum = ∑ i ∈ Finset.range n, g i := by
  have htf : l.toFinset = Finset.range n := by
    apply Finset.eq_of_subset_of_card_le
    · intro x hx
      exact Finset.mem_range.mpr (hlt x (List.mem_toFinset.mp hx))
    · rw [Finset.card_range, List.toFinset_card_of_nodup hnd, hlen]
  rw [← List.sum_toFinset _ hnd, htf]

/-- LP-duality optimality on the square case: the starred total equals the
sum of the potentials, and every perfect matching costs at least that. -/
theorem square_optimal {cm : List (List α)} (hrect : Rectangular cm)
    (hnn : NonnegMatrix cm) (hsq : rowsOf cm = colsOf cm)
    {pr : List (ℕ × ℕ)} (hpr : IsMatching (rowsOf cm) (colsOf cm) pr)
    (hlen : pr.length = rowsOf cm) :
    (hungarian cm).2 ≤ matchingCost cm pr := by
  obtain ⟨h0, hinv⟩ := finalState_spec cm
  obtain ⟨u, v, hpot⟩ := hinv.pot
  obtain ⟨hprb, hprf, hprs⟩ := hpr
  have hpadded : ∀ i j, i < rowsOf cm → j < colsOf cm →
      padded cm i j = Val.fin (entry cm i j) := by
    intro i j h1 h2
    unfold padded
    rw [if_pos ⟨h1, h2⟩]
  have hstarval : ∀ q ∈ assignmentsOf cm (finalState cm).masks,
      entry cm q.1 q.2 = u q.1 + v q.2 := by
    intro q hq
    obtain ⟨h1, h2, hs⟩ := mem_assignmentsOf.mp hq
    have hb1 : q.1 < padSize cm := lt_of_lt_of_le h1 (le_max_left _ _)
    have hb2 : q.2 < padSize cm := lt_of_lt_of_le h2 (le_max_right _ _)
    have hz := hinv.starZero q.1 q.2 hs
    have horig := hpot q.1 q.2 hb1 hb2 0 hz
    rw [hpadded q.1 q.2 h1 h2] at horig
    have he := Val.fin.inj horig
    rw [he]
    ring
  have hmatchval : ∀ q ∈ pr, u q.1 + v q.2 ≤ entry cm q.1 q.2 := by
    intro q hq
    obtain ⟨h1, h2⟩ := hprb q hq
    have hb1 : q.1 < padSize cm := lt_of_lt_of_le h1 (le_max_left _ _)
    have hb2 : q.2 < padSize cm := lt_of_lt_of_le h2 (le_max_right _ _)
    cases hmat : (finalState cm).mat q.1 q.2 with
    | inf =>
      have horig := (hinv.finPat q.1 q.2 hb1 hb2).mp hmat
      rw [hpadded q.1 q.2 h1 h2] at horig
      cases horig
    | fin x =>
      have horig := hpot q.1 q.2 hb1 hb2 x hmat
      rw [hpadded q.1 q.2 h1 h2] at horig
      have he := Val.fin.inj horig
      have hx := hinv.nonneg q.1 q.2 x hb1 hb2 hmat
      rw [he]
      linarith
  have hasg_len : (assignmentsOf cm (finalState cm).masks).length =
      rowsOf cm := by
    rw [assignmentsOf_length (fun i j h => stars_in_rect h),
      final_starCount hrect hnn, hsq, min_self]
  have hasg_fst : ((assignmentsOf cm (finalState cm).masks).map
      Prod.fst).Nodup := assignments_nodup_fst hinv.starRowU
  have hasg_snd : ((assignmentsOf cm (finalState cm).masks).map
      Prod.snd).Nodup := assignments_nodup_snd hinv.starRowU hinv.starColU
  have hsum_fst : ((assignmentsOf cm (finalState cm).masks).map
      fun p => u p.1).sum = ∑ i ∈ Finset.range (rowsOf cm), u i := by
    have e : ((assignmentsOf cm (finalState cm).masks).map
        fun p => u p.1).sum = (((assignmentsOf cm
          (finalState cm).masks).map Prod.fst).map u).sum := by
      rw [List.map_map]
      rfl
    rw [e]
    apply sum_map_of_perm_range hasg_fst
    · rw [List.length_map, hasg_len]
    · intro x hx
      obtain ⟨q, hq, hxq⟩ := List.mem_map.mp hx
      rw [← hxq]
      exact (mem_assignmentsOf.mp hq).1
  have hsum_snd : ((assignmentsOf cm (finalState cm).masks).map
      fun p => v p.2).sum = ∑ j ∈ Finset.range (colsOf cm), v j := by
    have e : ((assignmentsOf cm (finalState cm).masks).map
        fun p => v p.2).sum = (((assignmentsOf cm
          (finalState cm).masks).map Prod.snd).map v).sum := by
      rw [List.map_map]
      rfl
    rw [e]
    apply sum_map_of_perm_range hasg_snd
    · rw [List.length_map, hasg_len, hsq]
    · intro x hx
      obtain ⟨q, hq, hxq⟩ := List.mem_map.mp hx
      rw [← hxq]
      exact (mem_assignmentsOf.mp hq).2.1
  have hpr_fst : ((pr.map fun p => u p.1).sum =
      ∑ i ∈ Finset.range (rowsOf cm), u i) := by
    have e : (pr.map fun p => u p.1).sum =
        ((pr.map Prod.fst).map u).sum := by
      rw [List.map_map]
      rfl
    rw [e]
    apply sum_map_of_perm_range hprf
    · rw [List.length_map, hlen]
    · intro x hx
      obtain ⟨q, hq, hxq⟩ := List.mem_map.mp hx
      rw [← hxq]
      exact (hprb q hq).1
  have hpr_snd : ((pr.map fun p => v p.2).sum =
      ∑ j ∈ Finset.range (colsOf cm), v j) := by
    have e : (pr.map fun p => v p.2).sum =
        ((pr.map Prod.snd).map v).sum := by
      rw [List.map_map]
      rfl
    rw [e]
    apply sum_map_of_perm_range hprs
    · rw [List.length_map, hlen, hsq]
    · intro x hx
      obtain ⟨q, hq, hxq⟩ := List.mem_map.mp hx
      rw [← hxq]
      exact (hprb q hq).2
  have hLHS : (hungarian cm).2 =
      ∑ i ∈ Finset.range (rowsOf cm), u i +
        ∑ j ∈ Finset.range (colsOf cm), v j := by
    have h2 : (hungarian cm).2 = ((assignmentsOf cm
        (finalState cm).masks).map fun p => entry cm p.1 p.2).sum := rfl
    rw [h2, List.map_congr_left hstarval, list_map_sum_add, hsum_fst,
      hsum_snd]
  have hRHS : ∑ i ∈ Finset.range (rowsOf cm), u i +
      ∑ j ∈ Finset.range (colsOf cm), v j ≤ matchingCost cm pr := by
    unfold matchingCost
    calc ∑ i ∈ Finset.range (rowsOf cm), u i +
        ∑ j ∈ Finset.range (colsOf cm), v j
        = (pr.map fun p => u p.1 + v p.2).sum := by
          rw [list_map_sum_add, hpr_fst, hpr_snd]
      _ ≤ (pr.map fun p => entry cm p.1 p.2).sum :=
          list_map_sum_le pr _ _ hmatchval
  rw [hLHS]
  exact hRHS

end Hungarian

/-- **C1 (amended).** The rectangular half of the claim is false (see the
counterexample); the square half holds: for every `n × n` matrix of
non-negative finite costs, the total cost returned by `hungarian` is less
than or equal to the total cost of every perfect matching. -/
theorem claim_C1 {α : Type} [LinearOrderedCommRing α] {cm : List (List α)}
    (hrect : Hungarian.Rectangular cm) (hnn : Hungarian.NonnegMatrix cm)
    (hsq : Hungarian.rowsOf cm = Hungarian.colsOf cm) {pr : List (ℕ × ℕ)}
    (hpr : Hungarian.IsMatching (Hungarian.rowsOf cm)
      (Hungarian.colsOf cm) pr)
    (hlen : pr.length = Hungarian.rowsOf cm) :
    (Hungarian.hungarian cm).2 ≤ Hungarian.matchingCost cm pr :=
  Hungarian.square_optimal hrect hnn hsq hpr hlen

/-- Witness for C1 at the 2 × 2 matrix `[[1, 2], [3, 4]]` against the
anti-diagonal matching. -/
theorem claim_C1_witness :
    (Hungarian.hungarian ([[1, 2], [3, 4]] : List (List ℤ))).2 ≤
      Hungarian.matchingCost ([[1, 2], [3, 4]] : List (List ℤ))
        [(0, 1), (1, 0)] :=
  claim_C1 (by unfold Hungarian.Rectangular; decide)
    (by unfold Hungarian.NonnegMatrix; decide) (by decide) (by decide)
    (by decide)

namespace Hungarian

variable {α β : Type} [LinearOrderedCommRing α] [LinearOrderedCommRing β]

/-- Mapping a possibly-infinite value through a ring homomorphism. -/
def vmap (f : α →+* β) : Val α → Val β
  | Val.fin x => Val.fin (f x)
  | Val.inf => Val.inf

/-- Mapping a matrix entrywise. -/
def mapMat (f : α →+* β) (M : Mat α) : Mat β := fun i j => vmap f (M i j)

/-- Mapping the machine state: only the matrix holds numbers. -/
def mapState (f : α →+* β) (s : HState α) : HState β :=
  ⟨mapMat f s.mat, s.masks, s.rowCover, s.colCover, s.pathStart, s.step⟩

theorem vmap_eq_fin_zero {f : α →+* β} (hinj : Function.Injective f)
    {v : Val α} : vmap f v = Val.fin 0 ↔ v = Val.fin 0 := by
  cases v with
  | fin x =>
    simp only [vmap, Val.fin.injEq]
    constructor
    · intro h
      exact hinj (by rw [h, map_zero])
    · intro h
      rw [h, map_zero]
  | inf => simp [vmap]

theorem vmap_isFin (f : α →+* β) (v : Val α) :
    (vmap f v).isFin = v.isFin := by
  cases v <;> rfl

theorem vmap_vmin {f : α →+* β} (hmono : Monotone f) (a b : Val α) :
    vmap f (Val.vmin a b) = Val.vmin (vmap f a) (vmap f b) := by
  cases a with
  | inf => cases b <;> rfl
  | fin x =>
    cases b with
    | inf => rfl
    | fin y =>
      simp only [Val.vmin, vmap, Val.fin.injEq]
      exact hmono.map_min

theorem vmap_subF (f : α →+* β) (v : Val α) (m : α) :
    vmap f (v.subF m) = (vmap f v).subF (f m) := by
  cases v with
  | fin x => simp [vmap, Val.subF, map_sub]
  | inf => rfl

theorem vmap_addF (f : α →+* β) (v : Val α) (m : α) :
    vmap f (v.addF m) = (vmap f v).addF (f m) := by
  cases v with
  | fin x => simp [vmap, Val.addF, map_add]
  | inf => rfl

theorem foldl_vmap_comm {f : α →+* β} {γ : Type} {l : List γ}
    {g : Val α → γ → Val α} {h : Val β → γ → Val β}
    (hc : ∀ a x, x ∈ l → h (vmap f a) x = vmap f (g a x)) :
    ∀ acc, l.foldl h (vmap f acc) = vmap f (l.foldl g acc) := by
  induction l with
  | nil => intro acc; rfl
  | cons x t ih =>
    intro acc
    simp only [List.foldl_cons]
    rw [hc acc x (List.mem_cons_self _ _)]
    exact ih (fun a y hy => hc a y (List.mem_cons_of_mem _ hy)) (g acc x)

theorem vmap_listMin {f : α →+* β} (hmono : Monotone f) (l : List (Val α)) :
    Val.listMin (l.map (vmap f)) = vmap f (Val.listMin l) := by
  unfold Val.listMin
  rw [List.foldl_map]
  have : (Val.inf : Val β) = vmap f Val.inf := rfl
  rw [this]
  exact foldl_vmap_comm (fun a x _ => (vmap_vmin hmono a x).symm) Val.inf

theorem rowMin_map {f : α →+* β} (hmono : Monotone f) (n : ℕ) (M : Mat α)
    (i : ℕ) : rowMin n (mapMat f M) i = vmap f (rowMin n M i) := by
  unfold rowMin
  rw [show ((List.range n).map fun j => mapMat f M i j) =
    ((List.range n).map fun j => M i j).map (vmap f) by
      rw [List.map_map]; rfl]
  exact vmap_listMin hmono _

theorem colMin_map {f : α →+* β} (hmono : Monotone f) (n : ℕ) (M : Mat α)
    (j : ℕ) : colMin n (mapMat f M) j = vmap f (colMin n M j) := by
  unfold colMin
  rw [show ((List.range n).map fun i => mapMat f M i j) =
    ((List.range n).map fun i => M i j).map (vmap f) by
      rw [List.map_map]; rfl]
  exact vmap_listMin hmono _

theorem rowReduce_map {f : α →+* β} (hmono : Monotone f) (n : ℕ)
    (M : Mat α) : rowReduce n (mapMat f M) = mapMat f (rowReduce n M) := by
  funext i j
  show rowReduce n (mapMat f M) i j = vmap f (rowReduce n M i j)
  unfold rowReduce
  rw [rowMin_map hmono]
  cases hmin : rowMin n M i with
  | inf => rfl
  | fin m =>
    simp only [vmap]
    rw [show mapMat f M i j = vmap f (M i j) from rfl, vmap_isFin]
    by_cases hf : (M i j).isFin
    · rw [if_pos hf, if_pos hf, ← vmap_subF]
      rfl
    · rw [if_neg hf, if_neg hf]
      rfl

theorem colReduce_map {f : α →+* β} (hmono : Monotone f) (n : ℕ)
    (M : Mat α) : colReduce n (mapMat f M) = mapMat f (colReduce n M) := by
  funext i j
  show colReduce n (mapMat f M) i j = vmap f (colReduce n M i j)
  unfold colReduce
  rw [colMin_map hmono]
  cases hmin : colMin n M j with
  | inf => rfl
  | fin m =>
    simp only [vmap]
    rw [show mapMat f M i j = vmap f (M i j) from rfl, vmap_isFin]
    by_cases hf : (M i j).isFin
    · rw [if_pos hf, if_pos hf, ← vmap_subF]
      rfl
    · rw [if_neg hf, if_neg hf]
      rfl

end Hungarian

namespace Hungarian

variable {α β : Type} [LinearOrderedCommRing α] [LinearOrderedCommRing β]

theorem getD_map {γ δ : Type} (g : γ → δ) :
    ∀ (l : List γ) (n : ℕ) (d : γ),
      (l.map g).getD n (g d) = g (l.getD n d) := by
  intro l
  induction l with
  | nil => intro n d; rfl
  | cons x t ih =>
    intro n d
    cases n with
    | zero => rfl
    | succ k => exact ih k d

/-- The image of a matrix under an entrywise ring homomorphism. -/
def cmap (f : α →+* β) (cm : List (List α)) : List (List β) :=
  cm.map (List.map f)

theorem rowsOf_cmap (f : α →+* β) (cm : List (List α)) :
    rowsOf (cmap f cm) = rowsOf cm := by
  simp [rowsOf, cmap]

theorem colsOf_cmap (f : α →+* β) (cm : List (List α)) :
    colsOf (cmap f cm) = colsOf cm := by
  cases cm with
  | nil => rfl
  | cons r t => simp [colsOf, cmap]

theorem padSize_cmap (f : α →+* β) (cm : List (List α)) :
    padSize (cmap f cm) = padSize cm := by
  unfold padSize
  rw [rowsOf_cmap, colsOf_cmap]

theorem entry_cmap (f : α →+* β) (cm : List (List α)) (i j : ℕ) :
    entry (cmap f cm) i j = f (entry cm i j) := by
  unfold entry cmap
  have h1 : (cm.map (List.map f)).getD i (List.map f []) =
      List.map f (cm.getD i []) := getD_map (List.map f) cm i []
  rw [show ([] : List β) = List.map f [] from rfl, h1]
  have h2 : ((cm.getD i []).map f).getD j (f 0) =
      f ((cm.getD i []).getD j 0) := getD_map f _ j 0
  rw [show (0 : β) = f 0 from (map_zero f).symm, h2]

theorem padded_cmap (f : α →+* β) (cm : List (List α)) :
    padded (cmap f cm) = mapMat f (padded cm) := by
  funext i j
  show padded (cmap f cm) i j = vmap f (padded cm i j)
  unfold padded
  rw [rowsOf_cmap, colsOf_cmap]
  by_cases h : i < rowsOf cm ∧ j < colsOf cm
  · rw [if_pos h, if_pos h, entry_cmap]
    rfl
  · rw [if_neg h, if_neg h]
    rfl

theorem reducedMat_cmap {f : α →+* β} (hmono : Monotone f)
    (cm : List (List α)) :
    reducedMat (cmap f cm) = mapMat f (reducedMat cm) := by
  unfold reducedMat
  rw [padSize_cmap, padded_cmap, rowReduce_map hmono, colReduce_map hmono]

theorem initStar_map {f : α →+* β} (hinj : Function.Injective f) (n : ℕ)
    (M : Mat α) : initStar n (mapMat f M) = initStar n M := by
  unfold initStar
  congr 1
  funext st i
  congr 1
  funext st' j
  rcases st' with ⟨mk, rc, cc⟩
  dsimp only
  exact if_congr (and_congr (vmap_eq_fin_zero hinj) Iff.rfl) rfl rfl

theorem findUncoveredZero_map {f : α →+* β} (hinj : Function.Injective f)
    (n : ℕ) (M : Mat α) (rc cc : ℕ → Bool) :
    findUncoveredZero n (mapMat f M) rc cc =
      findUncoveredZero n M rc cc := by
  unfold findUncoveredZero
  congr 1
  funext i
  by_cases hri : rc i
  · rw [if_pos hri, if_pos hri]
  · rw [if_neg hri, if_neg hri]
    congr 2
    funext j
    congr 1
    exact decide_eq_decide.mpr (vmap_eq_fin_zero hinj)

theorem findMinUncovered_map {f : α →+* β} (hmono : Monotone f) (n : ℕ)
    (M : Mat α) (rc cc : ℕ → Bool) :
    findMinUncovered n (mapMat f M) rc cc =
      vmap f (findMinUncovered n M rc cc) := by
  unfold findMinUncovered
  rw [show (Val.inf : Val β) = vmap f Val.inf from rfl]
  apply foldl_vmap_comm
  intro a i _
  by_cases hri : rc i
  · rw [if_pos hri, if_pos hri]
  · rw [if_neg hri, if_neg hri]
    apply foldl_vmap_comm
    intro a' j _
    by_cases hcj : cc j
    · rw [if_pos hcj, if_pos hcj]
    · rw [if_neg hcj, if_neg hcj]
      exact (vmap_vmin hmono a' (M i j)).symm

end Hungarian

namespace Hungarian

variable {α β : Type} [LinearOrderedCommRing α] [LinearOrderedCommRing β]

theorem step1_map (f : α →+* β) (n : ℕ) (s : HState α) :
    step1 n (mapState f s) = mapState f (step1 n s) := rfl

theorem step2_map {f : α →+* β} (hinj : Function.Injective f) (n : ℕ)
    (s : HState α) : step2 n (mapState f s) = mapState f (step2 n s) := by
  unfold step2
  rw [show (mapState f s).mat = mapMat f s.mat from rfl,
    show (mapState f s).rowCover = s.rowCover from rfl,
    show (mapState f s).colCover = s.colCover from rfl,
    findUncoveredZero_map hinj]
  cases hfz : findUncoveredZero n s.mat s.rowCover s.colCover with
  | none => rfl
  | some p =>
    rcases p with ⟨i, j⟩
    dsimp only
    rw [show (mapState f s).masks = s.masks from rfl]
    cases findStarInRow n (upd2 s.masks i j 2) i <;> rfl

theorem step3_map (f : α →+* β) (n : ℕ) (s : HState α) :
    step3 n (mapState f s) = mapState f (step3 n s) := by
  unfold step3
  rw [show (mapState f s).pathStart = s.pathStart from rfl]
  cases s.pathStart <;> rfl

theorem step6_map {f : α →+* β} (hmono : Monotone f) (n : ℕ)
    (s : HState α) : step6 n (mapState f s) = mapState f (step6 n s) := by
  unfold step6
  rw [show (mapState f s).mat = mapMat f s.mat from rfl,
    show (mapState f s).rowCover = s.rowCover from rfl,
    show (mapState f s).colCover = s.colCover from rfl,
    findMinUncovered_map hmono]
  cases hmin : findMinUncovered n s.mat s.rowCover s.colCover with
  | inf => rfl
  | fin mv =>
    dsimp only [vmap]
    unfold mapState
    congr 1
    funext i j
    dsimp only [mapMat]
    by_cases hri : s.rowCover i <;> by_cases hcj : s.colCover j <;>
      simp [hri, hcj, vmap_addF, vmap_subF]

theorem stepFn_map {f : α →+* β} (hmono : Monotone f)
    (hinj : Function.Injective f) (n : ℕ) (s : HState α) :
    stepFn n (mapState f s) = mapState f (stepFn n s) := by
  unfold stepFn
  rw [show (mapState f s).step = s.step from rfl]
  by_cases h1 : s.step = 1
  · rw [if_pos h1, if_pos h1, step1_map]
  rw [if_neg h1, if_neg h1]
  by_cases h2 : s.step = 2
  · rw [if_pos h2, if_pos h2, step2_map hinj]
  rw [if_neg h2, if_neg h2]
  by_cases h3 : s.step = 3
  · rw [if_pos h3, if_pos h3, step3_map]
  rw [if_neg h3, if_neg h3]
  by_cases h6 : s.step = 6
  · rw [if_pos h6, if_pos h6, step6_map hmono]
  rw [if_neg h6, if_neg h6]

theorem run_map {f : α →+* β} (hmono : Monotone f)
    (hinj : Function.Injective f) (n : ℕ) :
    ∀ (fuel : ℕ) (s : HState α),
      run n fuel (mapState f s) = mapState f (run n fuel s) := by
  intro fuel
  induction fuel with
  | zero => intro s; rfl
  | succ k ih =>
    intro s
    rw [run_succ, run_succ, show (mapState f s).step = s.step from rfl]
    by_cases h0 : s.step = 0
    · rw [if_pos h0, if_pos h0]
    · rw [if_neg h0, if_neg h0, stepFn_map hmono hinj, ih]

theorem initState_cmap {f : α →+* β} (hmono : Monotone f)
    (hinj : Function.Injective f) (cm : List (List α)) :
    initState (cmap f cm) = mapState f (initState cm) := by
  unfold initState
  rw [padSize_cmap, reducedMat_cmap hmono, initStar_map hinj]
  rfl

theorem finalState_cmap {f : α →+* β} (hmono : Monotone f)
    (hinj : Function.Injective f) (cm : List (List α)) :
    finalState (cmap f cm) = mapState f (finalState cm) := by
  unfold finalState
  rw [padSize_cmap, initState_cmap hmono hinj, run_map hmono hinj]

/-- `hungarian` commutes with an injective monotone ring homomorphism
applied entrywise: same assignments, image total. -/
theorem hungarian_cmap {f : α →+* β} (hmono : Monotone f)
    (hinj : Function.Injective f) (cm : List (List α)) :
    hungarian (cmap f cm) =
      ((hungarian cm).1, f (hungarian cm).2) := by
  unfold hungarian
  rw [finalState_cmap hmono hinj]
  have hasg : assignmentsOf (cmap f cm)
      (mapState f (finalState cm)).masks =
      assignmentsOf cm (finalState cm).masks := by
    unfold assignmentsOf
    rw [rowsOf_cmap, colsOf_cmap]
    rfl
  dsimp only
  rw [hasg]
  congr 1
  rw [map_list_sum]
  congr 1
  rw [List.map_map]
  apply List.map_congr_left
  intro q _
  simp only [Function.comp_apply]
  rw [entry_cmap]

end Hungarian

namespace GraphUtils

theorem euclid_00_00 : euclideanDistance 0 0 0 0 = (0 : ℝ) := by
  unfold euclideanDistance
  rw [show ((0:ℝ) - 0) * ((0:ℝ) - 0) + ((0:ℝ) - 0) * ((0:ℝ) - 0) = 0 by
    norm_num]
  exact Real.sqrt_zero

theorem euclid_00_10 : euclideanDistance 0 0 1 0 = (1 : ℝ) := by
  unfold euclideanDistance
  rw [show ((1:ℝ) - 0) * ((1:ℝ) - 0) + ((0:ℝ) - 0) * ((0:ℝ) - 0) = 1 by
    norm_num]
  exact Real.sqrt_one

theorem euclid_30_00 : euclideanDistance 3 0 0 0 = (3 : ℝ) := by
  unfold euclideanDistance
  rw [show ((0:ℝ) - 3) * ((0:ℝ) - 3) + ((0:ℝ) - 0) * ((0:ℝ) - 0) = 3 ^ 2 by
    norm_num]
  exact Real.sqrt_sq (by norm_num)

theorem euclid_30_10 : euclideanDistance 3 0 1 0 = (2 : ℝ) := by
  unfold euclideanDistance
  rw [show ((1:ℝ) - 3) * ((1:ℝ) - 3) + ((0:ℝ) - 0) * ((0:ℝ) - 0) = 2 ^ 2 by
    norm_num]
  exact Real.sqrt_sq (by norm_num)

/-- The concrete cost matrix of the C7 counterexample is the image of an
integer matrix. -/
theorem buildCM_counterexample :
    (buildCostMatrix
        [⟨"D1", 0, 0⟩, ⟨"D2", 0, 0⟩, ⟨"D3", 3, 0⟩]
        [⟨"P1", 0, 0⟩, ⟨"P2", 1, 0⟩] Metric.euclidean 2).1 =
      Hungarian.cmap (Int.castRingHom ℝ)
        ([[0, 2], [0, 2], [6, 4]] : List (List ℤ)) := by
  unfold buildCostMatrix distanceFunc Hungarian.cmap
  simp only [List.map_cons, List.map_nil]
  norm_num [euclid_00_00, euclid_00_10, euclid_30_00, euclid_30_10]

theorem naive_counterexample :
    sumNaiveAssignments
        [⟨"D1", 0, 0⟩, ⟨"D2", 0, 0⟩, ⟨"D3", 3, 0⟩]
        [⟨"P1", 0, 0⟩, ⟨"P2", 1, 0⟩] Metric.euclidean = (2 : ℝ) := by
  unfold sumNaiveAssignments distanceFunc
  simp only [List.zip_cons_cons, List.map_cons, List.map_nil, List.zip_nil_left]
  norm_num [euclid_00_00, euclid_00_10]

end GraphUtils

/-- **C7 counterexample.** With three drivers at latitudes `0, 0, 3` and
two passengers at latitudes `0, 1` (all longitudes `0`, euclidean metric),
the naive diagonal pairing costs `2` while `hungarian` on the built cost
matrix returns total cost `4`: the claimed inequality
`naive ≥ hungarian` fails. -/
theorem claim_C7_counterexample :
    GraphUtils.sumNaiveAssignments
        [⟨"D1", 0, 0⟩, ⟨"D2", 0, 0⟩, ⟨"D3", 3, 0⟩]
        [⟨"P1", 0, 0⟩, ⟨"P2", 1, 0⟩] GraphUtils.Metric.euclidean <
      (Hungarian.hungarian (GraphUtils.buildCostMatrix
          [⟨"D1", 0, 0⟩, ⟨"D2", 0, 0⟩, ⟨"D3", 3, 0⟩]
          [⟨"P1", 0, 0⟩, ⟨"P2", 1, 0⟩]
          GraphUtils.Metric.euclidean 2).1).2 := by
  rw [GraphUtils.naive_counterexample, GraphUtils.buildCM_counterexample,
    Hungarian.hungarian_cmap Int.cast_mono Int.cast_injective]
  have hint : (Hungarian.hungarian
      ([[0, 2], [0, 2], [6, 4]] : List (List ℤ))).2 = 4 := by decide
  rw [hint]
  norm_num

namespace GraphUtils

theorem atan2_nonneg {y x : ℝ} (hy : 0 ≤ y) (hx : 0 ≤ x) :
    0 ≤ atan2 y x := by
  unfold atan2
  by_cases h1 : 0 < x
  · rw [if_pos h1]
    have h0 : Real.arctan 0 ≤ Real.arctan (y / x) :=
      Real.arctan_strictMono.monotone (div_nonneg hy (le_of_lt h1))
    rw [Real.arctan_zero] at h0
    exact h0
  · rw [if_neg h1, if_neg (not_lt.mpr hx)]
    by_cases h3 : 0 < y
    · rw [if_pos h3]
      linarith [Real.pi_pos]
    · rw [if_neg h3, if_neg (not_lt.mpr hy)]

theorem distanceFunc_nonneg (method : Metric) (a b c d : ℝ) :
    0 ≤ distanceFunc method a b c d := by
  cases method with
  | euclidean => exact Real.sqrt_nonneg _
  | haversine =>
    unfold distanceFunc haversineDistance
    dsimp only
    apply mul_nonneg (by norm_num)
    apply mul_nonneg (by norm_num)
    exact atan2_nonneg (Real.sqrt_nonneg _) (Real.sqrt_nonneg _)

/-- Index-shift of the built cost matrix: dropping the first driver and
first passenger shifts both indices down by one. -/
theorem row_shift (p : Node) (ps : List Node) (g : Node → Node → ℝ) :
    ∀ (ds : List Node) (i j : ℕ),
      ((ds.map fun d' => (p :: ps).map (g d')).getD i []).getD (j + 1) 0 =
        ((ds.map fun d' => ps.map (g d')).getD i []).getD j 0 := by
  intro ds
  induction ds with
  | nil =>
    intro i j
    cases i <;> rfl
  | cons d' ds' ih =>
    intro i j
    cases i with
    | zero => rfl
    | succ i' => exact ih i' j

/-- The diagonal matching on the built cost matrix costs exactly the
naive baseline total. -/
theorem diag_cost (method : Metric) :
    ∀ (ds ps : List Node), ds.length = ps.length →
      Hungarian.matchingCost (buildCostMatrix ds ps method 2).1
          ((List.range ds.length).map fun i => ((i, i) : ℕ × ℕ)) =
        sumNaiveAssignments ds ps method := by
  intro ds
  induction ds with
  | nil =>
    intro ps _
    simp [Hungarian.matchingCost, sumNaiveAssignments]
  | cons d ds' ih =>
    intro ps hlen
    cases ps with
    | nil => cases hlen
    | cons p ps' =>
      have hlen' : ds'.length = ps'.length := by
        simpa using hlen
      unfold Hungarian.matchingCost sumNaiveAssignments
      simp only [List.length_cons, List.range_succ_eq_map, List.map_cons,
        List.map_map, List.sum_cons, List.zip_cons_cons]
      congr 1
      have hpoint : ∀ i,
          Hungarian.entry (buildCostMatrix (d :: ds') (p :: ps')
              method 2).1 (i + 1) (i + 1) =
            Hungarian.entry (buildCostMatrix ds' ps' method 2).1 i i := by
        intro i
        unfold Hungarian.entry buildCostMatrix
        simp only [List.map_cons]
        rw [List.getD_cons_succ]
        exact row_shift p ps'
          (fun d' p' => distanceFunc method d'.lat d'.lng p'.lat p'.lng * 2)
          ds' i i
      have := ih ps' hlen'
      unfold Hungarian.matchingCost sumNaiveAssignments at this
      rw [List.map_map] at this
      rw [← this]
      apply congrArg List.sum
      apply List.map_congr_left
      intro i _
      simp only [Function.comp_apply]
      exact hpoint i

end GraphUtils

/-- **C7 (amended).** The claim fails for unequal list lengths (see the
counterexample); when the driver and passenger lists have equal length the
naive diagonal baseline is a perfect matching of the square cost matrix,
so its total is at least the `hungarian` total. -/
theorem claim_C7 (drivers passengers : List GraphUtils.Node)
    (method : GraphUtils.Metric)
    (hlen : drivers.length = passengers.length) :
    (Hungarian.hungarian
        (GraphUtils.buildCostMatrix drivers passengers method 2).1).2 ≤
      GraphUtils.sumNaiveAssignments drivers passengers method := by
  cases drivers with
  | nil =>
    have h0 : (Hungarian.hungarian
        (GraphUtils.buildCostMatrix [] passengers method 2).1) = ([], 0) :=
      Hungarian.hungarian_of_colsZero rfl
    rw [h0]
    simp [GraphUtils.sumNaiveAssignments]
  | cons d ds =>
    cases passengers with
    | nil => cases hlen
    | cons p ps =>
      have hcols : Hungarian.colsOf
          (GraphUtils.buildCostMatrix (d :: ds) (p :: ps) method 2).1 =
          (p :: ps).length := by
        unfold GraphUtils.buildCostMatrix Hungarian.colsOf
        simp
      have hrows : Hungarian.rowsOf
          (GraphUtils.buildCostMatrix (d :: ds) (p :: ps) method 2).1 =
          (d :: ds).length := by
        unfold GraphUtils.buildCostMatrix Hungarian.rowsOf
        simp
      have hrect : Hungarian.Rectangular
          (GraphUtils.buildCostMatrix (d :: ds) (p :: ps) method 2).1 := by
        intro r hr
        rw [hcols]
        unfold GraphUtils.buildCostMatrix at hr
        simp only at hr
        obtain ⟨d', _, hd'⟩ := List.mem_map.mp hr
        rw [← hd']
        simp
      have hnn : Hungarian.NonnegMatrix
          (GraphUtils.buildCostMatrix (d :: ds) (p :: ps) method 2).1 := by
        intro r hr x hx
        unfold GraphUtils.buildCostMatrix at hr
        simp only at hr
        obtain ⟨d', _, hd'⟩ := List.mem_map.mp hr
        rw [← hd'] at hx
        obtain ⟨p', _, hp'⟩ := List.mem_map.mp hx
        rw [← hp']
        exact mul_nonneg (GraphUtils.distanceFunc_nonneg method _ _ _ _)
          (by norm_num)
      have hsq : Hungarian.rowsOf
          (GraphUtils.buildCostMatrix (d :: ds) (p :: ps) method 2).1 =
          Hungarian.colsOf
            (GraphUtils.buildCostMatrix (d :: ds) (p :: ps) method 2).1 := by
        rw [hrows, hcols, hlen]
      have hpr : Hungarian.IsMatching
          (Hungarian.rowsOf
            (GraphUtils.buildCostMatrix (d :: ds) (p :: ps) method 2).1)
          (Hungarian.colsOf
            (GraphUtils.buildCostMatrix (d :: ds) (p :: ps) method 2).1)
          ((List.range (d :: ds).length).map fun i => ((i, i) : ℕ × ℕ)) := by
        refine ⟨?_, ?_, ?_⟩
        · intro q hq
          obtain ⟨i, hi, hiq⟩ := List.mem_map.mp hq
          rw [← hiq, hrows, hcols, ← hlen]
          exact ⟨List.mem_range.mp hi, List.mem_range.mp hi⟩
        · rw [List.map_map]
          simp only [Function.comp_def]
          rw [show ((List.range (d :: ds).length).map fun i => i) =
            List.range (d :: ds).length from List.map_id' _]
          exact List.nodup_range _
        · rw [List.map_map]
          simp only [Function.comp_def]
          rw [show ((List.range (d :: ds).length).map fun i => i) =
            List.range (d :: ds).length from List.map_id' _]
          exact List.nodup_range _
      have hdlen : ((List.range (d :: ds).length).map
          fun i => ((i, i) : ℕ × ℕ)).length =
          Hungarian.rowsOf
            (GraphUtils.buildCostMatrix (d :: ds) (p :: ps) method 2).1 := by
        rw [hrows]
        simp
      have hopt := Hungarian.square_optimal hrect hnn hsq hpr hdlen
      have hdiag := GraphUtils.diag_cost method (d :: ds) (p :: ps) hlen
      rw [hdiag] at hopt
      exact hopt

/-- Witness for C7 (amended) at one driver and one passenger. -/
theorem claim_C7_witness :
    (Hungarian.hungarian (GraphUtils.buildCostMatrix
        [⟨"D1", 0, 0⟩] [⟨"P1", 1, 0⟩]
        GraphUtils.Metric.euclidean 2).1).2 ≤
      GraphUtils.sumNaiveAssignments [⟨"D1", 0, 0⟩] [⟨"P1", 1, 0⟩]
        GraphUtils.Metric.euclidean :=
  claim_C7 [⟨"D1", 0, 0⟩] [⟨"P1", 1, 0⟩] GraphUtils.Metric.euclidean
    (by decide)

namespace Dijkstra

variable {α : Type} [LinearOrderedCommRing α]

open Kruskal

theorem mem_of_lookup {β : Type} {l : List (String × β)} {k : String}
    {v : β} (h : List.lookup k l = some v) : (k, v) ∈ l := by
  induction l with
  | nil => cases h
  | cons p t ih =>
    rw [List.lookup] at h
    by_cases hk : k = p.1
    · rw [show (k == p.1) = true from beq_iff_eq.mpr hk] at h
      simp only [if_pos] at h
      have hpv : p = (k, v) := Prod.ext hk.symm (Option.some_inj.mp h)
      rw [hpv]
      exact List.mem_cons_self _ _
    · rw [show (k == p.1) = false from beq_false_of_ne hk] at h
      simp only [Bool.false_eq_true, if_false] at h
      exact List.mem_cons_of_mem _ (ih h)

theorem lookup_aset_self {β : Type} (l : List (String × β)) (k : String)
    (v : β) : List.lookup k (aset l k v) = some v := by
  unfold aset
  by_cases h : (List.lookup k l).isSome
  · rw [if_pos h]
    induction l with
    | nil => simp [List.lookup] at h
    | cons p t ih =>
      rcases p with ⟨a, b⟩
      by_cases hk : a = k
      · subst hk
        have he : (if ((a, b) : String × β).1 = a then (a, v) else (a, b)) =
            (a, v) := if_pos rfl
        rw [List.map_cons, he]
        simp [List.lookup]
      · have hbt : (k == a) = false := beq_false_of_ne fun hc => hk hc.symm
        have he : (if ((a, b) : String × β).1 = k then (k, v) else (a, b)) =
            (a, b) := if_neg hk
        rw [List.map_cons, he]
        simp only [List.lookup, hbt]
        apply ih
        rw [List.lookup, hbt] at h
        simpa using h
  · rw [if_neg h]
    induction l with
    | nil => simp [List.lookup]
    | cons p t ih =>
      rcases p with ⟨a, b⟩
      have hk : ¬k = a := by
        intro hc
        subst hc
        simp [List.lookup] at h
      have hbt : (k == a) = false := beq_false_of_ne hk
      rw [List.cons_append]
      simp only [List.lookup, hbt]
      apply ih
      intro hc
      apply h
      simp only [List.lookup, hbt]
      exact hc

theorem lookup_aset_ne {β : Type} (l : List (String × β)) {k k' : String}
    (v : β) (hne : k' ≠ k) :
    List.lookup k' (aset l k v) = List.lookup k' l := by
  unfold aset
  by_cases h : (List.lookup k l).isSome
  · rw [if_pos h]
    clear h
    induction l with
    | nil => rfl
    | cons p t ih =>
      rcases p with ⟨a, b⟩
      by_cases hk : a = k
      · subst hk
        have hbt : (k' == a) = false := beq_false_of_ne hne
        have he : (if ((a, b) : String × β).1 = a then (a, v) else (a, b)) =
            (a, v) := if_pos rfl
        rw [List.map_cons, he]
        simp only [List.lookup, hbt]
        exact ih
      · have he : (if ((a, b) : String × β).1 = k then (k, v) else (a, b)) =
            (a, b) := if_neg hk
        rw [List.map_cons, he]
        by_cases hk' : k' = a
        · subst hk'
          simp [List.lookup]
        · have hbt : (k' == a) = false := beq_false_of_ne hk'
          simp only [List.lookup, hbt]
          exact ih
  · rw [if_neg h]
    induction l with
    | nil => simp [List.lookup, beq_false_of_ne hne]
    | cons p t ih =>
      rcases p with ⟨a, b⟩
      rw [List.cons_append]
      by_cases hk' : k' = a
      · subst hk'
        simp [List.lookup]
      · have hbt : (k' == a) = false := beq_false_of_ne hk'
        simp only [List.lookup, hbt]
        apply ih
        intro hc
        apply h
        by_cases hka : k = a
        · subst hka
          simp [List.lookup]
        · simp only [List.lookup, beq_false_of_ne hka]
          exact hc

/-- An edge of the adjacency-list graph. -/
def EdgeOf (g : Graph α) (u v : String) (w : α) : Prop :=
  ∃ adj, List.lookup u g = some adj ∧ (v, w) ∈ adj

/-- Walks from the source along adjacency edges, with their total weight. -/
inductive Reaches (g : Graph α) (a0 : String) : String → α → Prop where
  | refl : Reaches g a0 a0 0
  | tail {u v : String} {d w : α} : Reaches g a0 u d → EdgeOf g u v w →
      Reaches g a0 v (d + w)

/-- The full loop invariant of the embedded `dijkstra`. -/
structure DInv (g : Graph α) (a0 : String) (s : DState α) : Prop where
  keysD : s.distances.map Prod.fst = g.map Prod.fst
  keysP : s.predecessors.map Prod.fst = g.map Prod.fst
  sound : ∀ v d, List.lookup v s.distances = some (Val.fin d) →
      Reaches g a0 v d
  start0 : List.lookup a0 s.distances = some (Val.fin 0)
  visitedFin : ∀ v, s.visited v = true →
      ∃ d, List.lookup v s.distances = some (Val.fin d)
  settled : ∀ v, s.visited v = true → ∀ d dp,
      List.lookup v s.distances = some (Val.fin d) →
      Reaches g a0 v dp → d ≤ dp
  relaxed : ∀ u, s.visited u = true → ∀ adj, List.lookup u g = some adj →
      ∀ e ∈ adj, ∀ du, List.lookup u s.distances = some (Val.fin du) →
      ∃ dv, List.lookup e.1 s.distances = some (Val.fin dv) ∧ dv ≤ du + e.2
  inQueue : ∀ v d, List.lookup v s.distances = some (Val.fin d) →
      s.visited v = true ∨ (v, d) ∈ s.queue
  qSound : ∀ e ∈ s.queue, ∃ d', List.lookup e.1 s.distances =
      some (Val.fin d') ∧ d' ≤ e.2
  predNone : ∀ v, List.lookup v s.distances = some Val.inf →
      List.lookup v s.predecessors = some none
  predValid : ∀ v, v ∈ g.map Prod.fst → v ≠ a0 → ∀ d,
      List.lookup v s.distances = some (Val.fin d) →
      ∃ p w dp, List.lookup v s.predecessors = some (some p) ∧
        EdgeOf g p v w ∧ List.lookup p s.distances = some (Val.fin dp) ∧
        dp + w = d ∧ s.visited p = true

end Dijkstra

namespace Dijkstra

variable {α : Type} [LinearOrderedCommRing α]

open Kruskal

theorem lookup_map_const {β γ : Type} (l : List (String × β)) (c : γ)
    (k : String) :
    List.lookup k (l.map fun kv => (kv.1, c)) =
      (List.lookup k l).map fun _ => c := by
  induction l with
  | nil => rfl
  | cons p t ih =>
    rcases p with ⟨a, b⟩
    by_cases hk : k = a
    · subst hk
      simp [List.lookup]
    · have hbt : (k == a) = false := beq_false_of_ne hk
      simp only [List.map_cons, List.lookup, hbt]
      exact ih

/-- The initial state satisfies the invariant when the source is a key. -/
theorem dinit_dinv {g : Graph α} {a0 : String}
    (hstart : a0 ∈ g.map Prod.fst) : DInv g a0 (dinit g a0) := by
  have hsome : (List.lookup a0
      (g.map fun kv => (kv.1, (Val.inf : Val α)))).isSome = true := by
    rw [lookup_map_const]
    cases hg : List.lookup a0 g with
    | none => exact absurd hstart ((lookup_eq_none_iff g a0).mp hg)
    | some adj => simp
  have hne_val : ∀ v d, v ≠ a0 →
      List.lookup v (dinit g a0).distances = some (Val.fin d) → False := by
    intro v d hv hl
    unfold dinit at hl
    dsimp only at hl
    rw [lookup_aset_ne _ _ hv, lookup_map_const] at hl
    cases hg : List.lookup v g with
    | none => rw [hg] at hl; cases hl
    | some adj =>
      rw [hg] at hl
      simp only [Option.map_some'] at hl
      cases Option.some_inj.mp hl
  have hstart0 : List.lookup a0 (dinit g a0).distances =
      some (Val.fin 0) := by
    unfold dinit
    dsimp only
    exact lookup_aset_self _ _ _
  refine ⟨?_, ?_, ?_, hstart0, ?_, ?_, ?_, ?_, ?_, ?_, ?_⟩
  · unfold dinit
    dsimp only
    rw [map_fst_aset_mem _ hsome, List.map_map]
    rfl
  · unfold dinit
    dsimp only
    rw [List.map_map]
    rfl
  · intro v d hl
    by_cases hv : v = a0
    · subst hv
      rw [hstart0] at hl
      have : Val.fin d = Val.fin 0 := Option.some_inj.mp hl.symm
      rw [show d = 0 from Val.fin.inj this]
      exact Reaches.refl
    · exact absurd hl (fun h => hne_val v d hv h)
  · intro v hv
    cases hv
  · intro v hv
    cases hv
  · intro u hu
    cases hu
  · intro v d hl
    right
    by_cases hv : v = a0
    · subst hv
      rw [hstart0] at hl
      have : Val.fin d = Val.fin 0 := Option.some_inj.mp hl.symm
      rw [show d = 0 from Val.fin.inj this]
      exact List.mem_cons_self _ _
    · exact absurd hl (fun h => hne_val v d hv h)
  · intro e he
    unfold dinit at he
    dsimp only at he
    rcases List.mem_cons.mp he with rfl | h
    · exact ⟨0, hstart0, le_refl 0⟩
    · cases h
  · intro v hl
    have hv : v ∈ g.map Prod.fst := by
      have : (List.lookup v (dinit g a0).distances).isSome = true := by
        rw [hl]; rfl
      rw [lookup_isSome_iff] at this
      have hk : (dinit g a0).distances.map Prod.fst = g.map Prod.fst := by
        unfold dinit
        dsimp only
        rw [map_fst_aset_mem _ hsome, List.map_map]
        rfl
      rw [hk] at this
      exact this
    unfold dinit
    dsimp only
    rw [lookup_map_const]
    cases hg : List.lookup v g with
    | none => exact absurd hv ((lookup_eq_none_iff g v).mp hg)
    | some adj => rfl
  · intro v _ hv d hl
    exact absurd hl (fun h => hne_val v d hv h)

end Dijkstra

namespace Dijkstra

variable {α : Type} [LinearOrderedCommRing α]

open Kruskal

theorem vlt_fin_fin {a b : α} : Val.lt (Val.fin a) (Val.fin b) = true ↔ a < b := by
  simp [Val.lt]

theorem vlt_fin_inf (a : α) : Val.lt (Val.fin a) (Val.inf : Val α) = true := rfl

theorem edge_nonneg {g : Graph α}
    (hnonneg : ∀ kv ∈ g, ∀ e ∈ kv.2, 0 ≤ e.2) {u v : String} {w : α}
    (he : EdgeOf g u v w) : 0 ≤ w := by
  obtain ⟨adj, hadj, hmem⟩ := he
  exact hnonneg (u, adj) (mem_of_lookup hadj) (v, w) hmem

theorem edge_closed {g : Graph α}
    (hclosed : ∀ kv ∈ g, ∀ e ∈ kv.2, e.1 ∈ g.map Prod.fst) {u v : String}
    {w : α} (he : EdgeOf g u v w) : v ∈ g.map Prod.fst := by
  obtain ⟨adj, hadj, hmem⟩ := he
  exact hclosed (u, adj) (mem_of_lookup hadj) (v, w) hmem

theorem reaches_nonneg {g : Graph α} {a0 : String}
    (hnonneg : ∀ kv ∈ g, ∀ e ∈ kv.2, 0 ≤ e.2) {v : String} {d : α}
    (h : Reaches g a0 v d) : 0 ≤ d := by
  induction h with
  | refl => exact le_refl 0
  | tail hr he ih => exact add_nonneg ih (edge_nonneg hnonneg he)

/-- One step of the relaxation fold of `relaxAll`, named for the proofs. -/
def relaxStep (cur : String) (st : DState α) (nw : String × α) : DState α :=
  match List.lookup cur st.distances with
  | some (Val.fin dc) =>
    let nd := dc + nw.2
    match List.lookup nw.1 st.distances with
    | some dv =>
      if Val.lt (Val.fin nd) dv then
        { st with
          distances := aset st.distances nw.1 (Val.fin nd),
          predecessors := aset st.predecessors nw.1 (some cur),
          queue := st.queue ++ [(nw.1, nd)] }
      else st
    | none => st
  | _ => st

theorem relaxAll_eq_foldl (cur : String) (adj : List (String × α))
    (s : DState α) : relaxAll cur adj s = adj.foldl (relaxStep cur) s := rfl

theorem rs_update {cur : String} {st : DState α} {nw : String × α} {dc : α}
    {dv : Val α} (hdc : List.lookup cur st.distances = some (Val.fin dc))
    (hdv : List.lookup nw.1 st.distances = some dv)
    (hlt : Val.lt (Val.fin (dc + nw.2)) dv = true) :
    relaxStep cur st nw = { st with
      distances := aset st.distances nw.1 (Val.fin (dc + nw.2)),
      predecessors := aset st.predecessors nw.1 (some cur),
      queue := st.queue ++ [(nw.1, dc + nw.2)] } := by
  unfold relaxStep
  rw [hdc]
  dsimp only
  rw [hdv]
  dsimp only
  rw [if_pos hlt]

theorem rs_skip {cur : String} {st : DState α} {nw : String × α} {dc : α}
    {dv : Val α} (hdc : List.lookup cur st.distances = some (Val.fin dc))
    (hdv : List.lookup nw.1 st.distances = some dv)
    (hlt : Val.lt (Val.fin (dc + nw.2)) dv = false) :
    relaxStep cur st nw = st := by
  unfold relaxStep
  rw [hdc]
  dsimp only
  rw [hdv]
  dsimp only
  rw [if_neg (by rw [hlt]; exact Bool.false_ne_true)]

/-- The intermediate invariant while relaxing the edges of `cur`:
the `DInv` fields, with `relaxed` split into the untouched part and the
prefix of `cur`'s adjacency already processed. -/
structure RInv (g : Graph α) (a0 cur : String) (dc : α)
    (processed : List (String × α)) (st : DState α) : Prop where
  keysD : st.distances.map Prod.fst = g.map Prod.fst
  keysP : st.predecessors.map Prod.fst = g.map Prod.fst
  sound : ∀ v d, List.lookup v st.distances = some (Val.fin d) →
      Reaches g a0 v d
  start0 : List.lookup a0 st.distances = some (Val.fin 0)
  visitedFin : ∀ v, st.visited v = true →
      ∃ d, List.lookup v st.distances = some (Val.fin d)
  settled : ∀ v, st.visited v = true → ∀ d dp,
      List.lookup v st.distances = some (Val.fin d) →
      Reaches g a0 v dp → d ≤ dp
  relaxedOthers : ∀ u, st.visited u = true → u ≠ cur → ∀ adj,
      List.lookup u g = some adj → ∀ e ∈ adj, ∀ du,
      List.lookup u st.distances = some (Val.fin du) →
      ∃ dv, List.lookup e.1 st.distances = some (Val.fin dv) ∧ dv ≤ du + e.2
  relaxedCur : ∀ e ∈ processed, ∃ dv,
      List.lookup e.1 st.distances = some (Val.fin dv) ∧ dv ≤ dc + e.2
  distCur : List.lookup cur st.distances = some (Val.fin dc)
  visCur : st.visited cur = true
  inQueue : ∀ v d, List.lookup v st.distances = some (Val.fin d) →
      st.visited v = true ∨ (v, d) ∈ st.queue
  qSound : ∀ e ∈ st.queue, ∃ d', List.lookup e.1 st.distances =
      some (Val.fin d') ∧ d' ≤ e.2
  predNone : ∀ v, List.lookup v st.distances = some Val.inf →
      List.lookup v st.predecessors = some none
  predValid : ∀ v, v ∈ g.map Prod.fst → v ≠ a0 → ∀ d,
      List.lookup v st.distances = some (Val.fin d) →
      ∃ p w dp, List.lookup v st.predecessors = some (some p) ∧
        EdgeOf g p v w ∧ List.lookup p st.distances = some (Val.fin dp) ∧
        dp + w = d ∧ st.visited p = true

end Dijkstra

namespace Dijkstra

variable {α : Type} [LinearOrderedCommRing α]

open Kruskal

theorem rinv_step {g : Graph α} {a0 cur : String} {dc : α}
    {processed : List (String × α)} {st : DState α}
    (hclosed : ∀ kv ∈ g, ∀ e ∈ kv.2, e.1 ∈ g.map Prod.fst)
    (hnonneg : ∀ kv ∈ g, ∀ e ∈ kv.2, 0 ≤ e.2)
    {adj : List (String × α)} (hadj : List.lookup cur g = some adj)
    {e : String × α} (he : e ∈ adj)
    (h : RInv g a0 cur dc processed st) :
    RInv g a0 cur dc (processed ++ [e]) (relaxStep cur st e) := by
  have hdc := h.distCur
  have hedge : EdgeOf g cur e.1 e.2 :=
    ⟨adj, hadj, by rw [Prod.mk.eta]; exact he⟩
  have hkey : e.1 ∈ g.map Prod.fst := edge_closed hclosed hedge
  have hkeyD : e.1 ∈ st.distances.map Prod.fst := by
    rw [h.keysD]
    exact hkey
  have hkeyP : e.1 ∈ st.predecessors.map Prod.fst := by
    rw [h.keysP]
    exact hkey
  have hsomeD : (List.lookup e.1 st.distances).isSome = true :=
    (lookup_isSome_iff _ _).mpr hkeyD
  have hsomeP : (List.lookup e.1 st.predecessors).isSome = true :=
    (lookup_isSome_iff _ _).mpr hkeyP
  have hndr : Reaches g a0 e.1 (dc + e.2) :=
    Reaches.tail (h.sound cur dc hdc) hedge
  have hnd0 : 0 ≤ dc + e.2 := reaches_nonneg hnonneg hndr
  cases hdv : List.lookup e.1 st.distances with
  | none =>
    rw [hdv] at hsomeD
    cases hsomeD
  | some dv =>
    by_cases hlt : Val.lt (Val.fin (dc + e.2)) dv = true
    · -- the edge improves the neighbour's distance
      have hnvis : st.visited e.1 = false := by
        cases hv : st.visited e.1
        · rfl
        · exfalso
          cases dv with
          | inf =>
            obtain ⟨d0, hd0⟩ := h.visitedFin e.1 hv
            rw [hdv] at hd0
            cases Option.some_inj.mp hd0
          | fin dv' =>
            have hse := h.settled e.1 hv dv' (dc + e.2) hdv hndr
            have hltv : dc + e.2 < dv' := vlt_fin_fin.mp hlt
            linarith
      have he1cur : e.1 ≠ cur := by
        intro hc
        rw [hc, hdc] at hdv
        have : dv = Val.fin dc := (Option.some_inj.mp hdv).symm
        rw [this, vlt_fin_fin] at hlt
        have := edge_nonneg hnonneg hedge
        linarith
      have he1a0 : e.1 ≠ a0 := by
        intro hc
        rw [hc, h.start0] at hdv
        have : dv = Val.fin 0 := (Option.some_inj.mp hdv).symm
        rw [this, vlt_fin_fin] at hlt
        linarith
      rw [rs_update hdc hdv hlt]
      have hDs : List.lookup e.1 (aset st.distances e.1
          (Val.fin (dc + e.2))) = some (Val.fin (dc + e.2)) :=
        lookup_aset_self _ _ _
      have hDn : ∀ x, x ≠ e.1 → List.lookup x (aset st.distances e.1
          (Val.fin (dc + e.2))) = List.lookup x st.distances :=
        fun x hx => lookup_aset_ne _ _ hx
      have hPs : List.lookup e.1 (aset st.predecessors e.1 (some cur)) =
          some (some cur) := lookup_aset_self _ _ _
      have hPn : ∀ x, x ≠ e.1 → List.lookup x (aset st.predecessors e.1
          (some cur)) = List.lookup x st.predecessors :=
        fun x hx => lookup_aset_ne _ _ hx
      refine ⟨?_, ?_, ?_, ?_, ?_, ?_, ?_, ?_, ?_, ?_, ?_, ?_, ?_, ?_⟩
      · dsimp only
        rw [map_fst_aset_mem _ hsomeD]
        exact h.keysD
      · dsimp only
        rw [map_fst_aset_mem _ hsomeP]
        exact h.keysP
      · intro v d hl
        dsimp only at hl
        by_cases hv : v = e.1
        · subst hv
          rw [hDs] at hl
          rw [show d = dc + e.2 from Val.fin.inj (Option.some_inj.mp hl.symm)]
          exact hndr
        · rw [hDn v hv] at hl
          exact h.sound v d hl
      · dsimp only
        rw [hDn a0 (fun hc => he1a0 hc.symm)]
        exact h.start0
      · intro v hv
        dsimp only at hv ⊢
        have hvne : v ≠ e.1 := by
          intro hc
          rw [hc, hnvis] at hv
          cases hv
        obtain ⟨d, hd⟩ := h.visitedFin v hv
        exact ⟨d, by rw [hDn v hvne]; exact hd⟩
      · intro v hv d dp hl hr
        dsimp only at hv hl
        have hvne : v ≠ e.1 := by
          intro hc
          rw [hc, hnvis] at hv
          cases hv
        rw [hDn v hvne] at hl
        exact h.settled v hv d dp hl hr
      · intro u hu hucur adj' hadj' e' he' du hdu
        dsimp only at hu hdu ⊢
        have hune : u ≠ e.1 := by
          intro hc
          rw [hc, hnvis] at hu
          cases hu
        rw [hDn u hune] at hdu
        obtain ⟨dv₂, hdv₂, hle₂⟩ :=
          h.relaxedOthers u hu hucur adj' hadj' e' he' du hdu
        by_cases hee : e'.1 = e.1
        · rw [hee] at hdv₂
          rw [hdv] at hdv₂
          have : dv = Val.fin dv₂ := Option.some_inj.mp hdv₂
          rw [this, vlt_fin_fin] at hlt
          refine ⟨dc + e.2, by rw [hee]; exact hDs, ?_⟩
          linarith
        · exact ⟨dv₂, by rw [hDn e'.1 hee]; exact hdv₂, hle₂⟩
      · intro e' he'
        dsimp only
        rcases List.mem_append.mp he' with h1 | h2
        · obtain ⟨dv₂, hdv₂, hle₂⟩ := h.relaxedCur e' h1
          by_cases hee : e'.1 = e.1
          · rw [hee] at hdv₂
            rw [hdv] at hdv₂
            have : dv = Val.fin dv₂ := Option.some_inj.mp hdv₂
            rw [this, vlt_fin_fin] at hlt
            refine ⟨dc + e.2, by rw [hee]; exact hDs, ?_⟩
            linarith
          · exact ⟨dv₂, by rw [hDn e'.1 hee]; exact hdv₂, hle₂⟩
        · rw [List.mem_singleton.mp h2]
          exact ⟨dc + e.2, hDs, le_refl _⟩
      · dsimp only
        rw [hDn cur (fun hc => he1cur hc.symm)]
        exact hdc
      · exact h.visCur
      · intro v d hl
        dsimp only at hl ⊢
        by_cases hv : v = e.1
        · subst hv
          rw [hDs] at hl
          right
          rw [show d = dc + e.2 from Val.fin.inj (Option.some_inj.mp hl.symm)]
          exact List.mem_append_right _ (List.mem_singleton_self _)
        · rw [hDn v hv] at hl
          rcases h.inQueue v d hl with hvis | hmem
          · exact Or.inl hvis
          · exact Or.inr (List.mem_append_left _ hmem)
      · intro q hq
        dsimp only at hq ⊢
        rcases List.mem_append.mp hq with h1 | h2
        · obtain ⟨d', hd', hle'⟩ := h.qSound q h1
          by_cases hqe : q.1 = e.1
          · rw [hqe] at hd'
            rw [hdv] at hd'
            have : dv = Val.fin d' := Option.some_inj.mp hd'
            rw [this, vlt_fin_fin] at hlt
            refine ⟨dc + e.2, by rw [hqe]; exact hDs, ?_⟩
            linarith
          · exact ⟨d', by rw [hDn q.1 hqe]; exact hd', hle'⟩
        · rw [List.mem_singleton.mp h2]
          exact ⟨dc + e.2, hDs, le_refl _⟩
      · intro v hl
        dsimp only at hl ⊢
        have hvne : v ≠ e.1 := by
          intro hc
          rw [hc, hDs] at hl
          cases Option.some_inj.mp hl
        rw [hDn v hvne] at hl
        rw [hPn v hvne]
        exact h.predNone v hl
      · intro v hvk hva0 d hl
        dsimp only at hl ⊢
        by_cases hv : v = e.1
        · subst hv
          rw [hDs] at hl
          refine ⟨cur, e.2, dc, hPs, hedge, ?_, ?_, h.visCur⟩
          · rw [hDn cur (fun hc => he1cur hc.symm)]
            exact hdc
          · exact (Val.fin.inj (Option.some_inj.mp hl.symm)).symm
        · rw [hDn v hv] at hl
          obtain ⟨p, w, dp, hp1, hp2, hp3, hp4, hp5⟩ :=
            h.predValid v hvk hva0 d hl
          have hpne : p ≠ e.1 := by
            intro hc
            rw [hc, hnvis] at hp5
            cases hp5
          exact ⟨p, w, dp, by rw [hPn v hv]; exact hp1, hp2,
            by rw [hDn p hpne]; exact hp3, hp4, hp5⟩
    · -- no improvement: the state is unchanged
      have hlt' : Val.lt (Val.fin (dc + e.2)) dv = false := by
        cases hb : Val.lt (Val.fin (dc + e.2)) dv
        · rfl
        · exact absurd hb hlt
      rw [rs_skip hdc hdv hlt']
      cases dv with
      | inf =>
        rw [vlt_fin_inf] at hlt'
        cases hlt'
      | fin dv' =>
        have hle : dv' ≤ dc + e.2 := by
          by_contra hc
          push_neg at hc
          exact absurd (vlt_fin_fin.mpr hc)
            (by rw [hlt']; exact Bool.false_ne_true)
        exact { h with
          relaxedCur := by
            intro e' he'
            rcases List.mem_append.mp he' with h1 | h2
            · exact h.relaxedCur e' h1
            · rw [List.mem_singleton.mp h2]
              exact ⟨dv', hdv, hle⟩ }

end Dijkstra

namespace Dijkstra

variable {α : Type} [LinearOrderedCommRing α]

open Kruskal

theorem relaxAll_rinv {g : Graph α} {a0 cur : String} {dc : α}
    (hclosed : ∀ kv ∈ g, ∀ e ∈ kv.2, e.1 ∈ g.map Prod.fst)
    (hnonneg : ∀ kv ∈ g, ∀ e ∈ kv.2, 0 ≤ e.2)
    {adj : List (String × α)} (hadj : List.lookup cur g = some adj) :
    ∀ (remaining processed : List (String × α)) (st : DState α),
      adj = processed ++ remaining → RInv g a0 cur dc processed st →
      RInv g a0 cur dc adj (remaining.foldl (relaxStep cur) st) := by
  intro remaining
  induction remaining with
  | nil =>
    intro processed st hsplit h
    rw [List.foldl_nil, hsplit, List.append_nil]
    exact h
  | cons e rest ih =>
    intro processed st hsplit h
    rw [List.foldl_cons]
    have he : e ∈ adj := by
      rw [hsplit]
      exact List.mem_append_right _ (List.mem_cons_self _ _)
    refine ih (processed ++ [e]) (relaxStep cur st e) ?_
      (rinv_step hclosed hnonneg hadj he h)
    rw [hsplit, List.append_assoc]
    rfl

/-- Every walk either certifies its endpoint's recorded distance or
crosses the queue frontier at a cheaper entry. -/
theorem frontier {g : Graph α} {a0 : String} {s : DState α}
    (hnonneg : ∀ kv ∈ g, ∀ e ∈ kv.2, 0 ≤ e.2) (h : DInv g a0 s) :
    ∀ v W, Reaches g a0 v W →
      (∃ d, List.lookup v s.distances = some (Val.fin d) ∧ d ≤ W) ∨
      (∃ x dx, s.visited x = false ∧
        List.lookup x s.distances = some (Val.fin dx) ∧ dx ≤ W ∧
        (x, dx) ∈ s.queue) := by
  intro v W hr
  induction hr with
  | refl => exact Or.inl ⟨0, h.start0, le_refl 0⟩
  | tail hru hedge ih =>
    rename_i u v' d' w
    have hw : 0 ≤ w := edge_nonneg hnonneg hedge
    rcases ih with ⟨du, hdu, hduW⟩ | ⟨x, dx, hxv, hxd, hxW, hxq⟩
    · cases hvu : s.visited u with
      | true =>
        obtain ⟨adj, hadj, hmem⟩ := hedge
        obtain ⟨dv, hdv, hle⟩ :=
          h.relaxed u hvu adj hadj (v', w) hmem du hdu
        exact Or.inl ⟨dv, hdv, by linarith⟩
      | false =>
        rcases h.inQueue u du hdu with hvis | hq
        · rw [hvu] at hvis
          cases hvis
        · exact Or.inr ⟨u, du, hvu, hdu, by linarith, hq⟩
    · exact Or.inr ⟨x, dx, hxv, hxd, by linarith, hxq⟩

/-- One spin of the queue loop preserves the invariant. -/
theorem dstep_dinv {g : Graph α} {a0 : String} {s : DState α}
    (hclosed : ∀ kv ∈ g, ∀ e ∈ kv.2, e.1 ∈ g.map Prod.fst)
    (hnonneg : ∀ kv ∈ g, ∀ e ∈ kv.2, 0 ≤ e.2)
    (h : DInv g a0 s) : DInv g a0 (dstep g s) := by
  unfold dstep
  cases hq : s.queue.insertionSort (fun a b => a.2 ≤ b.2) with
  | nil => exact h
  | cons hd rest =>
    obtain ⟨c0, d0⟩ := hd
    dsimp only
    have hperm : s.queue.Perm ((c0, d0) :: rest) := by
      rw [← hq]
      exact (List.perm_insertionSort _ _).symm
    have hhdmem : (c0, d0) ∈ s.queue :=
      hperm.symm.subset (List.mem_cons_self _ _)
    have hrestmem : ∀ b ∈ rest, b ∈ s.queue :=
      fun b hb => hperm.symm.subset (List.mem_cons_of_mem _ hb)
    have hmin : ∀ b ∈ rest, d0 ≤ b.2 := by
      haveI : IsTotal (String × α) (fun a b => a.2 ≤ b.2) :=
        ⟨fun x y => le_total x.2 y.2⟩
      haveI : IsTrans (String × α) (fun a b => a.2 ≤ b.2) :=
        ⟨fun x y z => le_trans⟩
      have hs := List.sorted_insertionSort (fun a b => a.2 ≤ b.2) s.queue
      rw [hq] at hs
      exact fun b hb => (List.sorted_cons.mp hs).1 b hb
    obtain ⟨dcur, hdcur, hdle⟩ := h.qSound (c0, d0) hhdmem
    by_cases hv : s.visited c0 = true
    · rw [if_pos hv]
      refine ⟨h.keysD, h.keysP, h.sound, h.start0, h.visitedFin, h.settled,
        h.relaxed, ?_, ?_, h.predNone, h.predValid⟩
      · intro v d hl
        rcases h.inQueue v d hl with hvis | hmem
        · exact Or.inl hvis
        · have hx := hperm.subset hmem
          rcases List.mem_cons.mp hx with heq | hmem2
          · left
            rw [show v = c0 from congrArg Prod.fst heq]
            exact hv
          · exact Or.inr hmem2
      · intro e he
        exact h.qSound e (hrestmem e he)
    · rw [if_neg hv]
      have hv2 : s.visited c0 = false := by
        cases hb : s.visited c0
        · rfl
        · exact absurd hb hv
      have hopt : ∀ dp, Reaches g a0 c0 dp → dcur ≤ dp := by
        intro dp hr
        rcases frontier hnonneg h c0 dp hr with
          ⟨d, hd2, hdW⟩ | ⟨x, dx, hxv, hxd, hxW, hxq⟩
        · rw [hdcur] at hd2
          rw [show dcur = d from Val.fin.inj (Option.some_inj.mp hd2)]
          exact hdW
        · have hx := hperm.subset hxq
          rcases List.mem_cons.mp hx with heq | hmem2
          · have hx2 : dx = d0 := congrArg Prod.snd heq
            calc dcur ≤ d0 := hdle
              _ = dx := hx2.symm
              _ ≤ dp := hxW
          · calc dcur ≤ d0 := hdle
              _ ≤ dx := hmin (x, dx) hmem2
              _ ≤ dp := hxW
      cases hg : List.lookup c0 g with
      | none =>
        exfalso
        have hk : c0 ∈ g.map Prod.fst := by
          rw [← h.keysD, ← lookup_isSome_iff, hdcur]
          rfl
        exact absurd hk ((lookup_eq_none_iff g c0).mp hg)
      | some adj =>
        dsimp only
        rw [relaxAll_eq_foldl]
        have hvis_self : Hungarian.upd1 s.visited c0 true c0 = true := by
          simp [Hungarian.upd1]
        have hvis_ne : ∀ x, x ≠ c0 →
            Hungarian.upd1 s.visited c0 true x = s.visited x := by
          intro x hx
          simp [Hungarian.upd1, hx]
        have hvis_mono : ∀ x, s.visited x = true →
            Hungarian.upd1 s.visited c0 true x = true := by
          intro x hx
          by_cases hxe : x = c0
          · rw [hxe]
            exact hvis_self
          · rw [hvis_ne x hxe]
            exact hx
        have hrinv0 : RInv g a0 c0 dcur []
            ({ s with visited := Hungarian.upd1 s.visited c0 true, queue := rest } : DState α) := by
          refine ⟨h.keysD, h.keysP, h.sound, h.start0, ?_, ?_, ?_, ?_,
            hdcur, hvis_self, ?_, ?_, h.predNone, ?_⟩
          · intro v hvv
            dsimp only at hvv
            by_cases hve : v = c0
            · rw [hve]
              exact ⟨dcur, hdcur⟩
            · rw [hvis_ne v hve] at hvv
              exact h.visitedFin v hvv
          · intro v hvv d dp hl hr
            dsimp only at hvv hl
            by_cases hve : v = c0
            · subst hve
              rw [hdcur] at hl
              rw [show d = dcur from Val.fin.inj (Option.some_inj.mp hl.symm)]
              exact hopt dp hr
            · rw [hvis_ne v hve] at hvv
              exact h.settled v hvv d dp hl hr
          · intro u hu hucur adj2 hadj2 e2 he2 du hdu
            dsimp only at hu hdu ⊢
            rw [hvis_ne u hucur] at hu
            exact h.relaxed u hu adj2 hadj2 e2 he2 du hdu
          · intro e2 he2
            cases he2
          · intro v d hl
            dsimp only at hl ⊢
            rcases h.inQueue v d hl with hvis | hmem
            · exact Or.inl (hvis_mono v hvis)
            · have hx := hperm.subset hmem
              rcases List.mem_cons.mp hx with heq | hmem2
              · left
                rw [show v = c0 from congrArg Prod.fst heq]
                exact hvis_self
              · exact Or.inr hmem2
          · intro e2 he2
            dsimp only at he2 ⊢
            exact h.qSound e2 (hrestmem e2 he2)
          · intro v hvk hva0 d hl
            dsimp only at hl ⊢
            obtain ⟨p, w, dp, hp1, hp2, hp3, hp4, hp5⟩ :=
              h.predValid v hvk hva0 d hl
            exact ⟨p, w, dp, hp1, hp2, hp3, hp4, hvis_mono p hp5⟩
        have hR := relaxAll_rinv hclosed hnonneg hg adj []
          ({ s with visited := Hungarian.upd1 s.visited c0 true, queue := rest } : DState α) (by simp) hrinv0
        refine ⟨hR.keysD, hR.keysP, hR.sound, hR.start0, hR.visitedFin,
          hR.settled, ?_, hR.inQueue, hR.qSound, hR.predNone, hR.predValid⟩
        intro u hu adj2 hadj2 e2 he2 du hdu
        by_cases hue : u = c0
        · subst hue
          have hadjeq : adj2 = adj := Option.some_inj.mp (hadj2.symm.trans hg)
          subst hadjeq
          obtain ⟨dv, hdv, hle⟩ := hR.relaxedCur e2 he2
          have hdueq : du = dcur := by
            have hx := hR.distCur
            rw [hdu] at hx
            exact Val.fin.inj (Option.some_inj.mp hx)
          exact ⟨dv, hdv, by rw [hdueq]; exact hle⟩
        · exact hR.relaxedOthers u hu hue adj2 hadj2 e2 he2 du hdu

/-- Termination measure of the queue loop: pending queue entries plus the
adjacency lists of nodes not yet visited. -/
def dmeasure (g : Graph α) (s : DState α) : ℕ :=
  s.queue.length +
    (g.map fun kv => if s.visited kv.1 then 0 else kv.2.length).sum

theorem relaxStep_visited (cur : String) (st : DState α) (nw : String × α) :
    (relaxStep cur st nw).visited = st.visited := by
  unfold relaxStep
  cases List.lookup cur st.distances with
  | none => rfl
  | some d =>
    cases d with
    | inf => rfl
    | fin dc =>
      dsimp only
      cases List.lookup nw.1 st.distances with
      | none => rfl
      | some dv =>
        dsimp only
        by_cases hlt : Val.lt (Val.fin (dc + nw.2)) dv = true
        · rw [if_pos hlt]
        · rw [if_neg hlt]

theorem relaxStep_queue_le (cur : String) (st : DState α) (nw : String × α) :
    (relaxStep cur st nw).queue.length ≤ st.queue.length + 1 := by
  unfold relaxStep
  cases List.lookup cur st.distances with
  | none => exact Nat.le_succ _
  | some d =>
    cases d with
    | inf => exact Nat.le_succ _
    | fin dc =>
      dsimp only
      cases List.lookup nw.1 st.distances with
      | none => exact Nat.le_succ _
      | some dv =>
        dsimp only
        by_cases hlt : Val.lt (Val.fin (dc + nw.2)) dv = true
        · rw [if_pos hlt]
          simp
        · rw [if_neg hlt]
          exact Nat.le_succ _

theorem foldl_relax_visited (cur : String) (adj : List (String × α)) :
    ∀ s : DState α, (adj.foldl (relaxStep cur) s).visited = s.visited := by
  induction adj with
  | nil => intro s; rfl
  | cons e t ih =>
    intro s
    simp only [List.foldl_cons]
    rw [ih, relaxStep_visited]

theorem foldl_relax_queue_le (cur : String) (adj : List (String × α)) :
    ∀ s : DState α, (adj.foldl (relaxStep cur) s).queue.length ≤
      s.queue.length + adj.length := by
  induction adj with
  | nil => intro s; simp
  | cons e t ih =>
    intro s
    simp only [List.foldl_cons, List.length_cons]
    calc (t.foldl (relaxStep cur) (relaxStep cur s e)).queue.length
        ≤ (relaxStep cur s e).queue.length + t.length := ih _
      _ ≤ s.queue.length + 1 + t.length :=
          Nat.add_le_add_right (relaxStep_queue_le cur s e) _
      _ = s.queue.length + (t.length + 1) := by omega

theorem sum_if_mono (f g' : String → Bool) (g : Graph α)
    (h : ∀ x, f x = true → g' x = true) :
    (g.map fun kv => if g' kv.1 then 0 else kv.2.length).sum ≤
      (g.map fun kv => if f kv.1 then 0 else kv.2.length).sum := by
  induction g with
  | nil => exact le_refl 0
  | cons kv t ih =>
    simp only [List.map_cons, List.sum_cons]
    have hhd : (if g' kv.1 then 0 else kv.2.length) ≤
        (if f kv.1 then 0 else kv.2.length) := by
      by_cases hf : f kv.1 = true
      · rw [if_pos hf, if_pos (h _ hf)]
      · rw [if_neg hf]
        by_cases hf2 : g' kv.1 = true
        · rw [if_pos hf2]
          exact Nat.zero_le _
        · rw [if_neg hf2]
    exact Nat.add_le_add hhd ih

theorem sum_visit_lt {s : String → Bool} {c0 : String}
    {adj : List (String × α)} :
    ∀ g : Graph α, (c0, adj) ∈ g → s c0 = false →
    (g.map fun kv =>
        if Hungarian.upd1 s c0 true kv.1 then 0 else kv.2.length).sum
      + adj.length ≤
    (g.map fun kv => if s kv.1 then 0 else kv.2.length).sum := by
  intro g hmem hv
  induction g with
  | nil => cases hmem
  | cons kv t ih =>
    simp only [List.map_cons, List.sum_cons]
    have hmono : ∀ x, s x = true → Hungarian.upd1 s c0 true x = true := by
      intro x hx
      by_cases hxe : x = c0
      · rw [hxe] at hx
        exact absurd hx (by rw [hv]; exact Bool.false_ne_true)
      · rw [show Hungarian.upd1 s c0 true x = s x by
          simp [Hungarian.upd1, hxe]]
        exact hx
    rcases List.mem_cons.mp hmem with heq | hmem2
    · rw [← heq]
      dsimp only
      have h1 : Hungarian.upd1 s c0 true c0 = true := by
        simp [Hungarian.upd1]
      rw [if_pos h1, if_neg (by rw [hv]; exact Bool.false_ne_true)]
      have ht := sum_if_mono s (Hungarian.upd1 s c0 true) t hmono
      omega
    · have hhd : (if Hungarian.upd1 s c0 true kv.1 then 0
          else kv.2.length) ≤ (if s kv.1 then 0 else kv.2.length) := by
        by_cases hf : s kv.1 = true
        · rw [if_pos hf, if_pos (hmono _ hf)]
        · rw [if_neg hf]
          by_cases hf2 : Hungarian.upd1 s c0 true kv.1 = true
          · rw [if_pos hf2]
            exact Nat.zero_le _
          · rw [if_neg hf2]
      have ht := ih hmem2
      omega

theorem dstep_measure {g : Graph α} {s : DState α} (hne : s.queue ≠ []) :
    dmeasure g (dstep g s) < dmeasure g s := by
  unfold dstep
  cases hq : s.queue.insertionSort (fun a b => a.2 ≤ b.2) with
  | nil =>
    exfalso
    have hperm := List.perm_insertionSort (fun a b => a.2 ≤ b.2) s.queue
    rw [hq] at hperm
    exact hne hperm.symm.eq_nil
  | cons hd rest =>
    obtain ⟨c0, d0⟩ := hd
    dsimp only
    have hperm := List.perm_insertionSort (fun a b => a.2 ≤ b.2) s.queue
    rw [hq] at hperm
    have hlen : s.queue.length = rest.length + 1 := by
      have h2 := hperm.length_eq
      simp only [List.length_cons] at h2
      omega
    by_cases hv : s.visited c0 = true
    · rw [if_pos hv]
      unfold dmeasure
      dsimp only
      omega
    · rw [if_neg hv]
      have hv2 : s.visited c0 = false := by
        cases hb : s.visited c0
        · rfl
        · exact absurd hb hv
      have hmono : ∀ x, s.visited x = true →
          Hungarian.upd1 s.visited c0 true x = true := by
        intro x hx
        by_cases hxe : x = c0
        · rw [hxe] at hx
          exact absurd hx (by rw [hv2]; exact Bool.false_ne_true)
        · rw [show Hungarian.upd1 s.visited c0 true x = s.visited x by
            simp [Hungarian.upd1, hxe]]
          exact hx
      cases hg : List.lookup c0 g with
      | none =>
        dsimp only
        unfold dmeasure
        dsimp only
        have hs := sum_if_mono s.visited
          (Hungarian.upd1 s.visited c0 true) g hmono
        omega
      | some adj =>
        dsimp only
        have hkey : dmeasure g (relaxAll c0 adj
            ({ s with visited := Hungarian.upd1 s.visited c0 true, queue := rest } : DState α)) < dmeasure g s := by
          rw [relaxAll_eq_foldl]
          have hql := foldl_relax_queue_le c0 adj
            ({ s with visited := Hungarian.upd1 s.visited c0 true, queue := rest } : DState α)
          have hvis := foldl_relax_visited c0 adj
            ({ s with visited := Hungarian.upd1 s.visited c0 true, queue := rest } : DState α)
          have hsum := sum_visit_lt g (mem_of_lookup hg) hv2
          unfold dmeasure
          rw [hvis]
          dsimp only at hql ⊢
          omega
        exact hkey

theorem drun_spec {g : Graph α} {a0 : String}
    (hclosed : ∀ kv ∈ g, ∀ e ∈ kv.2, e.1 ∈ g.map Prod.fst)
    (hnonneg : ∀ kv ∈ g, ∀ e ∈ kv.2, 0 ≤ e.2) :
    ∀ fuel (s : DState α), DInv g a0 s → dmeasure g s < fuel →
      DInv g a0 (drun g fuel s) ∧ (drun g fuel s).queue = [] := by
  intro fuel
  induction fuel with
  | zero =>
    intro s _ hm
    omega
  | succ f ih =>
    intro s hinv hm
    unfold drun
    by_cases hq : s.queue = []
    · rw [if_pos hq]
      exact ⟨hinv, hq⟩
    · rw [if_neg hq]
      exact ih (dstep g s) (dstep_dinv hclosed hnonneg hinv)
        (Nat.lt_of_lt_of_le (dstep_measure hq) (Nat.lt_succ_iff.mp hm))

theorem dinit_measure_lt (g : Graph α) (a0 : String) :
    dmeasure g (dinit g a0) < dijkstraFuel g := by
  have h1 : (g.map fun kv =>
      if (dinit g a0 : DState α).visited kv.1 then 0 else kv.2.length) =
      g.map fun kv => kv.2.length := by
    simp [dinit]
  have h2 : 1 * ((g.map fun kv => kv.2.length).sum + 2) ≤
      (g.length + 2) * ((g.map fun kv => kv.2.length).sum + 2) :=
    Nat.mul_le_mul_right _ (by omega)
  unfold dmeasure dijkstraFuel
  rw [h1]
  have h3 : (dinit g a0 : DState α).queue.length = 1 := rfl
  rw [h3]
  omega

theorem dijkstra_final {g : Graph α} {a0 : String}
    (hclosed : ∀ kv ∈ g, ∀ e ∈ kv.2, e.1 ∈ g.map Prod.fst)
    (hnonneg : ∀ kv ∈ g, ∀ e ∈ kv.2, 0 ≤ e.2)
    (hstart : a0 ∈ g.map Prod.fst) :
    DInv g a0 (drun g (dijkstraFuel g) (dinit g a0)) ∧
      (drun g (dijkstraFuel g) (dinit g a0)).queue = [] :=
  drun_spec hclosed hnonneg _ _ (dinit_dinv hstart) (dinit_measure_lt g a0)

end Dijkstra

/-- **C4.**  On a graph whose neighbor ids are all registered keys, with
non-negative weights and a key source: every finite distance in the
result is the length of an actual walk from the source and is minimal
among all such walks; every node reached by some walk has a finite
distance bounded by that walk; every unreachable key keeps distance
`Infinity` and predecessor `none`; and every finite-distance key other
than the source has a predecessor lying on an edge into it whose own
distance plus the edge weight equals the node's distance.  (The claim's
concrete example, where `B` is not a key, is refuted separately.) -/
theorem claim_C4 {α : Type} [LinearOrderedCommRing α]
    (g : Dijkstra.Graph α) (a0 : String)
    (hclosed : ∀ kv ∈ g, ∀ e ∈ kv.2, e.1 ∈ g.map Prod.fst)
    (hnonneg : ∀ kv ∈ g, ∀ e ∈ kv.2, 0 ≤ e.2)
    (hstart : a0 ∈ g.map Prod.fst) :
    (∀ v d, List.lookup v (Dijkstra.dijkstra g a0).1 = some (Val.fin d) →
        Dijkstra.Reaches g a0 v d ∧
          ∀ dp, Dijkstra.Reaches g a0 v dp → d ≤ dp) ∧
    (∀ v dp, Dijkstra.Reaches g a0 v dp →
        ∃ d, List.lookup v (Dijkstra.dijkstra g a0).1 = some (Val.fin d) ∧
          d ≤ dp) ∧
    (∀ v, v ∈ g.map Prod.fst → ¬(∃ dp, Dijkstra.Reaches g a0 v dp) →
        List.lookup v (Dijkstra.dijkstra g a0).1 = some Val.inf ∧
        List.lookup v (Dijkstra.dijkstra g a0).2 = some none) ∧
    (∀ v, v ∈ g.map Prod.fst → v ≠ a0 → ∀ d,
        List.lookup v (Dijkstra.dijkstra g a0).1 = some (Val.fin d) →
        ∃ p w dp,
          List.lookup v (Dijkstra.dijkstra g a0).2 = some (some p) ∧
          Dijkstra.EdgeOf g p v w ∧
          List.lookup p (Dijkstra.dijkstra g a0).1 = some (Val.fin dp) ∧
          dp + w = d) := by
  obtain ⟨hinv, hqe⟩ := Dijkstra.dijkstra_final hclosed hnonneg hstart
  have hd1 : (Dijkstra.dijkstra g a0).1 =
      (Dijkstra.drun g (Dijkstra.dijkstraFuel g)
        (Dijkstra.dinit g a0)).distances := rfl
  have hd2 : (Dijkstra.dijkstra g a0).2 =
      (Dijkstra.drun g (Dijkstra.dijkstraFuel g)
        (Dijkstra.dinit g a0)).predecessors := rfl
  rw [hd1, hd2]
  have hfin : ∀ v d,
      List.lookup v (Dijkstra.drun g (Dijkstra.dijkstraFuel g)
        (Dijkstra.dinit g a0)).distances = some (Val.fin d) →
      (Dijkstra.drun g (Dijkstra.dijkstraFuel g)
        (Dijkstra.dinit g a0)).visited v = true := by
    intro v d hl
    rcases hinv.inQueue v d hl with hvis | hmem
    · exact hvis
    · rw [hqe] at hmem
      cases hmem
  refine ⟨?_, ?_, ?_, ?_⟩
  · intro v d hl
    exact ⟨hinv.sound v d hl,
      fun dp hdp => hinv.settled v (hfin v d hl) d dp hl hdp⟩
  · intro v dp hdp
    rcases Dijkstra.frontier hnonneg hinv v dp hdp with
      ⟨d, hd, hle⟩ | ⟨x, dx, _, _, _, hxq⟩
    · exact ⟨d, hd, hle⟩
    · rw [hqe] at hxq
      cases hxq
  · intro v hvk hnr
    have hks : (List.lookup v (Dijkstra.drun g (Dijkstra.dijkstraFuel g)
        (Dijkstra.dinit g a0)).distances).isSome = true := by
      rw [Dijkstra.lookup_isSome_iff, hinv.keysD]
      exact hvk
    cases hl : List.lookup v (Dijkstra.drun g (Dijkstra.dijkstraFuel g)
        (Dijkstra.dinit g a0)).distances with
    | none =>
      rw [hl] at hks
      cases hks
    | some dv =>
      cases dv with
      | fin d => exact absurd ⟨d, hinv.sound v d hl⟩ hnr
      | inf => exact ⟨rfl, hinv.predNone v hl⟩
  · intro v hvk hva0 d hl
    obtain ⟨p, w, dp, h1, h2, h3, h4, _⟩ :=
      hinv.predValid v hvk hva0 d hl
    exact ⟨p, w, dp, h1, h2, h3, h4⟩

/-- **C4, witness.**  On the two-key graph `{A: [{B,5}], B: []}` with
source `A`, the theorem yields a finite distance for `B` bounded by the
one-edge walk of length `0 + 5`. -/
theorem claim_C4_witness :
    ∃ d, List.lookup "B"
        (Dijkstra.dijkstra [("A", [("B", (5 : ℤ))]), ("B", [])] "A").1 =
        some (Val.fin d) ∧ d ≤ 0 + 5 := by
  have h := claim_C4 [("A", [("B", (5 : ℤ))]), ("B", [])] "A"
    (by decide) (by decide) (by decide)
  exact h.2.1 "B" (0 + 5)
    (Dijkstra.Reaches.tail Dijkstra.Reaches.refl
      ⟨[("B", (5 : ℤ))], by decide, by decide⟩)

/-- **C4, counterexample.**  On the spec's own example graph
`{A: [{B, 5}]}` the id `B` is only a neighbor id, never a key, so the
returned maps are `distances = {A: 0}` and `predecessors = {A: none}`
with no entry at all for `B` — not `distances = {A: 0, B: 5}` with
`predecessors = {B: A}` as claimed. -/
theorem claim_C4_counterexample :
    Dijkstra.dijkstra [("A", [("B", (5 : ℤ))])] "A" =
      ([("A", Val.fin 0)], [("A", (none : Option String))]) ∧
    List.lookup "B"
      (Dijkstra.dijkstra [("A", [("B", (5 : ℤ))])] "A").1 = none ∧
    List.lookup "B"
      (Dijkstra.dijkstra [("A", [("B", (5 : ℤ))])] "A").2 = none := by
  refine ⟨?_, ?_, ?_⟩ <;> rfl

namespace Kruskal

open Dijkstra

/-- The parent of an id: the stored entry, or the id itself when the JS
slot is `undefined` (`find` would lazily make it its own root). -/
def parentOf (uf : UF) (x : String) : String := (aget uf.parent x).getD x

/-- The rank of an id (`undefined` reads as the lazily-assigned `0`). -/
def rankOf (uf : UF) (x : String) : ℕ := (aget uf.rank x).getD 0

/-- A root: its own parent. -/
def isRoot (uf : UF) (x : String) : Prop := parentOf uf x = x

/-- Iterated parent. -/
def iterP (uf : UF) : ℕ → String → String
  | 0, x => x
  | k + 1, x => iterP uf k (parentOf uf x)

/-- `r` is the representative of `x`: some parent chain from `x` ends at
the root `r`. -/
def IsRootOf (uf : UF) (x r : String) : Prop :=
  ∃ k, iterP uf k x = r ∧ isRoot uf r

/-- Well-formedness of a `UnionFind` state: no duplicate parent keys, and
rank strictly increases along parent edges (hence no cycles). -/
structure WF (uf : UF) : Prop where
  nodup : (uf.parent.map Prod.fst).Nodup
  rankUp : ∀ x, parentOf uf x ≠ x → rankOf uf x < rankOf uf (parentOf uf x)
  rankNone : ∀ z, aget uf.parent z = none → aget uf.rank z = none

/-- `x` and `y` currently share a representative. -/
def SameRoot (uf : UF) (x y : String) : Prop :=
  ∃ r, IsRootOf uf x r ∧ IsRootOf uf y r

theorem iterP_succ (uf : UF) (k : ℕ) (x : String) :
    iterP uf (k + 1) x = iterP uf k (parentOf uf x) := rfl

theorem isRoot_iterP {uf : UF} {r : String} (h : isRoot uf r) :
    ∀ k, iterP uf k r = r := by
  intro k
  induction k with
  | zero => rfl
  | succ m ih =>
    rw [iterP_succ, h]
    exact ih

theorem iterP_add (uf : UF) (a b : ℕ) (x : String) :
    iterP uf (a + b) x = iterP uf b (iterP uf a x) := by
  induction a generalizing x with
  | zero =>
    rw [Nat.zero_add]
    rfl
  | succ m ih =>
    rw [show m + 1 + b = m + b + 1 by omega, iterP_succ, iterP_succ]
    exact ih (parentOf uf x)

theorem IsRootOf_unique {uf : UF} {x r r' : String}
    (h1 : IsRootOf uf x r) (h2 : IsRootOf uf x r') : r = r' := by
  obtain ⟨k, hk, hr⟩ := h1
  obtain ⟨k', hk', hr'⟩ := h2
  rcases Nat.le_total k k' with hle | hle
  · have := iterP_add uf k (k' - k) x
    rw [show k + (k' - k) = k' by omega, hk', hk, isRoot_iterP hr] at this
    exact this.symm
  · have := iterP_add uf k' (k - k') x
    rw [show k' + (k - k') = k by omega, hk, hk', isRoot_iterP hr'] at this
    exact this

theorem iterP_succ_out (uf : UF) (k : ℕ) (x : String) :
    iterP uf (k + 1) x = parentOf uf (iterP uf k x) := by
  induction k generalizing x with
  | zero => rfl
  | succ m ih =>
    rw [iterP_succ, ih, ← iterP_succ]

theorem IsRootOf_step {uf : UF} {x z r : String}
    (hp : parentOf uf x = z) (h : IsRootOf uf z r) : IsRootOf uf x r := by
  obtain ⟨k, hk, hr⟩ := h
  exact ⟨k + 1, by rw [iterP_succ, hp]; exact hk, hr⟩

theorem IsRootOf_root {uf : UF} {r : String} (h : isRoot uf r) :
    IsRootOf uf r r := ⟨0, rfl, h⟩

theorem rank_le_iterP {uf : UF} (h : WF uf) :
    ∀ (k : ℕ) (x : String), rankOf uf x ≤ rankOf uf (iterP uf k x) := by
  intro k
  induction k with
  | zero => intro x; exact le_refl _
  | succ m ih =>
    intro x
    rw [iterP_succ]
    by_cases hr : parentOf uf x = x
    · rw [hr]
      exact ih x
    · exact le_trans (le_of_lt (h.rankUp x hr)) (ih (parentOf uf x))

theorem nonroot_mem_keys {uf : UF} {x : String}
    (h : parentOf uf x ≠ x) : x ∈ uf.parent.map Prod.fst := by
  rw [← lookup_isSome_iff]
  cases hl : aget uf.parent x with
  | none =>
    exfalso
    apply h
    unfold parentOf
    rw [hl]
    rfl
  | some p =>
    unfold aget at hl
    rw [hl]
    rfl

theorem wf_reaches_root {uf : UF} (h : WF uf) (x : String) :
    ∃ k ≤ uf.parent.length, isRoot uf (iterP uf k x) := by
  by_contra hc
  push_neg at hc
  have hnr : ∀ k ≤ uf.parent.length, parentOf uf (iterP uf k x) ≠
      iterP uf k x := fun k hk => hc k hk
  have hrank : ∀ i j, i < j → j ≤ uf.parent.length →
      rankOf uf (iterP uf i x) < rankOf uf (iterP uf j x) := by
    intro i j hij hj
    have h1 : rankOf uf (iterP uf i x) <
        rankOf uf (parentOf uf (iterP uf i x)) :=
      h.rankUp _ (hnr i (by omega))
    have h2 : rankOf uf (parentOf uf (iterP uf i x)) ≤
        rankOf uf (iterP uf j x) := by
      rw [← iterP_succ_out]
      have h4 := rank_le_iterP h (j - i - 1) (iterP uf (i + 1) x)
      rw [← iterP_add, show i + 1 + (j - i - 1) = j by omega] at h4
      exact h4
    omega
  have hinj : Function.Injective
      (fun i : Fin (uf.parent.length + 1) => iterP uf i.1 x) := by
    intro i j hij
    dsimp only at hij
    by_contra hne
    rcases Nat.lt_or_ge i.1 j.1 with hlt | hge
    · have := hrank i.1 j.1 hlt (by omega)
      rw [hij] at this
      omega
    · have hlt2 : j.1 < i.1 := by
        rcases Nat.lt_or_ge j.1 i.1 with h2 | h2
        · exact h2
        · exact absurd (Fin.ext (by omega)) hne
      have := hrank j.1 i.1 hlt2 (by omega)
      rw [hij] at this
      omega
  have hmem : ∀ i : Fin (uf.parent.length + 1),
      iterP uf i.1 x ∈ (uf.parent.map Prod.fst).toFinset := by
    intro i
    rw [List.mem_toFinset]
    exact nonroot_mem_keys (hnr i.1 (by omega))
  have hcard := @Finset.card_le_card_of_injOn (Fin (uf.parent.length + 1))
    String Finset.univ (uf.parent.map Prod.fst).toFinset
    (fun i => iterP uf i.1 x)
    (fun i _ => hmem i) (fun i _ j _ hij => hinj hij)
  rw [Finset.card_univ, Fintype.card_fin,
    List.toFinset_card_of_nodup h.nodup, List.length_map] at hcard
  omega

theorem aget_aset_self {β : Type} (l : List (String × β)) (k : String)
    (v : β) : aget (aset l k v) k = some v := lookup_aset_self l k v

theorem aget_aset_ne {β : Type} (l : List (String × β)) {k k' : String}
    (v : β) (hne : k' ≠ k) : aget (aset l k v) k' = aget l k' :=
  lookup_aset_ne l v hne

theorem nodup_aset {β : Type} {l : List (String × β)} (k : String) (v : β)
    (h : (l.map Prod.fst).Nodup) : ((aset l k v).map Prod.fst).Nodup := by
  by_cases hs : (List.lookup k l).isSome = true
  · rw [map_fst_aset_mem v hs]
    exact h
  · have hn : List.lookup k l = none :=
      Option.not_isSome_iff_eq_none.mp (by simpa using hs)
    rw [map_fst_aset_none v hn]
    rw [List.nodup_append]
    exact ⟨h, List.nodup_singleton k,
      by simpa using (lookup_eq_none_iff l k).mp hn⟩

/-- Re-pointing an id at its own representative (path compression)
preserves well-formedness and every representative. -/
theorem repoint_spec {uf : UF} (h : WF uf) {x rx : String}
    (hr : IsRootOf uf x rx) (uf' : UF)
    (hp : uf'.parent = aset uf.parent x rx) (hq : uf'.rank = uf.rank) :
    WF uf' ∧ (∀ y, rankOf uf' y = rankOf uf y) ∧
      (∀ y r, IsRootOf uf' y r ↔ IsRootOf uf y r) := by
  obtain ⟨k0, hk0, hrx⟩ := hr
  have hr : IsRootOf uf x rx := ⟨k0, hk0, hrx⟩
  have hrk : ∀ y, rankOf uf' y = rankOf uf y := by
    intro y
    unfold rankOf
    rw [hq]
  have hpar : ∀ y, parentOf uf' y =
      if y = x then rx else parentOf uf y := by
    intro y
    by_cases hyx : y = x
    · subst hyx
      rw [if_pos rfl]
      unfold parentOf
      rw [hp, aget_aset_self]
      rfl
    · rw [if_neg hyx]
      unfold parentOf
      rw [hp, aget_aset_ne _ _ hyx]
  have hroot : ∀ z, isRoot uf' z ↔ isRoot uf z := by
    intro z
    unfold isRoot
    rw [hpar]
    by_cases hzx : z = x
    · subst hzx
      rw [if_pos rfl]
      constructor
      · intro he
        rw [← he]
        exact hrx
      · intro he
        exact IsRootOf_unique hr (IsRootOf_root he)
    · rw [if_neg hzx]
  have hfwd : ∀ k y r, iterP uf k y = r → isRoot uf r →
      IsRootOf uf' y r := by
    intro k
    induction k with
    | zero =>
      intro y r hy hr2
      subst hy
      exact IsRootOf_root ((hroot y).mpr hr2)
    | succ m ih =>
      intro y r hy hr2
      by_cases hyx : y = x
      · subst hyx
        have hrr : r = rx := IsRootOf_unique ⟨m + 1, hy, hr2⟩ hr
        subst hrr
        exact IsRootOf_step (by rw [hpar]; exact if_pos rfl)
          (IsRootOf_root ((hroot r).mpr hrx))
      · rw [iterP_succ] at hy
        exact IsRootOf_step
          (show parentOf uf' y = parentOf uf y by
            rw [hpar]; exact if_neg hyx)
          (ih (parentOf uf y) r hy hr2)
  have hbwd : ∀ k y r, iterP uf' k y = r → isRoot uf' r →
      IsRootOf uf y r := by
    intro k
    induction k with
    | zero =>
      intro y r hy hr2
      subst hy
      exact IsRootOf_root ((hroot y).mp hr2)
    | succ m ih =>
      intro y r hy hr2
      by_cases hyx : y = x
      · subst hyx
        have hstep : iterP uf' (m + 1) y = iterP uf' m rx := by
          rw [iterP_succ, hpar]
          rw [if_pos rfl]
        have hrx' : isRoot uf' rx := (hroot rx).mpr hrx
        rw [hstep, isRoot_iterP hrx'] at hy
        subst hy
        exact hr
      · rw [iterP_succ] at hy
        have hp2 : parentOf uf' y = parentOf uf y := by
          rw [hpar]
          exact if_neg hyx
        rw [hp2] at hy
        exact IsRootOf_step rfl (ih _ r hy hr2)
  have hxnotroot : rx ≠ x → parentOf uf x ≠ x := by
    intro hne hcon
    exact hne (IsRootOf_unique hr (IsRootOf_root hcon))
  have hxlt : rx ≠ x → rankOf uf x < rankOf uf rx := by
    intro hne
    have hk0pos : k0 ≠ 0 := by
      intro hc
      rw [hc] at hk0
      exact hne hk0.symm

    have h1 : rankOf uf x < rankOf uf (parentOf uf x) :=
      h.rankUp x (hxnotroot hne)
    have h2 : rankOf uf (parentOf uf x) ≤ rankOf uf rx := by
      rw [← hk0, show k0 = (k0 - 1) + 1 by omega, iterP_succ]
      exact rank_le_iterP h _ _
    omega
  refine ⟨⟨?_, ?_, ?_⟩, hrk, fun y r => ⟨fun hh => by
      obtain ⟨k, hk, hrr⟩ := hh
      exact hbwd k y r hk hrr,
    fun hh => by
      obtain ⟨k, hk, hrr⟩ := hh
      exact hfwd k y r hk hrr⟩⟩
  · rw [hp]
    exact nodup_aset x rx h.nodup
  · intro y hy
    rw [hpar] at hy ⊢
    by_cases hyx : y = x
    · subst hyx
      rw [if_pos rfl] at hy ⊢
      rw [hrk, hrk]
      exact hxlt hy
    · rw [if_neg hyx] at hy ⊢
      rw [hrk, hrk]
      exact h.rankUp y hy
  · intro z hz
    rw [hp] at hz
    rw [hq]
    by_cases hzx : z = x
    · subst hzx
      rw [aget_aset_self] at hz
      cases hz
    · rw [aget_aset_ne _ _ hzx] at hz
      exact h.rankNone z hz

/-- Lazily registering an unseen id as its own singleton changes nothing
semantically. -/
theorem lazyreg_spec {uf : UF} {x : String} (h : WF uf)
    (hm : aget uf.parent x = none) :
    WF ⟨aset uf.parent x x, aset uf.rank x 0⟩ ∧
    (∀ y, rankOf ⟨aset uf.parent x x, aset uf.rank x 0⟩ y = rankOf uf y) ∧
    (∀ y, parentOf ⟨aset uf.parent x x, aset uf.rank x 0⟩ y =
      parentOf uf y) := by
  have hrnone : aget uf.rank x = none := h.rankNone x hm
  have hpar : ∀ y, parentOf ⟨aset uf.parent x x, aset uf.rank x 0⟩ y =
      parentOf uf y := by
    intro y
    unfold parentOf
    by_cases hyx : y = x
    · subst hyx
      show (aget (aset uf.parent y y) y).getD y = (aget uf.parent y).getD y
      rw [aget_aset_self, hm]
      rfl
    · show (aget (aset uf.parent x x) y).getD y = (aget uf.parent y).getD y
      rw [aget_aset_ne _ _ hyx]
  have hrk : ∀ y, rankOf ⟨aset uf.parent x x, aset uf.rank x 0⟩ y =
      rankOf uf y := by
    intro y
    unfold rankOf
    by_cases hyx : y = x
    · subst hyx
      show (aget (aset uf.rank y 0) y).getD 0 = (aget uf.rank y).getD 0
      rw [aget_aset_self, hrnone]
      rfl
    · show (aget (aset uf.rank x 0) y).getD 0 = (aget uf.rank y).getD 0
      rw [aget_aset_ne _ _ hyx]
  refine ⟨⟨nodup_aset x x h.nodup, ?_, ?_⟩, hrk, hpar⟩
  · intro y hy
    rw [hpar] at hy ⊢
    rw [hrk, hrk]
    exact h.rankUp y hy
  · intro z hz
    show aget (aset uf.rank x 0) z = none
    by_cases hzx : z = x
    · subst hzx
      rw [show aget (aset uf.parent z z) z = some z from aget_aset_self _ _ _]
        at hz
      cases hz
    · rw [aget_aset_ne _ _ hzx]
      apply h.rankNone
      rw [show aget (aset uf.parent x x) z = aget uf.parent z from
        aget_aset_ne _ _ hzx] at hz
      exact hz

theorem iterP_congr {uf1 uf2 : UF}
    (h : ∀ y, parentOf uf1 y = parentOf uf2 y) :
    ∀ (k : ℕ) (x : String), iterP uf1 k x = iterP uf2 k x := by
  intro k
  induction k with
  | zero => intro x; rfl
  | succ m ih =>
    intro x
    rw [iterP_succ, iterP_succ, h x, ih]

theorem IsRootOf_congr {uf1 uf2 : UF}
    (h : ∀ y, parentOf uf1 y = parentOf uf2 y) (y r : String) :
    IsRootOf uf1 y r ↔ IsRootOf uf2 y r := by
  unfold IsRootOf isRoot
  constructor
  · rintro ⟨k, hk, hr⟩
    exact ⟨k, by rw [← iterP_congr h]; exact hk, by rw [← h]; exact hr⟩
  · rintro ⟨k, hk, hr⟩
    exact ⟨k, by rw [iterP_congr h]; exact hk, by rw [h]; exact hr⟩

/-- Full specification of the fueled `find`: with fuel beyond the chain
length it returns the representative, preserves well-formedness, ranks,
and every id's representative, and its result is a registered root. -/
theorem findAux_spec : ∀ (fuel k : ℕ) (uf : UF) (x : String), k < fuel →
    WF uf → isRoot uf (iterP uf k x) →
    WF (findAux fuel uf x).1 ∧
    IsRootOf uf x (findAux fuel uf x).2 ∧
    (∀ y, rankOf (findAux fuel uf x).1 y = rankOf uf y) ∧
    (∀ y r, IsRootOf (findAux fuel uf x).1 y r ↔ IsRootOf uf y r) ∧
    aget (findAux fuel uf x).1.parent (findAux fuel uf x).2 =
      some (findAux fuel uf x).2 ∧
    (∀ z, aget uf.parent z = some z →
      aget (findAux fuel uf x).1.parent z = some z) := by
  intro fuel
  induction fuel with
  | zero =>
    intro k uf x hk
    omega
  | succ f ih =>
    intro k uf x hk hwf hroot
    show _ ∧ _ ∧ _ ∧ _ ∧ _ ∧ _
    unfold findAux
    cases hg : aget uf.parent x with
    | none =>
      dsimp only
      obtain ⟨hwf', hrk', hpar'⟩ := lazyreg_spec hwf hg
      have hxroot : isRoot uf x := by
        unfold isRoot parentOf
        rw [hg]
        rfl
      refine ⟨hwf', IsRootOf_root hxroot, hrk', ?_, ?_, ?_⟩
      · intro y r
        exact IsRootOf_congr hpar' y r
      · show aget (aset uf.parent x x) x = some x
        exact aget_aset_self _ _ _
      · intro z hz
        have hzx : z ≠ x := by
          intro hc
          rw [hc, hg] at hz
          cases hz
        show aget (aset uf.parent x x) z = some z
        rw [aget_aset_ne _ _ hzx]
        exact hz
    | some p =>
      dsimp only
      have hpx : parentOf uf x = p := by
        unfold parentOf
        rw [hg]
        rfl
      by_cases hpeq : p = x
      · rw [if_pos hpeq]
        have hxroot : isRoot uf x := by
          unfold isRoot
          rw [hpx]
          exact hpeq
        refine ⟨hwf, IsRootOf_root hxroot, fun y => rfl,
          fun y r => Iff.rfl, ?_, fun z hz => hz⟩
        show aget uf.parent x = some x
        rw [hg, hpeq]
      · rw [if_neg hpeq]
        dsimp only
        have hxnr : parentOf uf x ≠ x := by
          rw [hpx]
          exact hpeq
        have hk1 : k ≠ 0 := by
          intro hc
          rw [hc] at hroot
          exact hxnr hroot
        obtain ⟨m, rfl⟩ : ∃ m, k = m + 1 := ⟨k - 1, by omega⟩
        have hstep : iterP uf (m + 1) x = iterP uf m p := by
          rw [iterP_succ, hpx]
        have hrootp : isRoot uf (iterP uf m p) := hstep ▸ hroot
        obtain ⟨hwfr, hrootr, hrkr, heqr, hregr, hkeepr⟩ :=
          ih m uf p (by omega) hwf hrootp
        have hrootx : IsRootOf uf x (findAux f uf p).2 :=
          IsRootOf_step hpx hrootr
        have hrootx' : IsRootOf (findAux f uf p).1 x (findAux f uf p).2 :=
          (heqr x _).mpr hrootx
        have hne2 : (findAux f uf p).2 ≠ x := by
          intro hc
          obtain ⟨_, _, hrt⟩ := hrootx
          rw [hc] at hrt
          exact hxnr hrt
        obtain ⟨hwf2, hrk2, heq2⟩ := repoint_spec hwfr hrootx'
          ⟨aset (findAux f uf p).1.parent x (findAux f uf p).2,
            (findAux f uf p).1.rank⟩ rfl rfl
        refine ⟨hwf2, hrootx, ?_, ?_, ?_, ?_⟩
        · intro y
          rw [hrk2 y]
          exact hrkr y
        · intro y r
          rw [heq2 y r]
          exact heqr y r
        · show aget (aset (findAux f uf p).1.parent x (findAux f uf p).2)
            (findAux f uf p).2 = some (findAux f uf p).2
          rw [aget_aset_ne _ _ hne2]
          exact hregr
        · intro z hz
          have hz2 : aget (findAux f uf p).1.parent z = some z :=
            hkeepr z hz
          have hzx : z ≠ x := by
            intro hc
            subst hc
            have hzroot : isRoot (findAux f uf p).1 z := by
              unfold isRoot parentOf
              rw [hz2]
              rfl
            have h6 : IsRootOf uf z z :=
              (heqr z z).mp (IsRootOf_root hzroot)
            exact hne2 (IsRootOf_unique hrootx h6)
          show aget (aset (findAux f uf p).1.parent x (findAux f uf p).2)
            z = some z
          rw [aget_aset_ne _ _ hzx]
          exact hz2

/-- Any two sufficient fuels give identical results: the recursion has
terminated. -/
theorem findAux_fuel : ∀ (k : ℕ) (uf : UF) (x : String) (f g : ℕ),
    k < f → k < g → isRoot uf (iterP uf k x) →
    findAux f uf x = findAux g uf x := by
  intro k
  induction k with
  | zero =>
    intro uf x f g hf hg hroot
    cases f with
    | zero => omega
    | succ f' =>
      cases g with
      | zero => omega
      | succ g' =>
        unfold findAux
        cases hgx : aget uf.parent x with
        | none => rfl
        | some p =>
          dsimp only
          have hpx : parentOf uf x = p := by
            unfold parentOf
            rw [hgx]
            rfl
          have hpeq : p = x := by
            rw [← hpx]
            exact hroot
          rw [if_pos hpeq, if_pos hpeq]
  | succ m ih =>
    intro uf x f g hf hg hroot
    cases f with
    | zero => omega
    | succ f' =>
      cases g with
      | zero => omega
      | succ g' =>
        unfold findAux
        cases hgx : aget uf.parent x with
        | none => rfl
        | some p =>
          dsimp only
          have hpx : parentOf uf x = p := by
            unfold parentOf
            rw [hgx]
            rfl
          by_cases hpeq : p = x
          · rw [if_pos hpeq, if_pos hpeq]
          · rw [if_neg hpeq, if_neg hpeq]
            have hrootp : isRoot uf (iterP uf m p) := by
              have : iterP uf (m + 1) x = iterP uf m p := by
                rw [iterP_succ, hpx]
              rw [← this]
              exact hroot
            rw [ih uf p f' g' (by omega) (by omega) hrootp]

/-- `UF.find` meets the `findAux` specification. -/
theorem find_spec {uf : UF} (h : WF uf) (x : String) :
    WF (uf.find x).1 ∧
    IsRootOf uf x (uf.find x).2 ∧
    (∀ y, rankOf (uf.find x).1 y = rankOf uf y) ∧
    (∀ y r, IsRootOf (uf.find x).1 y r ↔ IsRootOf uf y r) ∧
    aget (uf.find x).1.parent (uf.find x).2 = some (uf.find x).2 ∧
    (∀ z, aget uf.parent z = some z →
      aget (uf.find x).1.parent z = some z) := by
  obtain ⟨k, hk, hroot⟩ := wf_reaches_root h x
  exact findAux_spec (uf.parent.length + 1) k uf x (by omega) h hroot

theorem SameRoot_symm {uf : UF} {x y : String} (h : SameRoot uf x y) :
    SameRoot uf y x := by
  obtain ⟨r, h1, h2⟩ := h
  exact ⟨r, h2, h1⟩

theorem SameRoot_trans {uf : UF} {x y z : String} (h1 : SameRoot uf x y)
    (h2 : SameRoot uf y z) : SameRoot uf x z := by
  obtain ⟨r, hx, hy⟩ := h1
  obtain ⟨r', hy', hz⟩ := h2
  rw [IsRootOf_unique hy hy'] at hx
  exact ⟨r', hx, hz⟩

theorem SameRoot_refl {uf : UF} (h : WF uf) (x : String) :
    SameRoot uf x x := by
  obtain ⟨k, _, hroot⟩ := wf_reaches_root h x
  exact ⟨iterP uf k x, ⟨k, rfl, hroot⟩, ⟨k, rfl, hroot⟩⟩

theorem IsRootOf_iff_SameRoot {uf : UF} {a ra : String}
    (ha : IsRootOf uf a ra) (x : String) :
    IsRootOf uf x ra ↔ SameRoot uf x a := by
  constructor
  · intro hx
    exact ⟨ra, hx, ha⟩
  · rintro ⟨r, hx, ha'⟩
    rw [IsRootOf_unique ha ha']
    exact hx

/-- Linking the root `rb` under the distinct root `ra` merges exactly the
two classes.  The rank map may change, as long as it only grows at `ra`
and leaves `rb` strictly below `ra`. -/
theorem link_spec {uf : UF} (h : WF uf) {ra rb : String}
    (hra : isRoot uf ra) (hrb : isRoot uf rb) (hne : ra ≠ rb)
    (hrareg : aget uf.parent ra = some ra)
    (uf' : UF) (hp : uf'.parent = aset uf.parent rb ra)
    (hq1 : ∀ y, rankOf uf y ≤ rankOf uf' y)
    (hq2 : ∀ y, y ≠ ra → rankOf uf' y = rankOf uf y)
    (hq3 : rankOf uf' rb < rankOf uf' ra)
    (hq5 : ∀ z, aget uf.rank z = none → z ≠ ra → aget uf'.rank z = none) :
    WF uf' ∧
    (∀ y r, IsRootOf uf' y r ↔
      ((IsRootOf uf y r ∧ r ≠ rb) ∨ (IsRootOf uf y rb ∧ r = ra))) := by
  have hpar : ∀ y, parentOf uf' y =
      if y = rb then ra else parentOf uf y := by
    intro y
    by_cases hyb : y = rb
    · subst hyb
      rw [if_pos rfl]
      unfold parentOf
      rw [hp, aget_aset_self]
      rfl
    · rw [if_neg hyb]
      unfold parentOf
      rw [hp, aget_aset_ne _ _ hyb]
  have hroot' : ∀ z, isRoot uf' z ↔ (z ≠ rb ∧ isRoot uf z) := by
    intro z
    unfold isRoot
    rw [hpar]
    by_cases hzb : z = rb
    · subst hzb
      rw [if_pos rfl]
      constructor
      · intro he
        exact absurd he hne
      · intro he
        exact absurd rfl he.1
    · rw [if_neg hzb]
      exact ⟨fun he => ⟨hzb, he⟩, fun he => he.2⟩
  have hfwd : ∀ k y r, iterP uf k y = r → isRoot uf r →
      ((r ≠ rb → IsRootOf uf' y r) ∧ (r = rb → IsRootOf uf' y ra)) := by
    intro k
    have hra' : isRoot uf' ra := (hroot' ra).mpr ⟨hne, hra⟩
    induction k with
    | zero =>
      intro y r hy hr2
      subst hy
      constructor
      · intro hne2
        exact IsRootOf_root ((hroot' y).mpr ⟨hne2, hr2⟩)
      · intro heq
        subst heq
        exact IsRootOf_step (by rw [hpar]; exact if_pos rfl)
          (IsRootOf_root hra')
    | succ m ih =>
      intro y r hy hr2
      by_cases hyb : y = rb
      · subst hyb
        rw [isRoot_iterP hrb] at hy
        subst hy
        refine ⟨fun hc => absurd rfl hc, fun _ => ?_⟩
        exact IsRootOf_step (by rw [hpar]; exact if_pos rfl)
          (IsRootOf_root hra')
      · rw [iterP_succ] at hy
        obtain ⟨h1, h2⟩ := ih (parentOf uf y) r hy hr2
        have hstep : parentOf uf' y = parentOf uf y := by
          rw [hpar]
          exact if_neg hyb
        exact ⟨fun hne2 => IsRootOf_step hstep (h1 hne2),
          fun heq => IsRootOf_step hstep (h2 heq)⟩
  have hbwd : ∀ k y r, iterP uf' k y = r → isRoot uf' r →
      ((IsRootOf uf y r ∧ r ≠ rb) ∨ (IsRootOf uf y rb ∧ r = ra)) := by
    intro k
    induction k with
    | zero =>
      intro y r hy hr2
      subst hy
      obtain ⟨h1, h2⟩ := (hroot' y).mp hr2
      exact Or.inl ⟨IsRootOf_root h2, h1⟩
    | succ m ih =>
      intro y r hy hr2
      by_cases hyb : y = rb
      · subst hyb
        have hra' : isRoot uf' ra := (hroot' ra).mpr ⟨hne, hra⟩
        have hstep : iterP uf' (m + 1) y = iterP uf' m ra := by
          rw [iterP_succ, hpar]
          rw [if_pos rfl]
        rw [hstep, isRoot_iterP hra'] at hy
        subst hy
        exact Or.inr ⟨IsRootOf_root hrb, rfl⟩
      · rw [iterP_succ] at hy
        have hstep : parentOf uf' y = parentOf uf y := by
          rw [hpar]
          exact if_neg hyb
        rw [hstep] at hy
        rcases ih (parentOf uf y) r hy hr2 with ⟨h1, h2⟩ | ⟨h1, h2⟩
        · exact Or.inl ⟨IsRootOf_step rfl h1, h2⟩
        · exact Or.inr ⟨IsRootOf_step rfl h1, h2⟩
  refine ⟨⟨?_, ?_, ?_⟩, ?_⟩
  · rw [hp]
    exact nodup_aset rb ra h.nodup
  · intro y hy
    rw [hpar] at hy ⊢
    by_cases hyb : y = rb
    · subst hyb
      rw [if_pos rfl] at hy ⊢
      exact hq3
    · rw [if_neg hyb] at hy ⊢
      have hyra : y ≠ ra := by
        intro hc
        subst hc
        exact hy hra
      rw [hq2 y hyra]
      exact lt_of_lt_of_le (h.rankUp y hy) (hq1 _)
  · intro z hz
    rw [hp] at hz
    have hzb : z ≠ rb := by
      intro hc
      subst hc
      rw [aget_aset_self] at hz
      cases hz
    rw [aget_aset_ne _ _ hzb] at hz
    have hzra : z ≠ ra := by
      intro hc
      subst hc
      rw [hrareg] at hz
      cases hz
    exact hq5 z (h.rankNone z hz) hzra
  · intro y r
    constructor
    · rintro ⟨k, hk, hr2⟩
      exact hbwd k y r hk hr2
    · rintro (⟨⟨k, hk, hr2⟩, hne2⟩ | ⟨⟨k, hk, hr2⟩, heq⟩)
      · exact (hfwd k y r hk hr2).1 hne2
      · subst heq
        exact (hfwd k y rb hk hr2).2 rfl

/-- The class structure after linking, phrased through the two merged
ids. -/
theorem link_sameRoot {uf : UF} (h : WF uf) {a b ra rb : String}
    (ha : IsRootOf uf a ra) (hb : IsRootOf uf b rb) (hne : ra ≠ rb)
    {uf' : UF}
    (hiff : ∀ y r, IsRootOf uf' y r ↔
      ((IsRootOf uf y r ∧ r ≠ rb) ∨ (IsRootOf uf y rb ∧ r = ra))) :
    ∀ x y, SameRoot uf' x y ↔
      (SameRoot uf x y ∨ (SameRoot uf x a ∧ SameRoot uf b y) ∨
        (SameRoot uf x b ∧ SameRoot uf a y)) := by
  have hraroot : isRoot uf ra := ha.choose_spec.2
  have hrbroot : isRoot uf rb := hb.choose_spec.2
  intro x y
  constructor
  · rintro ⟨r, hx, hy⟩
    rcases (hiff x r).mp hx with ⟨hx1, hx2⟩ | ⟨hx1, hx2⟩ <;>
      rcases (hiff y r).mp hy with ⟨hy1, hy2⟩ | ⟨hy1, hy2⟩
    · exact Or.inl ⟨r, hx1, hy1⟩
    · subst hy2
      exact Or.inr (Or.inl ⟨(IsRootOf_iff_SameRoot ha x).mp hx1,
        SameRoot_symm ((IsRootOf_iff_SameRoot hb y).mp hy1)⟩)
    · subst hx2
      exact Or.inr (Or.inr ⟨(IsRootOf_iff_SameRoot hb x).mp hx1,
        SameRoot_symm ((IsRootOf_iff_SameRoot ha y).mp hy1)⟩)
    · exact Or.inl ⟨rb, hx1, hy1⟩
  · rintro (⟨r, hx, hy⟩ | ⟨h1, h2⟩ | ⟨h1, h2⟩)
    · by_cases hrB : r = rb
      · subst hrB
        exact ⟨ra, (hiff x ra).mpr (Or.inr ⟨hx, rfl⟩),
          (hiff y ra).mpr (Or.inr ⟨hy, rfl⟩)⟩
      · exact ⟨r, (hiff x r).mpr (Or.inl ⟨hx, hrB⟩),
          (hiff y r).mpr (Or.inl ⟨hy, hrB⟩)⟩
    · have hx : IsRootOf uf x ra := (IsRootOf_iff_SameRoot ha x).mpr h1
      have hy : IsRootOf uf y rb :=
        (IsRootOf_iff_SameRoot hb y).mpr (SameRoot_symm h2)
      exact ⟨ra, (hiff x ra).mpr (Or.inl ⟨hx, hne⟩),
        (hiff y ra).mpr (Or.inr ⟨hy, rfl⟩)⟩
    · have hx : IsRootOf uf x rb := (IsRootOf_iff_SameRoot hb x).mpr h1
      have hy : IsRootOf uf y ra :=
        (IsRootOf_iff_SameRoot ha y).mpr (SameRoot_symm h2)
      exact ⟨ra, (hiff x ra).mpr (Or.inr ⟨hx, rfl⟩),
        (hiff y ra).mpr (Or.inl ⟨hy, hne⟩)⟩

theorem SameRoot_congr {uf1 uf0 : UF}
    (h : ∀ y r, IsRootOf uf1 y r ↔ IsRootOf uf0 y r) (x y : String) :
    SameRoot uf1 x y ↔ SameRoot uf0 x y := by
  unfold SameRoot
  constructor
  · rintro ⟨r, h1, h2⟩
    exact ⟨r, (h x r).mp h1, (h y r).mp h2⟩
  · rintro ⟨r, h1, h2⟩
    exact ⟨r, (h x r).mpr h1, (h y r).mpr h2⟩

/-- Full specification of `union`: well-formedness is preserved, the
returned boolean says whether the two ids were previously in distinct
classes, and the class structure merges exactly the classes of the two
arguments. -/
theorem union_spec {uf : UF} (h : WF uf) (a b : String) :
    WF (uf.union a b).1 ∧
    ((uf.union a b).2 = true ↔ ¬ SameRoot uf a b) ∧
    (∀ x y, SameRoot (uf.union a b).1 x y ↔
      (SameRoot uf x y ∨ (SameRoot uf x a ∧ SameRoot uf b y) ∨
        (SameRoot uf x b ∧ SameRoot uf a y))) := by
  obtain ⟨hwf1, hroota, hrk1, heq1, hreg1, hkeep1⟩ := find_spec h a
  obtain ⟨hwf2, hrootb1, hrk2, heq2, hreg2, hkeep2⟩ := find_spec hwf1 b
  have heqc : ∀ y r, IsRootOf ((uf.find a).1.find b).1 y r ↔
      IsRootOf uf y r := fun y r => (heq2 y r).trans (heq1 y r)
  have hSRc : ∀ x y, SameRoot ((uf.find a).1.find b).1 x y ↔
      SameRoot uf x y := SameRoot_congr heqc
  have hb_uf : IsRootOf uf b ((uf.find a).1.find b).2 :=
    (heq1 _ _).mp hrootb1
  have ha2 : IsRootOf ((uf.find a).1.find b).1 a (uf.find a).2 :=
    (heqc _ _).mpr hroota
  have hb2 : IsRootOf ((uf.find a).1.find b).1 b ((uf.find a).1.find b).2 :=
    (heqc _ _).mpr hb_uf
  unfold UF.union
  dsimp only
  by_cases hEQ : (uf.find a).2 = ((uf.find a).1.find b).2
  · rw [if_neg (not_not_intro hEQ)]
    dsimp only
    have hab : SameRoot uf a b := by
      refine ⟨(uf.find a).2, hroota, ?_⟩
      rw [hEQ]
      exact hb_uf
    refine ⟨hwf2, ?_, ?_⟩
    · constructor
      · intro hc
        exact absurd hc (by decide)
      · intro hns
        exact absurd hab hns
    · intro x y
      show SameRoot ((uf.find a).1.find b).1 x y ↔ _
      rw [hSRc x y]
      constructor
      · intro hxy
        exact Or.inl hxy
      · rintro (hxy | ⟨h1, h2⟩ | ⟨h1, h2⟩)
        · exact hxy
        · exact SameRoot_trans (SameRoot_trans h1 hab) h2
        · exact SameRoot_trans (SameRoot_trans h1 (SameRoot_symm hab)) h2
  · rw [if_pos hEQ]
    obtain ⟨ka, hka, hraroot2⟩ := ha2
    obtain ⟨kb, hkb, hrbroot2⟩ := hb2
    have ha2 : IsRootOf ((uf.find a).1.find b).1 a (uf.find a).2 :=
      ⟨ka, hka, hraroot2⟩
    have hb2 : IsRootOf ((uf.find a).1.find b).1 b
        ((uf.find a).1.find b).2 := ⟨kb, hkb, hrbroot2⟩
    have hNE : (uf.find a).2 ≠ ((uf.find a).1.find b).2 := hEQ
    have hrareg2 : aget ((uf.find a).1.find b).1.parent (uf.find a).2 =
        some (uf.find a).2 := hkeep2 _ hreg1
    have hnsr : ¬ SameRoot uf a b := by
      rintro ⟨r, h1, h2⟩
      exact hNE ((IsRootOf_unique hroota h1).trans
        (IsRootOf_unique hb_uf h2).symm)
    have hboolgoal : (true = true ↔ ¬ SameRoot uf a b) :=
      ⟨fun _ => hnsr, fun _ => rfl⟩
    by_cases hBA : (aget ((uf.find a).1.find b).1.rank
        ((uf.find a).1.find b).2).getD 0 <
        (aget ((uf.find a).1.find b).1.rank (uf.find a).2).getD 0
    · rw [if_pos hBA]
      dsimp only
      obtain ⟨hwf', hiff'⟩ := link_spec hwf2 hraroot2 hrbroot2
        hNE hrareg2
        ⟨aset ((uf.find a).1.find b).1.parent ((uf.find a).1.find b).2
          (uf.find a).2, ((uf.find a).1.find b).1.rank⟩ rfl
        (fun y => le_refl _) (fun y _ => rfl) hBA (fun z hz _ => hz)
      have hmerge := link_sameRoot hwf2 ha2 hb2 hNE hiff'
      refine ⟨hwf', hboolgoal, ?_⟩
      intro x y
      have hthis := hmerge x y
      rw [hSRc x y, hSRc x a, hSRc b y, hSRc x b, hSRc a y] at hthis
      exact hthis
    · rw [if_neg hBA]
      by_cases hAB : (aget ((uf.find a).1.find b).1.rank
          (uf.find a).2).getD 0 <
          (aget ((uf.find a).1.find b).1.rank ((uf.find a).1.find b).2).getD 0
      · rw [if_pos hAB]
        dsimp only
        obtain ⟨hwf', hiff'⟩ := link_spec hwf2 hrbroot2 hraroot2
          (fun hc => hNE hc.symm) hreg2
          ⟨aset ((uf.find a).1.find b).1.parent (uf.find a).2
            ((uf.find a).1.find b).2, ((uf.find a).1.find b).1.rank⟩ rfl
          (fun y => le_refl _) (fun y _ => rfl) hAB (fun z hz _ => hz)
        have hmerge := link_sameRoot hwf2 hb2 ha2 (fun hc => hNE hc.symm)
          hiff'
        refine ⟨hwf', hboolgoal, ?_⟩
        intro x y
        have hthis := hmerge x y
        rw [hSRc x y, hSRc x b, hSRc a y, hSRc x a, hSRc b y] at hthis
        constructor
        · intro hA
          rcases hthis.mp hA with hS | hM | hR
          · exact Or.inl hS
          · exact Or.inr (Or.inr hM)
          · exact Or.inr (Or.inl hR)
        · intro hC
          apply hthis.mpr
          rcases hC with hS | hM | hR
          · exact Or.inl hS
          · exact Or.inr (Or.inr hM)
          · exact Or.inr (Or.inl hR)
      · rw [if_neg hAB]
        dsimp only
        have hq1 : ∀ y, rankOf ((uf.find a).1.find b).1 y ≤
            (aget (aset ((uf.find a).1.find b).1.rank (uf.find a).2
              ((aget ((uf.find a).1.find b).1.rank
                (uf.find a).2).getD 0 + 1)) y).getD 0 := by
          intro y
          by_cases hy : y = (uf.find a).2
          · rw [hy]
            show (aget ((uf.find a).1.find b).1.rank (uf.find a).2).getD 0 ≤ _
            rw [aget_aset_self]
            show _ ≤ (aget ((uf.find a).1.find b).1.rank
              (uf.find a).2).getD 0 + 1
            exact Nat.le_succ _
          · show (aget ((uf.find a).1.find b).1.rank y).getD 0 ≤ _
            rw [aget_aset_ne _ _ hy]
        have hq2 : ∀ y, y ≠ (uf.find a).2 →
            (aget (aset ((uf.find a).1.find b).1.rank (uf.find a).2
              ((aget ((uf.find a).1.find b).1.rank
                (uf.find a).2).getD 0 + 1)) y).getD 0 =
            rankOf ((uf.find a).1.find b).1 y := by
          intro y hy
          show _ = (aget ((uf.find a).1.find b).1.rank y).getD 0
          rw [aget_aset_ne _ _ hy]
        have hq3 : (aget (aset ((uf.find a).1.find b).1.rank (uf.find a).2
              ((aget ((uf.find a).1.find b).1.rank
                (uf.find a).2).getD 0 + 1)) ((uf.find a).1.find b).2).getD 0 <
            (aget (aset ((uf.find a).1.find b).1.rank (uf.find a).2
              ((aget ((uf.find a).1.find b).1.rank
                (uf.find a).2).getD 0 + 1)) (uf.find a).2).getD 0 := by
          rw [aget_aset_ne _ _ (fun hc : ((uf.find a).1.find b).2 =
            (uf.find a).2 => hNE hc.symm), aget_aset_self]
          show (aget ((uf.find a).1.find b).1.rank
            ((uf.find a).1.find b).2).getD 0 <
            (aget ((uf.find a).1.find b).1.rank (uf.find a).2).getD 0 + 1
          omega
        have hq5 : ∀ z, aget ((uf.find a).1.find b).1.rank z = none →
            z ≠ (uf.find a).2 →
            aget (aset ((uf.find a).1.find b).1.rank (uf.find a).2
              ((aget ((uf.find a).1.find b).1.rank
                (uf.find a).2).getD 0 + 1)) z = none := by
          intro z hz hzra
          rw [aget_aset_ne _ _ hzra]
          exact hz
        obtain ⟨hwf', hiff'⟩ := link_spec hwf2 hraroot2 hrbroot2
          hNE hrareg2
          ⟨aset ((uf.find a).1.find b).1.parent ((uf.find a).1.find b).2
            (uf.find a).2,
           aset ((uf.find a).1.find b).1.rank (uf.find a).2
            ((aget ((uf.find a).1.find b).1.rank (uf.find a).2).getD 0 + 1)⟩
          rfl hq1 hq2 hq3 hq5
        have hmerge := link_sameRoot hwf2 ha2 hb2 hNE hiff'
        refine ⟨hwf', hboolgoal, ?_⟩
        intro x y
        have hthis := hmerge x y
        rw [hSRc x y, hSRc x a, hSRc b y, hSRc x b, hSRc a y] at hthis
        exact hthis

theorem init_pred : ∀ (l : List String) (uf : UF),
    ((uf.parent.map Prod.fst).Nodup ∧ (∀ x, parentOf uf x = x) ∧
      (∀ z, aget uf.parent z = none → aget uf.rank z = none)) →
    ((((l.foldl
        (fun uf nd => ⟨aset uf.parent nd nd, aset uf.rank nd 0⟩)
        uf) : UF).parent.map Prod.fst).Nodup ∧
      (∀ x, parentOf (l.foldl
        (fun uf nd => ⟨aset uf.parent nd nd, aset uf.rank nd 0⟩) uf) x = x) ∧
      (∀ z, aget ((l.foldl
        (fun uf nd => ⟨aset uf.parent nd nd, aset uf.rank nd 0⟩)
          uf) : UF).parent z = none →
        aget ((l.foldl
        (fun uf nd => ⟨aset uf.parent nd nd, aset uf.rank nd 0⟩)
          uf) : UF).rank z = none)) := by
  intro l
  induction l with
  | nil => intro uf h; exact h
  | cons nd t ih =>
    intro uf h
    obtain ⟨h1, h2, h3⟩ := h
    simp only [List.foldl_cons]
    apply ih
    refine ⟨nodup_aset nd nd h1, ?_, ?_⟩
    · intro x
      by_cases hx : x = nd
      · unfold parentOf
        rw [hx]
        show (aget (aset uf.parent nd nd) nd).getD nd = nd
        rw [aget_aset_self]
        rfl
      · unfold parentOf
        show (aget (aset uf.parent nd nd) x).getD x = x
        rw [aget_aset_ne _ _ hx]
        exact h2 x
    · intro z hz
      show aget (aset uf.rank nd 0) z = none
      by_cases hx : z = nd
      · subst hx
        rw [show aget (aset uf.parent z z) z = some z from
          aget_aset_self _ _ _] at hz
        cases hz
      · rw [aget_aset_ne _ _ hx]
        apply h3
        rw [show aget (aset uf.parent nd nd) z = aget uf.parent z from
          aget_aset_ne _ _ hx] at hz
        exact hz

theorem init_spec (nodes : List String) :
    WF (UF.init nodes) ∧ (∀ x, parentOf (UF.init nodes) x = x) := by
  have h := init_pred nodes ⟨[], []⟩
    ⟨List.nodup_nil, fun x => rfl, fun z _ => rfl⟩
  obtain ⟨h1, h2, h3⟩ := h
  exact ⟨⟨h1, fun x hx => absurd (h2 x) hx, h3⟩, h2⟩

theorem IsRootOf_id {uf : UF} (hid : ∀ x, parentOf uf x = x)
    (x r : String) : IsRootOf uf x r ↔ r = x := by
  have hit : ∀ k y, iterP uf k y = y := by
    intro k
    induction k with
    | zero => intro y; rfl
    | succ m ih =>
       intro y
       rw [iterP_succ, hid]
       exact ih y
  constructor
  · rintro ⟨k, hk, _⟩
    rw [hit k x] at hk
    exact hk.symm
  · intro he
    exact ⟨0, he.symm, by rw [he]; exact hid x⟩

/-- A `union`/`find` call sequence (`Sum.inl x` a find, `Sum.inr (a, b)` a
union), applied in order. -/
def applyOp (uf : UF) : String ⊕ String × String → UF
  | Sum.inl x => (uf.find x).1
  | Sum.inr ab => (uf.union ab.1 ab.2).1

/-- Run a call sequence from a state. -/
def execOps (uf : UF) (ops : List (String ⊕ String × String)) : UF :=
  ops.foldl applyOp uf

/-- The argument pairs of the union calls of a sequence. -/
def unionPairs (ops : List (String ⊕ String × String)) :
    List (String × String) :=
  ops.filterMap fun o =>
    match o with
    | Sum.inl _ => none
    | Sum.inr ab => some ab

/-- `a` and `b` have been connected by the union calls of the sequence:
the equivalence closure of the union pairs. -/
inductive Conn (ops : List (String ⊕ String × String)) :
    String → String → Prop where
  | rel : ∀ a b, (a, b) ∈ unionPairs ops → Conn ops a b
  | refl : ∀ a, Conn ops a a
  | symm : ∀ {a b}, Conn ops a b → Conn ops b a
  | trans : ∀ {a b c}, Conn ops a b → Conn ops b c → Conn ops a c

theorem conn_mono {ops ops' : List (String ⊕ String × String)}
    (hsub : ∀ p ∈ unionPairs ops, p ∈ unionPairs ops') {x y : String}
    (h : Conn ops x y) : Conn ops' x y := by
  induction h with
  | rel a b hab => exact Conn.rel a b (hsub _ hab)
  | refl a => exact Conn.refl a
  | symm _ ih => exact Conn.symm ih
  | trans _ _ ih1 ih2 => exact Conn.trans ih1 ih2

theorem unionPairs_snoc_find (ops : List (String ⊕ String × String))
    (x : String) : unionPairs (ops ++ [Sum.inl x]) = unionPairs ops := by
  unfold unionPairs
  rw [List.filterMap_append]
  simp

theorem unionPairs_snoc_union (ops : List (String ⊕ String × String))
    (a b : String) : unionPairs (ops ++ [Sum.inr (a, b)]) =
      unionPairs ops ++ [(a, b)] := by
  unfold unionPairs
  rw [List.filterMap_append]
  rfl

theorem conn_snoc_find (ops : List (String ⊕ String × String))
    (z x y : String) : Conn (ops ++ [Sum.inl z]) x y ↔ Conn ops x y := by
  constructor
  · intro h
    exact conn_mono (fun p hp => by
      rw [unionPairs_snoc_find] at hp; exact hp) h
  · intro h
    exact conn_mono (fun p hp => by
      rw [unionPairs_snoc_find]; exact hp) h

theorem conn_snoc_union (ops : List (String ⊕ String × String))
    (a b x y : String) : Conn (ops ++ [Sum.inr (a, b)]) x y ↔
      (Conn ops x y ∨ (Conn ops x a ∧ Conn ops b y) ∨
        (Conn ops x b ∧ Conn ops a y)) := by
  constructor
  · intro h
    induction h with
    | rel c d hcd =>
      rw [unionPairs_snoc_union] at hcd
      rcases List.mem_append.mp hcd with hold | hnew
      · exact Or.inl (Conn.rel c d hold)
      · have he : (c, d) = (a, b) := by simpa using hnew
        have hc : c = a := congrArg Prod.fst he
        have hd : d = b := congrArg Prod.snd he
        subst hc
        subst hd
        exact Or.inr (Or.inl ⟨Conn.refl c, Conn.refl d⟩)
    | refl c => exact Or.inl (Conn.refl c)
    | symm _ ih =>
      rcases ih with h1 | ⟨h1, h2⟩ | ⟨h1, h2⟩
      · exact Or.inl (Conn.symm h1)
      · exact Or.inr (Or.inr ⟨Conn.symm h2, Conn.symm h1⟩)
      · exact Or.inr (Or.inl ⟨Conn.symm h2, Conn.symm h1⟩)
    | trans _ _ ih1 ih2 =>
      rcases ih1 with hxz | ⟨hxa, hbz⟩ | ⟨hxb, haz⟩ <;>
        rcases ih2 with hzy | ⟨hza, hby⟩ | ⟨hzb, hay⟩
      · exact Or.inl (Conn.trans hxz hzy)
      · exact Or.inr (Or.inl ⟨Conn.trans hxz hza, hby⟩)
      · exact Or.inr (Or.inr ⟨Conn.trans hxz hzb, hay⟩)
      · exact Or.inr (Or.inl ⟨hxa, Conn.trans hbz hzy⟩)
      · exact Or.inl (Conn.trans hxa (Conn.trans (Conn.symm hza)
          (Conn.trans (Conn.symm hbz) hby)))
      · exact Or.inl (Conn.trans hxa hay)
      · exact Or.inr (Or.inr ⟨hxb, Conn.trans haz hzy⟩)
      · exact Or.inl (Conn.trans hxb hby)
      · exact Or.inl (Conn.trans hxb (Conn.trans (Conn.symm hzb)
          (Conn.trans (Conn.symm haz) hay)))
  · rintro (h1 | ⟨h1, h2⟩ | ⟨h1, h2⟩)
    · exact conn_mono (fun p hp => by
        rw [unionPairs_snoc_union]
        exact List.mem_append_left _ hp) h1
    · have hsub : ∀ p ∈ unionPairs ops,
          p ∈ unionPairs (ops ++ [Sum.inr (a, b)]) := fun p hp => by
        rw [unionPairs_snoc_union]
        exact List.mem_append_left _ hp
      have hab : Conn (ops ++ [Sum.inr (a, b)]) a b :=
        Conn.rel a b (by rw [unionPairs_snoc_union]; simp)
      exact Conn.trans (conn_mono hsub h1)
        (Conn.trans hab (conn_mono hsub h2))
    · have hsub : ∀ p ∈ unionPairs ops,
          p ∈ unionPairs (ops ++ [Sum.inr (a, b)]) := fun p hp => by
        rw [unionPairs_snoc_union]
        exact List.mem_append_left _ hp
      have hab : Conn (ops ++ [Sum.inr (a, b)]) a b :=
        Conn.rel a b (by rw [unionPairs_snoc_union]; simp)
      exact Conn.trans (conn_mono hsub h1)
        (Conn.trans (Conn.symm hab) (conn_mono hsub h2))

theorem conn_nil {x y : String} (h : Conn [] x y) : x = y := by
  induction h with
  | rel a b hab => cases hab
  | refl a => rfl
  | symm _ ih => exact ih.symm
  | trans _ _ ih1 ih2 => exact ih1.trans ih2

/-- The running invariant: the state is well-formed and its classes are
exactly the connectivity of the union calls made so far. -/
theorem exec_inv (nodes : List String)
    (ops : List (String ⊕ String × String)) :
    WF (execOps (UF.init nodes) ops) ∧
    (∀ x y, SameRoot (execOps (UF.init nodes) ops) x y ↔ Conn ops x y) := by
  induction ops using List.reverseRecOn with
  | nil =>
    obtain ⟨hwf, hid⟩ := init_spec nodes
    refine ⟨hwf, ?_⟩
    intro x y
    constructor
    · rintro ⟨r, h1, h2⟩
      rw [show execOps (UF.init nodes) [] = UF.init nodes from rfl]
        at h1 h2
      rw [IsRootOf_id hid] at h1 h2
      rw [← h1, h2]
      exact Conn.refl y
    · intro h
      rw [conn_nil h]
      exact SameRoot_refl hwf y
  | append_singleton ops op ih =>
    obtain ⟨hwf, hsame⟩ := ih
    have hexec : execOps (UF.init nodes) (ops ++ [op]) =
        applyOp (execOps (UF.init nodes) ops) op := by
      unfold execOps
      rw [List.foldl_append]
      rfl
    cases op with
    | inl z =>
      obtain ⟨hwf', _, _, heq', _, _⟩ := find_spec hwf z
      rw [hexec]
      refine ⟨hwf', ?_⟩
      intro x y
      show SameRoot ((execOps (UF.init nodes) ops).find z).1 x y ↔ _
      rw [SameRoot_congr heq' x y, hsame x y, conn_snoc_find]
    | inr ab =>
      obtain ⟨c, d⟩ := ab
      obtain ⟨hwf', _, hmerge⟩ := union_spec hwf c d
      rw [hexec]
      refine ⟨hwf', ?_⟩
      intro x y
      show SameRoot ((execOps (UF.init nodes) ops).union c d).1 x y ↔ _
      rw [hmerge x y, hsame x y, hsame x c, hsame d y, hsame x d,
        hsame c y, ← conn_snoc_union ops c d x y]

end Kruskal

/-- **C6.**  For every node list and every sequence of `union`/`find`
calls (ids never pre-registered included — `find` lazily makes them their
own singleton): `find` terminates (any fuel beyond the registered-id
count gives the same result), `find(a)` and the following `find(b)`
return equal representatives exactly when `a` and `b` were connected by
the prior unions, `union(a,b)` returns `true` exactly when they were in
different components beforehand, `union(a,a)` always returns `false`,
and repeated `find` on the same id returns the same representative. -/
theorem claim_C6 (nodes : List String)
    (ops : List (String ⊕ String × String)) (a b x : String) :
    (∀ m, Kruskal.findAux
        ((Kruskal.execOps (Kruskal.UF.init nodes) ops).parent.length + 1 + m)
        (Kruskal.execOps (Kruskal.UF.init nodes) ops) x =
      (Kruskal.execOps (Kruskal.UF.init nodes) ops).find x) ∧
    (((Kruskal.execOps (Kruskal.UF.init nodes) ops).find a).2 =
        ((((Kruskal.execOps (Kruskal.UF.init nodes) ops).find a).1).find b).2
      ↔ Kruskal.Conn ops a b) ∧
    (((Kruskal.execOps (Kruskal.UF.init nodes) ops).union a b).2 = true ↔
      ¬ Kruskal.Conn ops a b) ∧
    ((Kruskal.execOps (Kruskal.UF.init nodes) ops).union a a).2 = false ∧
    ((((Kruskal.execOps (Kruskal.UF.init nodes) ops).find x).1).find x).2 =
      ((Kruskal.execOps (Kruskal.UF.init nodes) ops).find x).2 := by
  obtain ⟨hwf, hsame⟩ := Kruskal.exec_inv nodes ops
  refine ⟨?_, ?_, ?_, ?_, ?_⟩
  · intro m
    obtain ⟨k, hk, hroot⟩ := Kruskal.wf_reaches_root hwf x
    exact Kruskal.findAux_fuel k _ x _ _ (by omega) (by omega) hroot
  · obtain ⟨hwf1, hroota, _, heq1, _, _⟩ := Kruskal.find_spec hwf a
    obtain ⟨_, hrootb1, _, _, _, _⟩ := Kruskal.find_spec hwf1 b
    have hb_uf := (heq1 _ _).mp hrootb1
    constructor
    · intro he
      apply (hsame a b).mp
      refine ⟨_, hroota, ?_⟩
      rw [he]
      exact hb_uf
    · intro hc
      obtain ⟨r, h1, h2⟩ := (hsame a b).mpr hc
      rw [Kruskal.IsRootOf_unique hroota h1,
        Kruskal.IsRootOf_unique hb_uf h2]
  · obtain ⟨_, hbool, _⟩ := Kruskal.union_spec hwf a b
    exact hbool.trans (not_congr (hsame a b))
  · obtain ⟨_, hbool, _⟩ := Kruskal.union_spec hwf a a
    have hsr := Kruskal.SameRoot_refl hwf a
    cases hb2 : ((Kruskal.execOps (Kruskal.UF.init nodes) ops).union a a).2
    · rfl
    · rw [hb2] at hbool
      exact absurd hsr (hbool.mp rfl)
  · obtain ⟨hwf1, hroot1, _, heq1, _, _⟩ := Kruskal.find_spec hwf x
    obtain ⟨_, hroot2, _, _, _, _⟩ := Kruskal.find_spec hwf1 x
    have h2 := (heq1 _ _).mp hroot2
    exact Kruskal.IsRootOf_unique h2 hroot1

namespace Kruskal

variable {α : Type} [LinearOrderedCommRing α]

/-- The endpoint pairs of an edge list. -/
def pairsOf (l : List (Edge α)) : List (String × String) :=
  l.map fun e => (e.u, e.v)

/-- Total weight of an edge list. -/
def sumW (l : List (Edge α)) : α := (l.map fun e => e.weight).sum

/-- Connectivity generated by a list of endpoint pairs. -/
def PConn (l : List (String × String)) (x y : String) : Prop :=
  Conn (l.map Sum.inr) x y

/-- A pair list is independent (cycle-free in its order): no pair joins
two ids already connected by the earlier pairs. -/
def Indep (l : List (String × String)) : Prop :=
  ∀ l1 p l2, l = l1 ++ p :: l2 → ¬ PConn l1 p.1 p.2

theorem unionPairs_map_inr (l : List (String × String)) :
    unionPairs (l.map Sum.inr) = l := by
  induction l with
  | nil => rfl
  | cons p t ih =>
    show unionPairs (Sum.inr p :: t.map Sum.inr) = p :: t
    unfold unionPairs at ih ⊢
    simp only [List.filterMap_cons]
    rw [ih]

theorem pconn_of_mem {l : List (String × String)} {p : String × String}
    (h : p ∈ l) : PConn l p.1 p.2 :=
  Conn.rel p.1 p.2 (by rw [unionPairs_map_inr]; exact h)

theorem pconn_refl (l : List (String × String)) (x : String) :
    PConn l x x := Conn.refl x

theorem pconn_symm {l : List (String × String)} {x y : String}
    (h : PConn l x y) : PConn l y x := Conn.symm h

theorem pconn_trans {l : List (String × String)} {x y z : String}
    (h1 : PConn l x y) (h2 : PConn l y z) : PConn l x z := Conn.trans h1 h2

theorem pconn_mono {l l' : List (String × String)}
    (hsub : ∀ p ∈ l, p ∈ l') {x y : String} (h : PConn l x y) :
    PConn l' x y := by
  refine conn_mono ?_ h
  intro p hp
  rw [unionPairs_map_inr] at hp ⊢
  exact hsub p hp

theorem pconn_closure {l l' : List (String × String)}
    (hcl : ∀ p ∈ l', PConn l p.1 p.2) {x y : String}
    (h : PConn l' x y) : PConn l x y := by
  induction h with
  | rel a b hab =>
    rw [unionPairs_map_inr] at hab
    exact hcl (a, b) hab
  | refl a => exact pconn_refl l a
  | symm _ ih => exact pconn_symm ih
  | trans _ _ ih1 ih2 => exact pconn_trans ih1 ih2

theorem pconn_snoc (l : List (String × String)) (a b x y : String) :
    PConn (l ++ [(a, b)]) x y ↔
      (PConn l x y ∨ (PConn l x a ∧ PConn l b y) ∨
        (PConn l x b ∧ PConn l a y)) := by
  unfold PConn
  rw [List.map_append]
  exact conn_snoc_union (l.map Sum.inr) a b x y

theorem pconn_snoc_absorb {l : List (String × String)} {a b : String}
    (hab : PConn l a b) (x y : String) :
    PConn (l ++ [(a, b)]) x y ↔ PConn l x y := by
  rw [pconn_snoc]
  constructor
  · rintro (h | ⟨h1, h2⟩ | ⟨h1, h2⟩)
    · exact h
    · exact pconn_trans (pconn_trans h1 hab) h2
    · exact pconn_trans (pconn_trans h1 (pconn_symm hab)) h2
  · exact Or.inl

theorem indep_nil : Indep ([] : List (String × String)) := by
  intro l1 p l2 he
  exfalso
  cases l1 with
  | nil => cases he
  | cons q t => cases he

theorem indep_snoc {l : List (String × String)} {p : String × String}
    (h : Indep l) (hnc : ¬ PConn l p.1 p.2) : Indep (l ++ [p]) := by
  intro l1 q l2 he
  rcases List.eq_nil_or_concat l2 with rfl | ⟨l2', q', rfl⟩
  · have h2 : l1 ++ [q] = l ++ [p] := he.symm
    have hlen : l1.length = l.length := by
      have := congrArg List.length h2
      simp only [List.length_append, List.length_cons,
        List.length_nil] at this
      omega
    obtain ⟨he1, he2⟩ := List.append_inj h2 hlen
    have hq : q = p := by
      have := congrArg (fun t => List.head? t) he2
      simpa using this
    rw [he1, hq]
    exact hnc
  · have h2 : (l1 ++ q :: l2') ++ [q'] = l ++ [p] := by
      rw [he, List.concat_eq_append]
      simp
    have hlen : (l1 ++ q :: l2').length = l.length := by
      have := congrArg List.length h2
      simp only [List.length_append, List.length_cons,
        List.length_nil] at this
      simp only [List.length_append, List.length_cons]
      omega
    obtain ⟨he1, _⟩ := List.append_inj h2 hlen
    exact h l1 q l2' he1.symm

theorem indep_of_append_left {l1 l2 : List (String × String)}
    (h : Indep (l1 ++ l2)) : Indep l1 := by
  intro m1 p m2 he
  exact h m1 p (m2 ++ l2) (by rw [he]; simp)

theorem indep_take {l : List (String × String)} (h : Indep l) (n : ℕ) :
    Indep (l.take n) := by
  have h2 := @indep_of_append_left (l.take n) (l.drop n)
  rw [List.take_append_drop] at h2
  exact h2 h

/-- The representative returned by `find` (pure form). -/
def rootD (uf : UF) (x : String) : String := (uf.find x).2

theorem rootD_isRootOf {uf : UF} (h : WF uf) (x : String) :
    IsRootOf uf x (rootD uf x) := (find_spec h x).2.1

theorem sameRoot_rootD {uf : UF} (h : WF uf) (x : String) :
    SameRoot uf x (rootD uf x) := by
  obtain ⟨k, hk, hroot⟩ := rootD_isRootOf h x
  exact ⟨rootD uf x, ⟨k, hk, hroot⟩, IsRootOf_root hroot⟩

theorem rootD_eq_iff {uf : UF} (h : WF uf) (x y : String) :
    rootD uf x = rootD uf y ↔ SameRoot uf x y := by
  constructor
  · intro he
    refine ⟨rootD uf y, ?_, rootD_isRootOf h y⟩
    rw [← he]
    exact rootD_isRootOf h x
  · rintro ⟨r, h1, h2⟩
    rw [IsRootOf_unique (rootD_isRootOf h x) h1,
      IsRootOf_unique (rootD_isRootOf h y) h2]

/-- Number of equivalence classes meeting a finite id set. -/
def classesCard (N : Finset String) (uf : UF) : ℕ :=
  (N.image (rootD uf)).card

theorem classesCard_mono {uf uf' : UF} (h : WF uf) (h' : WF uf')
    (himp : ∀ x y, SameRoot uf x y → SameRoot uf' x y)
    (N : Finset String) : classesCard N uf' ≤ classesCard N uf := by
  unfold classesCard
  have hfact : ∀ x, rootD uf' (rootD uf x) = rootD uf' x := by
    intro x
    rw [rootD_eq_iff h']
    exact SameRoot_symm (himp _ _ (sameRoot_rootD h x))
  have himg : N.image (rootD uf') = (N.image (rootD uf)).image (rootD uf') := by
    rw [Finset.image_image]
    apply Finset.image_congr
    intro x _
    exact (hfact x).symm
  rw [himg]
  exact Finset.card_image_le

theorem classesCard_congr {uf uf' : UF} (h : WF uf) (h' : WF uf')
    (hiff : ∀ x y, SameRoot uf x y ↔ SameRoot uf' x y)
    (N : Finset String) : classesCard N uf = classesCard N uf' :=
  le_antisymm
    (classesCard_mono h' h (fun x y hh => (hiff x y).mpr hh) N)
    (classesCard_mono h h' (fun x y hh => (hiff x y).mp hh) N)

theorem rootD_fixed {uf : UF} (h : WF uf) {x : String}
    (hroot : isRoot uf x) : rootD uf x = x :=
  IsRootOf_unique (rootD_isRootOf h x) (IsRootOf_root hroot)

/-- A merging `union` of two ids of `N` reduces the class count by
exactly one. -/
theorem classesCard_union_merge {uf : UF} (h : WF uf) {a b : String}
    (hns : ¬ SameRoot uf a b) {N : Finset String} (ha : a ∈ N)
    (hb : b ∈ N) :
    classesCard N (uf.union a b).1 + 1 = classesCard N uf := by
  obtain ⟨hwf', _, hmerge⟩ := union_spec h a b
  have hfact : ∀ x, rootD (uf.union a b).1 (rootD uf x) =
      rootD (uf.union a b).1 x := by
    intro x
    rw [rootD_eq_iff hwf']
    refine SameRoot_symm ?_
    apply (hmerge _ _).mpr
    exact Or.inl (sameRoot_rootD h x)
  have himg : N.image (rootD (uf.union a b).1) =
      (N.image (rootD uf)).image (rootD (uf.union a b).1) := by
    rw [Finset.image_image]
    apply Finset.image_congr
    intro x _
    exact (hfact x).symm
  unfold classesCard
  rw [himg]
  have hraC : rootD uf a ∈ N.image (rootD uf) :=
    Finset.mem_image_of_mem _ ha
  have hrbC : rootD uf b ∈ N.image (rootD uf) :=
    Finset.mem_image_of_mem _ hb
  have hrane : rootD uf a ≠ rootD uf b := by
    intro hc
    exact hns ((rootD_eq_iff h a b).mp hc)
  -- roots of uf are fixed points of rootD uf
  have hCfix : ∀ r ∈ N.image (rootD uf), rootD uf r = r := by
    intro r hr
    obtain ⟨x, _, hx⟩ := Finset.mem_image.mp hr
    obtain ⟨k, hk, hroot⟩ := rootD_isRootOf h x
    rw [← hx]
    exact rootD_fixed h (by rw [hx]; rw [← hx]; exact hroot)
  -- the new representative map identifies exactly the two old roots
  have hkey : ∀ r ∈ N.image (rootD uf), ∀ s ∈ N.image (rootD uf),
      (rootD (uf.union a b).1 r = rootD (uf.union a b).1 s ↔
        (r = s ∨ (r = rootD uf a ∧ s = rootD uf b) ∨
          (r = rootD uf b ∧ s = rootD uf a))) := by
    intro r hr s hs
    rw [rootD_eq_iff hwf', hmerge r s]
    have hsr_iff : ∀ u v, u ∈ N.image (rootD uf) → v ∈ N.image (rootD uf) →
        (SameRoot uf u v ↔ u = v) := by
      intro u v hu hv
      constructor
      · intro huv
        have := (rootD_eq_iff h u v).mpr huv
        rw [hCfix u hu, hCfix v hv] at this
        exact this
      · intro he
        rw [he]
        exact SameRoot_refl h v
    constructor
    · rintro (h1 | ⟨h1, h2⟩ | ⟨h1, h2⟩)
      · exact Or.inl ((hsr_iff r s hr hs).mp h1)
      · refine Or.inr (Or.inl ⟨?_, ?_⟩)
        · have := (rootD_eq_iff h r a).mpr h1
          rw [hCfix r hr] at this
          exact this
        · have := (rootD_eq_iff h b s).mpr h2
          rw [hCfix s hs] at this
          exact this.symm
      · refine Or.inr (Or.inr ⟨?_, ?_⟩)
        · have := (rootD_eq_iff h r b).mpr h1
          rw [hCfix r hr] at this
          exact this
        · have := (rootD_eq_iff h a s).mpr h2
          rw [hCfix s hs] at this
          exact this.symm
    · rintro (h1 | ⟨h1, h2⟩ | ⟨h1, h2⟩)
      · rw [h1]
        exact Or.inl (SameRoot_refl h s)
      · refine Or.inr (Or.inl ⟨?_, ?_⟩)
        · rw [h1]
          exact SameRoot_symm (sameRoot_rootD h a)
        · rw [h2]
          exact sameRoot_rootD h b
      · refine Or.inr (Or.inr ⟨?_, ?_⟩)
        · rw [h1]
          exact SameRoot_symm (sameRoot_rootD h b)
        · rw [h2]
          exact sameRoot_rootD h a
  -- split off the root of b and show the map is injective on the rest
  have hset : (N.image (rootD uf)).image (rootD (uf.union a b).1) =
      ((N.image (rootD uf)).erase (rootD uf b)).image
        (rootD (uf.union a b).1) := by
    apply le_antisymm
    · intro c hc
      obtain ⟨r, hr, hrc⟩ := Finset.mem_image.mp hc
      by_cases hrb : r = rootD uf b
      · apply Finset.mem_image.mpr
        refine ⟨rootD uf a, Finset.mem_erase.mpr ⟨hrane, hraC⟩, ?_⟩
        rw [← hrc, hrb]
        exact ((hkey _ hraC _ hrbC).mpr
          (Or.inr (Or.inl ⟨rfl, rfl⟩))).symm ▸ rfl
      · exact Finset.mem_image.mpr
          ⟨r, Finset.mem_erase.mpr ⟨hrb, hr⟩, hrc⟩
    · intro c hc
      obtain ⟨r, hr, hrc⟩ := Finset.mem_image.mp hc
      exact Finset.mem_image.mpr ⟨r, Finset.mem_of_mem_erase hr, hrc⟩
  rw [hset]
  have hinj : Set.InjOn (rootD (uf.union a b).1)
      ((N.image (rootD uf)).erase (rootD uf b)) := by
    intro r hr s hs hrs
    have hr' := Finset.mem_erase.mp hr
    have hs' := Finset.mem_erase.mp hs
    rcases (hkey r hr'.2 s hs'.2).mp hrs with h1 | ⟨h1, h2⟩ | ⟨h1, h2⟩
    · exact h1
    · exact absurd h2 hs'.1
    · exact absurd h1 hr'.1
  rw [Finset.card_image_of_injOn hinj,
    Finset.card_erase_of_mem hrbC]
  have hpos : 0 < (N.image (rootD uf)).card :=
    Finset.card_pos.mpr ⟨rootD uf b, hrbC⟩
  omega

/-- A `union` of two already-connected ids leaves the classes unchanged. -/
theorem classesCard_union_noop {uf : UF} (h : WF uf) {a b : String}
    (hs : SameRoot uf a b) (N : Finset String) :
    classesCard N (uf.union a b).1 = classesCard N uf := by
  obtain ⟨hwf', _, hmerge⟩ := union_spec h a b
  refine classesCard_congr hwf' h ?_ N
  intro x y
  rw [hmerge x y]
  constructor
  · rintro (h1 | ⟨h1, h2⟩ | ⟨h1, h2⟩)
    · exact h1
    · exact SameRoot_trans (SameRoot_trans h1 hs) h2
    · exact SameRoot_trans (SameRoot_trans h1 (SameRoot_symm hs)) h2
  · exact Or.inl

theorem classesCard_init {nodes : List String} (hnd : nodes.Nodup) :
    classesCard nodes.toFinset (UF.init nodes) = nodes.length := by
  obtain ⟨hwf, hid⟩ := init_spec nodes
  have hfix : ∀ x, rootD (UF.init nodes) x = x := by
    intro x
    exact (IsRootOf_id hid x _).mp (rootD_isRootOf hwf x)
  unfold classesCard
  rw [show nodes.toFinset.image (rootD (UF.init nodes)) =
      nodes.toFinset.image id from
    Finset.image_congr fun x _ => hfix x, Finset.image_id,
    List.toFinset_card_of_nodup hnd]

/-- Number of connectivity classes of a pair list, restricted to the
node set. -/
def pcc (nodes : List String) (l : List (String × String)) : ℕ :=
  classesCard nodes.toFinset (execOps (UF.init nodes) (l.map Sum.inr))

theorem exec_pairs_spec (nodes : List String)
    (l : List (String × String)) :
    WF (execOps (UF.init nodes) (l.map Sum.inr)) ∧
    (∀ x y, SameRoot (execOps (UF.init nodes) (l.map Sum.inr)) x y ↔
      PConn l x y) :=
  exec_inv nodes (l.map Sum.inr)

theorem pcc_of_state {nodes : List String} {uf : UF}
    {l : List (String × String)} (h : WF uf)
    (hpart : ∀ x y, SameRoot uf x y ↔ PConn l x y) :
    classesCard nodes.toFinset uf = pcc nodes l := by
  obtain ⟨hwf2, hpart2⟩ := exec_pairs_spec nodes l
  exact classesCard_congr h hwf2
    (fun x y => (hpart x y).trans (hpart2 x y).symm) nodes.toFinset

theorem pcc_mono {nodes : List String} {l l' : List (String × String)}
    (himp : ∀ x y, PConn l x y → PConn l' x y) :
    pcc nodes l' ≤ pcc nodes l := by
  obtain ⟨hwf1, hpart1⟩ := exec_pairs_spec nodes l
  obtain ⟨hwf2, hpart2⟩ := exec_pairs_spec nodes l'
  exact classesCard_mono hwf1 hwf2
    (fun x y hh => (hpart2 x y).mpr (himp x y ((hpart1 x y).mp hh)))
    nodes.toFinset

theorem pcc_congr {nodes : List String} {l l' : List (String × String)}
    (hiff : ∀ x y, PConn l x y ↔ PConn l' x y) :
    pcc nodes l = pcc nodes l' :=
  le_antisymm (pcc_mono fun x y hh => (hiff x y).mpr hh)
    (pcc_mono fun x y hh => (hiff x y).mp hh)

/-- Processing an independent pair list through merging unions drops the
class count by exactly its length. -/
theorem indep_fold_count (nodes : List String) :
    ∀ (l H : List (String × String)) (uf : UF),
    WF uf → (∀ x y, SameRoot uf x y ↔ PConn H x y) →
    (∀ p ∈ l, p.1 ∈ nodes.toFinset ∧ p.2 ∈ nodes.toFinset) →
    Indep (H ++ l) →
    pcc nodes (H ++ l) + l.length = classesCard nodes.toFinset uf := by
  intro l
  induction l with
  | nil =>
    intro H uf hwf hpart _ _
    rw [List.append_nil, List.length_nil, Nat.add_zero]
    exact (pcc_of_state hwf hpart).symm
  | cons p rest ih =>
    intro H uf hwf hpart hends hind
    obtain ⟨a, b⟩ := p
    have hnc : ¬ PConn H a b := hind H (a, b) rest rfl
    have hns : ¬ SameRoot uf a b := fun hc => hnc ((hpart _ _).mp hc)
    obtain ⟨hwf', hbool, hmerge⟩ := union_spec hwf a b
    have hpart' : ∀ x y, SameRoot (uf.union a b).1 x y ↔
        PConn (H ++ [(a, b)]) x y := by
      intro x y
      rw [hmerge x y, pconn_snoc H a b x y]
      rw [hpart x y, hpart x a, hpart b y, hpart x b, hpart a y]
    have hcount := classesCard_union_merge hwf hns
      (hends (a, b) (List.mem_cons_self _ rest)).1
      (hends (a, b) (List.mem_cons_self _ rest)).2
    have hind' : Indep ((H ++ [(a, b)]) ++ rest) := by
      rw [List.append_assoc, List.singleton_append]
      exact hind
    have hih := ih (H ++ [(a, b)]) (uf.union a b).1 hwf' hpart'
      (fun q hq => hends q (List.mem_cons_of_mem _ hq)) hind'
    rw [show (H ++ [(a, b)]) ++ rest = H ++ (a, b) :: rest by simp] at hih
    rw [List.length_cons]
    omega

theorem indep_count {nodes : List String} (hnd : nodes.Nodup)
    {l : List (String × String)}
    (hends : ∀ p ∈ l, p.1 ∈ nodes.toFinset ∧ p.2 ∈ nodes.toFinset)
    (hind : Indep l) : pcc nodes l + l.length = nodes.length := by
  obtain ⟨hwf0, hpart0⟩ := exec_pairs_spec nodes []
  have h := indep_fold_count nodes l [] (execOps (UF.init nodes) [])
    hwf0 hpart0 hends (by rw [List.nil_append]; exact hind)
  rw [List.nil_append] at h
  rw [h]
  show classesCard nodes.toFinset (UF.init nodes) = nodes.length
  exact classesCard_init hnd

/-- The graphic-matroid exchange property, via class counting: a larger
independent set has a pair joining two components of a smaller one. -/
theorem exchange {nodes : List String} (hnd : nodes.Nodup)
    {A B : List (String × String)}
    (hAend : ∀ p ∈ A, p.1 ∈ nodes.toFinset ∧ p.2 ∈ nodes.toFinset)
    (hBend : ∀ p ∈ B, p.1 ∈ nodes.toFinset ∧ p.2 ∈ nodes.toFinset)
    (hA : Indep A) (hB : Indep B) (hlt : A.length < B.length) :
    ∃ p ∈ B, ¬ PConn A p.1 p.2 := by
  by_contra hc
  push_neg at hc
  have hsub : ∀ x y, PConn B x y → PConn A x y := fun x y =>
    pconn_closure hc
  have h1 := indep_count hnd hAend hA
  have h2 := indep_count hnd hBend hB
  have h3 : pcc nodes A ≤ pcc nodes B := pcc_mono hsub
  omega

/-- The step function of `kruskal`'s accumulating fold, named for the
proofs. -/
def kstep (st : UF × List (Edge α) × α) (e : Edge α) :
    UF × List (Edge α) × α :=
  let (uf, mst, tw) := st
  let r := uf.union e.u e.v
  if r.2 then (r.1, mst ++ [e], tw + e.weight) else (r.1, mst, tw)

theorem kruskal_eq (nodes : List String) (edges : List (Edge α)) :
    kruskal nodes edges =
      (((edges.insertionSort fun a b => a.weight ≤ b.weight).foldl kstep
        (UF.init nodes, [], 0)).2.1,
       ((edges.insertionSort fun a b => a.weight ≤ b.weight).foldl kstep
        (UF.init nodes, [], 0)).2.2) := rfl

theorem kstep_accept {uf : UF} {m : List (Edge α)} {t : α} {e : Edge α}
    (h : (uf.union e.u e.v).2 = true) :
    kstep (uf, m, t) e = ((uf.union e.u e.v).1, m ++ [e], t + e.weight) := by
  unfold kstep
  dsimp only
  rw [if_pos h]

theorem kstep_reject {uf : UF} {m : List (Edge α)} {t : α} {e : Edge α}
    (h : (uf.union e.u e.v).2 = false) :
    kstep (uf, m, t) e = ((uf.union e.u e.v).1, m, t) := by
  unfold kstep
  dsimp only
  rw [if_neg (by rw [h]; exact Bool.false_ne_true)]

theorem sameRoot_union_noop {uf : UF} (h : WF uf) {a b : String}
    (hs : SameRoot uf a b) (x y : String) :
    SameRoot (uf.union a b).1 x y ↔ SameRoot uf x y := by
  obtain ⟨_, _, hmerge⟩ := union_spec h a b
  rw [hmerge x y]
  constructor
  · rintro (h1 | ⟨h1, h2⟩ | ⟨h1, h2⟩)
    · exact h1
    · exact SameRoot_trans (SameRoot_trans h1 hs) h2
    · exact SameRoot_trans (SameRoot_trans h1 (SameRoot_symm hs)) h2
  · exact Or.inl

theorem union_false_sameRoot {uf : UF} (h : WF uf) {a b : String}
    (hb : (uf.union a b).2 = false) : SameRoot uf a b := by
  obtain ⟨_, hbool, _⟩ := union_spec h a b
  by_contra hc
  rw [hbool.mpr hc] at hb
  cases hb

theorem pconn_insert_absorb {L L' : List (String × String)} {a b : String}
    (hab : PConn L a b) (x y : String) :
    PConn (L ++ (a, b) :: L') x y ↔ PConn (L ++ L') x y := by
  constructor
  · refine pconn_closure ?_
    intro p hp
    rcases List.mem_append.mp hp with h1 | h2
    · exact pconn_of_mem (List.mem_append_left _ h1)
    · rcases List.mem_cons.mp h2 with h3 | h4
      · subst h3
        exact pconn_mono (fun q hq => List.mem_append_left _ hq) hab
      · exact pconn_of_mem (List.mem_append_right _ h4)
  · intro hxy
    refine pconn_mono ?_ hxy
    intro q hq
    rcases List.mem_append.mp hq with h1 | h2
    · exact List.mem_append_left _ h1
    · exact List.mem_append_right _ (List.mem_cons_of_mem _ h2)

/-- The full invariant of `kruskal`'s fold over any edge prefix. -/
theorem kfold_inv (nodes : List String) :
    ∀ (l : List (Edge α)) (uf : UF) (m : List (Edge α)) (t : α),
    WF uf →
    (∀ x y, SameRoot uf x y ↔ PConn (pairsOf m) x y) →
    Indep (pairsOf m) →
    t = sumW m →
    (∀ e ∈ l, e.u ∈ nodes.toFinset ∧ e.v ∈ nodes.toFinset) →
    WF (l.foldl kstep (uf, m, t)).1 ∧
    (∀ x y, SameRoot (l.foldl kstep (uf, m, t)).1 x y ↔
      PConn (pairsOf (l.foldl kstep (uf, m, t)).2.1) x y) ∧
    Indep (pairsOf (l.foldl kstep (uf, m, t)).2.1) ∧
    (l.foldl kstep (uf, m, t)).2.2 = sumW (l.foldl kstep (uf, m, t)).2.1 ∧
    (∀ x y, PConn (pairsOf (l.foldl kstep (uf, m, t)).2.1) x y ↔
      PConn (pairsOf m ++ pairsOf l) x y) ∧
    (∃ k, (l.foldl kstep (uf, m, t)).2.1 = m ++ k ∧ k.Sublist l) ∧
    classesCard nodes.toFinset (l.foldl kstep (uf, m, t)).1 +
      (l.foldl kstep (uf, m, t)).2.1.length =
      classesCard nodes.toFinset uf + m.length := by
  intro l
  induction l with
  | nil =>
    intro uf m t hwf hpart hind ht _
    refine ⟨hwf, hpart, hind, ht, ?_, ?_, rfl⟩
    · intro x y
      show PConn (pairsOf m) x y ↔ PConn (pairsOf m ++ pairsOf
        ([] : List (Edge α))) x y
      rw [show pairsOf ([] : List (Edge α)) = [] from rfl, List.append_nil]
    · exact ⟨[], (List.append_nil m).symm, List.nil_sublist []⟩
  | cons e rest ih =>
    intro uf m t hwf hpart hind ht hends
    rw [List.foldl_cons]
    cases hb : (uf.union e.u e.v).2
    · have hsr : SameRoot uf e.u e.v := union_false_sameRoot hwf hb
      rw [kstep_reject hb]
      obtain ⟨hwf', _, _⟩ := union_spec hwf e.u e.v
      have hpart' : ∀ x y, SameRoot (uf.union e.u e.v).1 x y ↔
          PConn (pairsOf m) x y := fun x y =>
        (sameRoot_union_noop hwf hsr x y).trans (hpart x y)
      obtain ⟨hW, hP, hI, hT, hC, hK, hN⟩ :=
        ih (uf.union e.u e.v).1 m t hwf' hpart' hind ht
          (fun q hq => hends q (List.mem_cons_of_mem _ hq))
      refine ⟨hW, hP, hI, hT, ?_, ?_, ?_⟩
      · intro x y
        rw [hC x y]
        have habs : PConn (pairsOf m ++ (e.u, e.v) :: pairsOf rest) x y ↔
            PConn (pairsOf m ++ pairsOf rest) x y :=
          pconn_insert_absorb ((hpart e.u e.v).mp hsr) x y
        rw [show pairsOf (e :: rest) = (e.u, e.v) :: pairsOf rest from rfl]
        exact habs.symm
      · obtain ⟨k, hk1, hk2⟩ := hK
        exact ⟨k, hk1, List.Sublist.cons e hk2⟩
      · have hnoop := classesCard_union_noop hwf hsr nodes.toFinset
        omega
    · have hns : ¬ SameRoot uf e.u e.v := by
        obtain ⟨_, hbool, _⟩ := union_spec hwf e.u e.v
        exact hbool.mp hb
      rw [kstep_accept hb]
      obtain ⟨hwf', _, hmerge⟩ := union_spec hwf e.u e.v
      have hnc : ¬ PConn (pairsOf m) e.u e.v := fun hc =>
        hns ((hpart _ _).mpr hc)
      have hpe : pairsOf (m ++ [e]) = pairsOf m ++ [(e.u, e.v)] := by
        simp [pairsOf]
      have hpart' : ∀ x y, SameRoot (uf.union e.u e.v).1 x y ↔
          PConn (pairsOf (m ++ [e])) x y := by
        intro x y
        rw [hpe, hmerge x y, pconn_snoc (pairsOf m) e.u e.v x y,
          hpart x y, hpart x e.u, hpart e.v y, hpart x e.v, hpart e.u y]
      have hind' : Indep (pairsOf (m ++ [e])) := by
        rw [hpe]
        exact indep_snoc hind hnc
      have ht' : t + e.weight = sumW (m ++ [e]) := by
        rw [ht]
        simp [sumW]
      obtain ⟨hW, hP, hI, hT, hC, hK, hN⟩ :=
        ih (uf.union e.u e.v).1 (m ++ [e]) (t + e.weight) hwf' hpart' hind'
          ht' (fun q hq => hends q (List.mem_cons_of_mem _ hq))
      refine ⟨hW, hP, hI, hT, ?_, ?_, ?_⟩
      · intro x y
        rw [hC x y, hpe,
          show pairsOf (e :: rest) = (e.u, e.v) :: pairsOf rest from rfl,
          List.append_assoc, List.singleton_append]
      · obtain ⟨k, hk1, hk2⟩ := hK
        refine ⟨e :: k, ?_, List.Sublist.cons₂ e hk2⟩
        rw [hk1]
        simp
      · have hc2 := classesCard_union_merge hwf hns
          (hends e (List.mem_cons_self _ _)).1
          (hends e (List.mem_cons_self _ _)).2
        have hlen : (m ++ [e]).length = m.length + 1 := by simp
        omega

/-- Processing any pair list can drop the class count by at most its
length. -/
theorem count_le (nodes : List String) :
    ∀ (l H : List (String × String)) (uf : UF),
    WF uf → (∀ x y, SameRoot uf x y ↔ PConn H x y) →
    (∀ p ∈ l, p.1 ∈ nodes.toFinset ∧ p.2 ∈ nodes.toFinset) →
    classesCard nodes.toFinset uf ≤ pcc nodes (H ++ l) + l.length := by
  intro l
  induction l with
  | nil =>
    intro H uf hwf hpart _
    rw [List.append_nil, List.length_nil, Nat.add_zero]
    exact le_of_eq (pcc_of_state hwf hpart)
  | cons p rest ih =>
    intro H uf hwf hpart hends
    obtain ⟨a, b⟩ := p
    obtain ⟨hwf', hbool, hmerge⟩ := union_spec hwf a b
    by_cases hs : SameRoot uf a b
    · have hPab : PConn H a b := (hpart a b).mp hs
      have hpart' : ∀ x y, SameRoot uf x y ↔ PConn (H ++ [(a, b)]) x y := by
        intro x y
        rw [hpart x y, pconn_snoc_absorb hPab x y]
      have hih := ih (H ++ [(a, b)]) uf hwf hpart'
        (fun q hq => hends q (List.mem_cons_of_mem _ hq))
      rw [show (H ++ [(a, b)]) ++ rest = H ++ (a, b) :: rest by simp] at hih
      rw [List.length_cons]
      omega
    · have hpart' : ∀ x y, SameRoot (uf.union a b).1 x y ↔
          PConn (H ++ [(a, b)]) x y := by
        intro x y
        rw [hmerge x y, pconn_snoc H a b x y]
        rw [hpart x y, hpart x a, hpart b y, hpart x b, hpart a y]
      have hcount := classesCard_union_merge hwf hs
        (hends (a, b) (List.mem_cons_self _ rest)).1
        (hends (a, b) (List.mem_cons_self _ rest)).2
      have hih := ih (H ++ [(a, b)]) (uf.union a b).1 hwf' hpart'
        (fun q hq => hends q (List.mem_cons_of_mem _ hq))
      rw [show (H ++ [(a, b)]) ++ rest = H ++ (a, b) :: rest by simp] at hih
      rw [List.length_cons]
      omega

/-- If a pair list drops the class count by exactly its length, it is
independent in every prefix of the processing order. -/
theorem count_indep (nodes : List String) :
    ∀ (l H : List (String × String)) (uf : UF),
    WF uf → (∀ x y, SameRoot uf x y ↔ PConn H x y) →
    (∀ p ∈ l, p.1 ∈ nodes.toFinset ∧ p.2 ∈ nodes.toFinset) →
    Indep H →
    pcc nodes (H ++ l) + l.length = classesCard nodes.toFinset uf →
    Indep (H ++ l) := by
  intro l
  induction l with
  | nil =>
    intro H uf _ _ _ hH _
    rw [List.append_nil]
    exact hH
  | cons p rest ih =>
    intro H uf hwf hpart hends hH hcount
    obtain ⟨a, b⟩ := p
    obtain ⟨hwf', hbool, hmerge⟩ := union_spec hwf a b
    by_cases hs : SameRoot uf a b
    · exfalso
      have hPab : PConn H a b := (hpart a b).mp hs
      have hpart' : ∀ x y, SameRoot uf x y ↔ PConn (H ++ [(a, b)]) x y := by
        intro x y
        rw [hpart x y, pconn_snoc_absorb hPab x y]
      have hle := count_le nodes rest (H ++ [(a, b)]) uf hwf hpart'
        (fun q hq => hends q (List.mem_cons_of_mem _ hq))
      rw [show (H ++ [(a, b)]) ++ rest = H ++ (a, b) :: rest by simp] at hle
      rw [List.length_cons] at hcount
      omega
    · have hnc : ¬ PConn H a b := fun hc => hs ((hpart a b).mpr hc)
      have hpart' : ∀ x y, SameRoot (uf.union a b).1 x y ↔
          PConn (H ++ [(a, b)]) x y := by
        intro x y
        rw [hmerge x y, pconn_snoc H a b x y]
        rw [hpart x y, hpart x a, hpart b y, hpart x b, hpart a y]
      have hmergec := classesCard_union_merge hwf hs
        (hends (a, b) (List.mem_cons_self _ rest)).1
        (hends (a, b) (List.mem_cons_self _ rest)).2
      have hcount' : pcc nodes ((H ++ [(a, b)]) ++ rest) + rest.length =
          classesCard nodes.toFinset (uf.union a b).1 := by
        rw [show (H ++ [(a, b)]) ++ rest = H ++ (a, b) :: rest by simp]
        rw [List.length_cons] at hcount
        omega
      have hres := ih (H ++ [(a, b)]) (uf.union a b).1 hwf' hpart'
        (fun q hq => hends q (List.mem_cons_of_mem _ hq))
        (indep_snoc hH hnc) hcount'
      rw [show (H ++ [(a, b)]) ++ rest = H ++ (a, b) :: rest by simp] at hres
      exact hres

theorem kfold_mem_mono : ∀ (l : List (Edge α))
    (st : UF × List (Edge α) × α) (q : Edge α), q ∈ st.2.1 →
    q ∈ (l.foldl kstep st).2.1 := by
  intro l
  induction l with
  | nil =>
    intro st q hq
    exact hq
  | cons e rest ih =>
    intro st q hq
    rw [List.foldl_cons]
    apply ih
    obtain ⟨uf, m, t⟩ := st
    cases hb : (uf.union e.u e.v).2
    · rw [kstep_reject hb]
      exact hq
    · rw [kstep_accept hb]
      exact List.mem_append_left _ hq

theorem sorted_pairwise (edges : List (Edge α)) :
    (edges.insertionSort fun a b => a.weight ≤ b.weight).Pairwise
      (fun a b => a.weight ≤ b.weight) := by
  haveI : IsTotal (Edge α) fun a b => a.weight ≤ b.weight :=
    ⟨fun a b => le_total a.weight b.weight⟩
  haveI : IsTrans (Edge α) fun a b => a.weight ≤ b.weight :=
    ⟨fun a b c hab hbc => le_trans hab hbc⟩
  exact List.sorted_insertionSort _ edges

theorem take_le_get {l : List (Edge α)}
    (hsort : l.Pairwise fun a b => a.weight ≤ b.weight) {i : ℕ}
    (hi : i < l.length) :
    ∀ e ∈ l.take (i + 1), e.weight ≤ (l.get ⟨i, hi⟩).weight := by
  intro e he
  obtain ⟨j, hj, hget⟩ := List.mem_iff_getElem.mp he
  have hjlen : j < l.length := lt_of_lt_of_le hj (by
    rw [List.length_take]
    exact min_le_right _ _)
  have hji : j < i + 1 := lt_of_lt_of_le hj (by
    rw [List.length_take]
    exact min_le_left _ _)
  have hgl : l[j] = e := by
    rw [← List.getElem_take]
    exact hget
  rcases Nat.lt_or_ge j i with hlt | hge
  · have := List.pairwise_iff_getElem.mp hsort j i hjlen hi hlt
    rw [hgl] at this
    exact this
  · have hfix : j = i := by omega
    subst hfix
    rw [show (l.get ⟨j, hi⟩) = l[j] from rfl, hgl]

theorem mem_take_of_lt {l : List (Edge α)}
    (hsort : l.Pairwise fun a b => a.weight ≤ b.weight) {i : ℕ}
    (hi : i < l.length) {e : Edge α} (he : e ∈ l)
    (hw : e.weight < (l.get ⟨i, hi⟩).weight) : e ∈ l.take i := by
  obtain ⟨j, hj, hget⟩ := List.mem_iff_getElem.mp he
  have hji : j < i := by
    rcases Nat.lt_or_ge j i with hlt | hge
    · exact hlt
    · exfalso
      rcases Nat.lt_or_ge i j with hlt2 | hge2
      · have := List.pairwise_iff_getElem.mp hsort i j hi hj hlt2
        rw [hget] at this
        rw [show (l.get ⟨i, hi⟩) = l[i] from rfl] at hw
        exact absurd this (not_le.mpr hw)
      · have hfix : i = j := by omega
        subst hfix
        rw [show (l.get ⟨i, hi⟩) = l[i] from rfl, hget] at hw
        exact lt_irrefl _ hw
  have hjt : j < (l.take i).length := by
    rw [List.length_take]
    omega
  have : (l.take i)[j] = e := by
    rw [List.getElem_take]
    exact hget
  rw [← this]
  exact List.getElem_mem _
  
theorem sumW_le_of_get : ∀ (l l' : List (Edge α)), l.length = l'.length →
    (∀ i (h1 : i < l.length) (h2 : i < l'.length),
      (l.get ⟨i, h1⟩).weight ≤ (l'.get ⟨i, h2⟩).weight) →
    sumW l ≤ sumW l' := by
  intro l
  induction l with
  | nil =>
    intro l' hlen _
    cases l' with
    | nil => exact le_refl _
    | cons e' t' => cases hlen
  | cons e t ih =>
    intro l' hlen hle
    cases l' with
    | nil => cases hlen
    | cons e' t' =>
      have h0 := hle 0 (by simp) (by simp)
      have hrest := ih t' (by simpa using hlen)
        (fun i h1 h2 => hle (i + 1) (by simpa using h1) (by simpa using h2))
      show (((e :: t).map fun q => q.weight).sum : α) ≤
        ((e' :: t').map fun q => q.weight).sum
      simp only [List.map_cons, List.sum_cons]
      exact add_le_add h0 hrest

theorem pconn_congr_perm {l l' : List (String × String)} (hp : l.Perm l') :
    ∀ x y, PConn l x y ↔ PConn l' x y :=
  fun x y => ⟨pconn_mono fun p hq => hp.subset hq,
    pconn_mono fun p hq => hp.symm.subset hq⟩

/-- Greedy (weight-sorted) selection is minimal among independent
spanning selections. -/
theorem greedy_min_aux {nodes : List String} (hnd : nodes.Nodup)
    {edges S : List (Edge α)} (hSp : S.Perm edges)
    (hsort : S.Pairwise fun a b => a.weight ≤ b.weight)
    (hends : ∀ e ∈ edges, e.u ∈ nodes.toFinset ∧ e.v ∈ nodes.toFinset)
    {F : List (Edge α)} (hFsub : ∀ e ∈ F, e ∈ edges)
    (hFind : Indep (pairsOf F))
    (hFspan : ∀ x y, PConn (pairsOf F) x y ↔ PConn (pairsOf edges) x y) :
    (S.foldl kstep (UF.init nodes, [], 0)).2.2 ≤ sumW F := by
  obtain ⟨hwf0, hpart0⟩ := exec_pairs_spec nodes []
  have hSends : ∀ e ∈ S, e.u ∈ nodes.toFinset ∧ e.v ∈ nodes.toFinset :=
    fun e he => hends e (hSp.subset he)
  obtain ⟨hWK, hPK, hIK, hTK, hCK, hKK, hNK⟩ :=
    kfold_inv nodes S (UF.init nodes) [] 0 hwf0 hpart0 indep_nil rfl hSends
  set st := S.foldl kstep (UF.init nodes, ([] : List (Edge α)), (0 : α))
    with hstdef
  obtain ⟨kk, hkk1, hkk2⟩ := hKK
  have hkk1' : st.2.1 = kk := by simpa using hkk1
  have hKsort : st.2.1.Pairwise fun a b => a.weight ≤ b.weight := by
    rw [hkk1']
    exact hsort.sublist hkk2
  have hKsubS : ∀ e ∈ st.2.1, e ∈ S := by
    rw [hkk1']
    exact fun e he => hkk2.subset he
  have hKedges : ∀ e ∈ st.2.1, e ∈ edges := fun e he =>
    hSp.subset (hKsubS e he)
  have hKpend : ∀ p ∈ pairsOf st.2.1,
      p.1 ∈ nodes.toFinset ∧ p.2 ∈ nodes.toFinset := by
    intro p hp
    obtain ⟨e, he, rfl⟩ := List.mem_map.mp hp
    exact hends e (hKedges e he)
  have hFpend : ∀ p ∈ pairsOf F,
      p.1 ∈ nodes.toFinset ∧ p.2 ∈ nodes.toFinset := by
    intro p hp
    obtain ⟨e, he, rfl⟩ := List.mem_map.mp hp
    exact hends e (hFsub e he)
  have hPKedges : ∀ x y, PConn (pairsOf st.2.1) x y ↔
      PConn (pairsOf edges) x y := by
    intro x y
    rw [hCK x y, show pairsOf ([] : List (Edge α)) = [] from rfl,
      List.nil_append]
    exact pconn_congr_perm (hSp.map fun e => (e.u, e.v)) x y
  have hcountK : pcc nodes (pairsOf st.2.1) + st.2.1.length =
      nodes.length := by
    have h1 := hNK
    rw [pcc_of_state hWK hPK, classesCard_init hnd] at h1
    simpa using h1
  have hcountF : pcc nodes (pairsOf F) + F.length = nodes.length := by
    have h2 := indep_count hnd hFpend hFind
    rwa [show (pairsOf F).length = F.length from List.length_map _ _] at h2
  have hpccKE : pcc nodes (pairsOf st.2.1) = pcc nodes (pairsOf edges) :=
    pcc_congr hPKedges
  have hpccFE : pcc nodes (pairsOf F) = pcc nodes (pairsOf edges) :=
    pcc_congr hFspan
  have hlenKF : st.2.1.length = F.length := by omega
  set FS := F.insertionSort fun a b => a.weight ≤ b.weight with hFSdef
  have hFSp : FS.Perm F := List.perm_insertionSort _ F
  have hFSsort : FS.Pairwise fun a b => a.weight ≤ b.weight :=
    sorted_pairwise F
  have hFSsub : ∀ e ∈ FS, e ∈ edges := fun e he => hFsub e (hFSp.subset he)
  have hFSpend : ∀ p ∈ pairsOf FS,
      p.1 ∈ nodes.toFinset ∧ p.2 ∈ nodes.toFinset := by
    intro p hp
    obtain ⟨e, he, rfl⟩ := List.mem_map.mp hp
    exact hends e (hFSsub e he)
  have hFSlen : FS.length = F.length := hFSp.length_eq
  have hpairsperm : (pairsOf FS).Perm (pairsOf F) := by
    unfold pairsOf
    exact hFSp.map _
  have hcountFS : pcc nodes (pairsOf FS) + (pairsOf FS).length =
      classesCard nodes.toFinset (UF.init nodes) := by
    rw [pcc_congr (pconn_congr_perm hpairsperm), classesCard_init hnd,
      show (pairsOf FS).length = FS.length from List.length_map _ _, hFSlen]
    exact hcountF
  have hIndFS : Indep (pairsOf FS) := by
    have h3 := count_indep nodes (pairsOf FS) [] (UF.init nodes) hwf0
      hpart0 hFSpend indep_nil
      (by rw [List.nil_append]; exact hcountFS)
    rwa [List.nil_append] at h3
  have hlenKFS : st.2.1.length = FS.length := by omega
  have hptw : ∀ i (h1 : i < st.2.1.length) (h2 : i < FS.length),
      (st.2.1.get ⟨i, h1⟩).weight ≤ (FS.get ⟨i, h2⟩).weight := by
    intro i h1 h2
    by_contra hgt
    push_neg at hgt
    have hIA : Indep (pairsOf (st.2.1.take i)) := by
      rw [show pairsOf (st.2.1.take i) = (pairsOf st.2.1).take i from
        List.map_take _ _ _]
      exact indep_take hIK i
    have hIB : Indep (pairsOf (FS.take (i + 1))) := by
      rw [show pairsOf (FS.take (i + 1)) = (pairsOf FS).take (i + 1) from
        List.map_take _ _ _]
      exact indep_take hIndFS (i + 1)
    have hendA : ∀ p ∈ pairsOf (st.2.1.take i),
        p.1 ∈ nodes.toFinset ∧ p.2 ∈ nodes.toFinset := by
      intro p hp
      obtain ⟨e, he, rfl⟩ := List.mem_map.mp hp
      exact hends e (hKedges e (List.take_subset _ _ he))
    have hendB : ∀ p ∈ pairsOf (FS.take (i + 1)),
        p.1 ∈ nodes.toFinset ∧ p.2 ∈ nodes.toFinset := by
      intro p hp
      obtain ⟨e, he, rfl⟩ := List.mem_map.mp hp
      exact hends e (hFSsub e (List.take_subset _ _ he))
    have hlenA : (pairsOf (st.2.1.take i)).length = i := by
      rw [show (pairsOf (st.2.1.take i)).length = (st.2.1.take i).length
        from List.length_map _ _, List.length_take]
      omega
    have hlenB : (pairsOf (FS.take (i + 1))).length = i + 1 := by
      rw [show (pairsOf (FS.take (i + 1))).length = (FS.take (i + 1)).length
        from List.length_map _ _, List.length_take]
      omega
    obtain ⟨p, hpB, hpnc⟩ := exchange hnd hendA hendB hIA hIB (by omega)
    obtain ⟨eF, heF, rfl⟩ := List.mem_map.mp hpB
    have hweF : eF.weight ≤ (FS.get ⟨i, h2⟩).weight :=
      take_le_get hFSsort h2 eF heF
    have heFedges : eF ∈ edges := hFSsub eF (List.take_subset _ _ heF)
    have heFS : eF ∈ S := hSp.mem_iff.mpr heFedges
    obtain ⟨l1, l2, hsplit⟩ := List.append_of_mem heFS
    have hl1ends : ∀ e ∈ l1, e.u ∈ nodes.toFinset ∧ e.v ∈ nodes.toFinset :=
      fun e he => hSends e (by rw [hsplit]; exact List.mem_append_left _ he)
    obtain ⟨hW1, hP1, hI1, hT1, hC1, hK1, hN1⟩ :=
      kfold_inv nodes l1 (UF.init nodes) [] 0 hwf0 hpart0 indep_nil rfl
        hl1ends
    obtain ⟨m1, hm11, hm12⟩ := hK1
    have hKdec : st = (eF :: l2).foldl kstep
        (l1.foldl kstep (UF.init nodes, [], 0)) := by
      rw [hstdef, hsplit, List.foldl_append]
    have hm1K : ∀ q ∈ (l1.foldl kstep
        (UF.init nodes, ([] : List (Edge α)), (0 : α))).2.1, q ∈ st.2.1 := by
      intro q hq
      rw [hKdec]
      exact kfold_mem_mono (eF :: l2) _ q hq
    have hl1w : ∀ q ∈ l1, q.weight ≤ eF.weight := by
      have hpa := (List.pairwise_append.mp
        (by rw [← hsplit]; exact hsort)).2.2
      intro q hq
      exact hpa q hq eF (List.mem_cons_self _ _)
    by_cases hcase : PConn (pairsOf (l1.foldl kstep
        (UF.init nodes, ([] : List (Edge α)), (0 : α))).2.1) eF.u eF.v
    · apply hpnc
      have hm1A : ∀ q ∈ pairsOf (l1.foldl kstep
          (UF.init nodes, ([] : List (Edge α)), (0 : α))).2.1,
          q ∈ pairsOf (st.2.1.take i) := by
        intro q hq
        obtain ⟨e', he', rfl⟩ := List.mem_map.mp hq
        apply List.mem_map.mpr
        refine ⟨e', ?_, rfl⟩
        apply mem_take_of_lt hKsort h1 (hm1K e' he')
        have he'm1 : e' ∈ m1 := by
          rw [hm11] at he'
          simpa using he'
        have h3 := hl1w e' (hm12.subset he'm1)
        calc e'.weight ≤ eF.weight := h3
          _ ≤ (FS.get ⟨i, h2⟩).weight := hweF
          _ < (st.2.1.get ⟨i, h1⟩).weight := hgt
      exact pconn_mono hm1A hcase
    · have hnsr : ¬ SameRoot (l1.foldl kstep
          (UF.init nodes, ([] : List (Edge α)), (0 : α))).1 eF.u eF.v :=
        fun hc => hcase ((hP1 _ _).mp hc)
      obtain ⟨_, hbool1, _⟩ := union_spec hW1 eF.u eF.v
      have hb1 : ((l1.foldl kstep
          (UF.init nodes, ([] : List (Edge α)), (0 : α))).1.union
          eF.u eF.v).2 = true := hbool1.mpr hnsr
      have heFK : eF ∈ st.2.1 := by
        rw [hKdec, List.foldl_cons]
        apply kfold_mem_mono l2
        rw [show kstep (l1.foldl kstep
            (UF.init nodes, ([] : List (Edge α)), (0 : α))) eF =
          (((l1.foldl kstep
            (UF.init nodes, ([] : List (Edge α)), (0 : α))).1.union
              eF.u eF.v).1,
           (l1.foldl kstep
            (UF.init nodes, ([] : List (Edge α)), (0 : α))).2.1 ++ [eF],
           (l1.foldl kstep
            (UF.init nodes, ([] : List (Edge α)), (0 : α))).2.2 + eF.weight)
          from kstep_accept hb1]
        exact List.mem_append_right _ (List.mem_singleton.mpr rfl)
      apply hpnc
      have heFtake : eF ∈ st.2.1.take i := by
        apply mem_take_of_lt hKsort h1 heFK
        calc eF.weight ≤ (FS.get ⟨i, h2⟩).weight := hweF
          _ < (st.2.1.get ⟨i, h1⟩).weight := hgt
      exact pconn_of_mem (List.mem_map.mpr ⟨eF, heFtake, rfl⟩)
  have hsum := sumW_le_of_get st.2.1 FS hlenKFS hptw
  have hsumF : sumW FS = sumW F := by
    unfold sumW
    exact (hFSp.map fun e => e.weight).sum_eq
  rw [hTK]
  calc sumW st.2.1 ≤ sumW FS := hsum
    _ = sumW F := hsumF

/-- The number of classes of any consistent component-labelling equals
the class count of the generated connectivity. -/
theorem repcard_eq_pcc {nodes : List String} {l : List (String × String)}
    {f : String → String}
    (hf : ∀ x ∈ nodes, ∀ y ∈ nodes, (PConn l x y ↔ f x = f y)) :
    (nodes.toFinset.image f).card = pcc nodes l := by
  classical
  obtain ⟨hwf, hpart⟩ := exec_pairs_spec nodes l
  unfold pcc classesCard
  refine Finset.card_bij
    (fun c hc => rootD (execOps (UF.init nodes) (l.map Sum.inr))
      (Finset.mem_image.mp hc).choose) ?_ ?_ ?_
  · intro c hc
    obtain ⟨hx, _⟩ := (Finset.mem_image.mp hc).choose_spec
    exact Finset.mem_image_of_mem _ hx
  · intro c1 hc1 c2 hc2 he
    obtain ⟨hx1, hfx1⟩ := (Finset.mem_image.mp hc1).choose_spec
    obtain ⟨hx2, hfx2⟩ := (Finset.mem_image.mp hc2).choose_spec
    have hsr : SameRoot (execOps (UF.init nodes) (l.map Sum.inr))
        (Finset.mem_image.mp hc1).choose (Finset.mem_image.mp hc2).choose :=
      (rootD_eq_iff hwf _ _).mp he
    have hpc := (hpart _ _).mp hsr
    have hfe := (hf _ (List.mem_toFinset.mp hx1) _
      (List.mem_toFinset.mp hx2)).mp hpc
    rw [← hfx1, ← hfx2]
    exact hfe
  · intro d hd
    obtain ⟨y, hy, hyd⟩ := Finset.mem_image.mp hd
    refine ⟨f y, Finset.mem_image_of_mem _ hy, ?_⟩
    dsimp only
    show rootD (execOps (UF.init nodes) (l.map Sum.inr))
      (Finset.mem_image.mp (Finset.mem_image_of_mem f hy)).choose = d
    obtain ⟨hx, hfx⟩ := (Finset.mem_image.mp
      (Finset.mem_image_of_mem f hy)).choose_spec
    have hpc : PConn l (Finset.mem_image.mp
        (Finset.mem_image_of_mem f hy)).choose y :=
      (hf _ (List.mem_toFinset.mp hx) _ (List.mem_toFinset.mp hy)).mpr hfx
    have hsr := (hpart _ _).mpr hpc
    rw [← hyd]
    exact (rootD_eq_iff hwf _ _).mpr hsr

/-- The combined specification of `kruskal`. -/
theorem kruskal_spec {nodes : List String} (hnd : nodes.Nodup)
    {edges : List (Edge α)}
    (hends : ∀ e ∈ edges, e.u ∈ nodes.toFinset ∧ e.v ∈ nodes.toFinset) :
    (∀ e ∈ (kruskal nodes edges).1, e ∈ edges) ∧
    (kruskal nodes edges).2 = sumW (kruskal nodes edges).1 ∧
    Indep (pairsOf (kruskal nodes edges).1) ∧
    (∀ x y, PConn (pairsOf (kruskal nodes edges).1) x y ↔
      PConn (pairsOf edges) x y) ∧
    pcc nodes (pairsOf edges) + (kruskal nodes edges).1.length =
      nodes.length ∧
    (∀ F : List (Edge α), (∀ e ∈ F, e ∈ edges) → Indep (pairsOf F) →
      (∀ x y, PConn (pairsOf F) x y ↔ PConn (pairsOf edges) x y) →
      (kruskal nodes edges).2 ≤ sumW F) := by
  have hSp : (edges.insertionSort fun a b => a.weight ≤ b.weight).Perm
      edges := List.perm_insertionSort _ edges
  have hSends : ∀ e ∈ (edges.insertionSort fun a b => a.weight ≤ b.weight),
      e.u ∈ nodes.toFinset ∧ e.v ∈ nodes.toFinset :=
    fun e he => hends e (hSp.subset he)
  obtain ⟨hwf0, hpart0⟩ := exec_pairs_spec nodes []
  obtain ⟨hWK, hPK, hIK, hTK, hCK, hKK, hNK⟩ :=
    kfold_inv nodes (edges.insertionSort fun a b => a.weight ≤ b.weight)
      (UF.init nodes) [] 0 hwf0 hpart0 indep_nil rfl hSends
  obtain ⟨kk, hkk1, hkk2⟩ := hKK
  have hfst : (kruskal nodes edges).1 =
      ((edges.insertionSort fun a b => a.weight ≤ b.weight).foldl kstep
        (UF.init nodes, [], 0)).2.1 := rfl
  have hsnd : (kruskal nodes edges).2 =
      ((edges.insertionSort fun a b => a.weight ≤ b.weight).foldl kstep
        (UF.init nodes, [], 0)).2.2 := rfl
  have hPKedges : ∀ x y, PConn (pairsOf (kruskal nodes edges).1) x y ↔
      PConn (pairsOf edges) x y := by
    intro x y
    rw [hfst, hCK x y, show pairsOf ([] : List (Edge α)) = [] from rfl,
      List.nil_append]
    exact pconn_congr_perm (hSp.map fun e => (e.u, e.v)) x y
  refine ⟨?_, ?_, ?_, hPKedges, ?_, ?_⟩
  · intro e he
    rw [hfst, show ((edges.insertionSort fun a b => a.weight ≤ b.weight
      ).foldl kstep (UF.init nodes, [], 0)).2.1 = kk by simpa using hkk1]
      at he
    exact hSp.subset (hkk2.subset he)
  · rw [hfst, hsnd]
    exact hTK
  · rw [hfst]
    exact hIK
  · have h1 := hNK
    rw [pcc_of_state hWK hPK, classesCard_init hnd] at h1
    have h2 : pcc nodes (pairsOf ((edges.insertionSort
        fun a b => a.weight ≤ b.weight).foldl kstep
        (UF.init nodes, [], 0)).2.1) = pcc nodes (pairsOf edges) := by
      apply pcc_congr
      intro x y
      rw [← hfst]
      exact hPKedges x y
    rw [hfst]
    rw [h2] at h1
    simpa using h1
  · intro F hFsub hFind hFspan
    rw [hsnd]
    exact greedy_min_aux hnd hSp (sorted_pairwise edges) hends hFsub
      hFind hFspan

end Kruskal

/-- **C3.**  For every duplicate-free node-id list and edge list with
endpoints among the ids: `kruskal` returns edges of the input whose
total weight is the reported total, the selection is cycle-free (each
returned edge joins two ids not connected by the ones before it), it
spans every connected component (it generates the same connectivity as
the full edge list), the number of returned edges is `|nodes|` minus the
number of connected components (the class count of any consistent
component labelling), and its total weight is minimal among all
cycle-free selections from the edges with the same component
structure.  (The duplicate-id case is refuted separately.) -/
theorem claim_C3 {α : Type} [LinearOrderedCommRing α] (nodes : List String)
    (edges : List (Kruskal.Edge α)) (hnd : nodes.Nodup)
    (hends : ∀ e ∈ edges, e.u ∈ nodes ∧ e.v ∈ nodes) :
    (∀ e ∈ (Kruskal.kruskal nodes edges).1, e ∈ edges) ∧
    (Kruskal.kruskal nodes edges).2 =
      Kruskal.sumW (Kruskal.kruskal nodes edges).1 ∧
    Kruskal.Indep (Kruskal.pairsOf (Kruskal.kruskal nodes edges).1) ∧
    (∀ x y, Kruskal.PConn (Kruskal.pairsOf (Kruskal.kruskal nodes edges).1)
        x y ↔ Kruskal.PConn (Kruskal.pairsOf edges) x y) ∧
    (∀ f : String → String,
      (∀ x ∈ nodes, ∀ y ∈ nodes,
        (Kruskal.PConn (Kruskal.pairsOf edges) x y ↔ f x = f y)) →
      (Kruskal.kruskal nodes edges).1.length +
        (nodes.toFinset.image f).card = nodes.length) ∧
    (∀ F : List (Kruskal.Edge α), (∀ e ∈ F, e ∈ edges) →
      Kruskal.Indep (Kruskal.pairsOf F) →
      (∀ x y, Kruskal.PConn (Kruskal.pairsOf F) x y ↔
        Kruskal.PConn (Kruskal.pairsOf edges) x y) →
      (Kruskal.kruskal nodes edges).2 ≤ Kruskal.sumW F) := by
  have hends' : ∀ e ∈ edges, e.u ∈ nodes.toFinset ∧ e.v ∈ nodes.toFinset :=
    fun e he => ⟨List.mem_toFinset.mpr (hends e he).1,
      List.mem_toFinset.mpr (hends e he).2⟩
  obtain ⟨h1, h2, h3, h4, h5, h6⟩ := Kruskal.kruskal_spec hnd hends'
  refine ⟨h1, h2, h3, h4, ?_, h6⟩
  intro f hf
  rw [Kruskal.repcard_eq_pcc hf]
  omega

/-- **C3, witness.**  The spec's triangle `{A,B,C}` with weights
`A-B = 1`, `B-C = 2`, `A-C = 3`: all three ids are connected, so with
the constant labelling the theorem gives `|MST| + 1 = 3`, i.e. the MST
has the expected two edges. -/
theorem claim_C3_witness :
    (Kruskal.kruskal ["A", "B", "C"]
      [⟨"A", "B", (1 : ℤ)⟩, ⟨"B", "C", 2⟩, ⟨"A", "C", 3⟩]).1.length +
      ((["A", "B", "C"] : List String).toFinset.image
        (fun _ => "A")).card = (["A", "B", "C"] : List String).length := by
  have h := claim_C3 ["A", "B", "C"]
    [⟨"A", "B", (1 : ℤ)⟩, ⟨"B", "C", 2⟩, ⟨"A", "C", 3⟩] (by decide)
    (by decide)
  apply h.2.2.2.2.1
  have hAB : Kruskal.PConn (Kruskal.pairsOf
      [(⟨"A", "B", (1 : ℤ)⟩ : Kruskal.Edge ℤ), ⟨"B", "C", 2⟩,
        ⟨"A", "C", 3⟩]) "A" "B" :=
    Kruskal.pconn_of_mem (p := ("A", "B")) (by decide)
  have hBC : Kruskal.PConn (Kruskal.pairsOf
      [(⟨"A", "B", (1 : ℤ)⟩ : Kruskal.Edge ℤ), ⟨"B", "C", 2⟩,
        ⟨"A", "C", 3⟩]) "B" "C" :=
    Kruskal.pconn_of_mem (p := ("B", "C")) (by decide)
  have hAC : Kruskal.PConn (Kruskal.pairsOf
      [(⟨"A", "B", (1 : ℤ)⟩ : Kruskal.Edge ℤ), ⟨"B", "C", 2⟩,
        ⟨"A", "C", 3⟩]) "A" "C" :=
    Kruskal.pconn_of_mem (p := ("A", "C")) (by decide)
  intro x hx y hy
  constructor
  · intro _
    rfl
  · intro _
    simp only [List.mem_cons, List.not_mem_nil, or_false] at hx hy
    rcases hx with rfl | rfl | rfl <;> rcases hy with rfl | rfl | rfl
    · exact Kruskal.pconn_refl _ _
    · exact hAB
    · exact hAC
    · exact Kruskal.pconn_symm hAB
    · exact Kruskal.pconn_refl _ _
    · exact hBC
    · exact Kruskal.pconn_symm hAC
    · exact Kruskal.pconn_symm hBC
    · exact Kruskal.pconn_refl _ _

/-- **C3, counterexample.**  With the duplicated node list `["A", "A"]`
and no edges, `kruskal` returns no edges while the constant labelling is
a consistent component labelling with one class: the claimed count
`|nodes| − #components` would be `2 − 1 = 1 ≠ 0`, so the edge-count
formula fails for node lists with repeated ids. -/
theorem claim_C3_counterexample :
    (Kruskal.kruskal ["A", "A"] ([] : List (Kruskal.Edge ℤ))).1.length
      = 0 ∧
    (∀ x ∈ ["A", "A"], ∀ y ∈ ["A", "A"],
      (Kruskal.PConn (Kruskal.pairsOf ([] : List (Kruskal.Edge ℤ))) x y ↔
        (fun _ => "A") x = (fun _ => "A") y)) ∧
    ((["A", "A"] : List String).toFinset.image fun _ => "A").card = 1 ∧
    (Kruskal.kruskal ["A", "A"] ([] : List (Kruskal.Edge ℤ))).1.length +
        ((["A", "A"] : List String).toFinset.image fun _ => "A").card ≠
      (["A", "A"] : List String).length := by
  refine ⟨rfl, ?_, rfl, by decide⟩
  intro x hx y hy
  constructor
  · intro _
    rfl
  · intro _
    simp only [List.mem_cons, List.not_mem_nil, or_false, or_self]
      at hx hy
    rw [hx, hy]
    exact Kruskal.pconn_refl _ _
